import Mathlib

/-!
Verification development for the rcore-fs repository: a shallow embedding of
the SFS on-disk filesystem (rcore-fs-sfs/src/lib.rs), the byte-addressing
block-device adapter (rcore-fs/src/dev/mod.rs), the MountFS overlay
(rcore-fs-mountfs/src/lib.rs) and the DevFS tree (rcore-fs-devfs/src/lib.rs),
together with theorems about the allocator, the block mapping, resize,
byte I/O, mount traversal and directory operations.

Machine integers (`u32`, `usize`) are modelled as `Nat`, with explicit
`% 2 ^ 32` where the source performs an `as u32` cast.  Fallible Rust code
returning `vfs::Result` is modelled in `Except Err`, where `Err` also has a
`panic` constructor covering `panic!`, `unimplemented!`, `expect`, `assert!`
and `debug_assert!` (the repository is built and tested with debug
assertions enabled, so a failing `debug_assert!` aborts).
-/

namespace RcoreFs

instance {ε α : Type} [DecidableEq ε] [DecidableEq α] : DecidableEq (Except ε α) :=
  fun x y =>
    match x, y with
    | .ok a, .ok b =>
      if h : a = b then .isTrue (by rw [h])
      else .isFalse (by intro hh; cases hh; exact h rfl)
    | .error a, .error b =>
      if h : a = b then .isTrue (by rw [h])
      else .isFalse (by intro hh; cases hh; exact h rfl)
    | .ok _, .error _ => .isFalse (by intro hh; cases hh)
    | .error _, .ok _ => .isFalse (by intro hh; cases hh)

/-- `vfs::FileType` (rcore-fs/src/vfs.rs is not under src/; the variants are
listed in spec §3.1 and used throughout rcore-fs-sfs/src/lib.rs). -/
inductive FileType where
  | File | Dir | SymLink | CharDevice | BlockDevice | NamedPipe | Socket
deriving DecidableEq

/-- `vfs::FsError`, the error taxonomy of spec §6.3. -/
inductive FsError where
  | NotSupported | NotFile | IsDir | NotDir | EntryNotFound | EntryExist
  | NotSameFs | InvalidParam | NoDeviceSpace | DirRemoved | DirNotEmpty
  | WrongFs | DeviceError | IOCTLError | SymLoop | Busy | PermError
deriving DecidableEq

/-- Outcome of a fallible operation: either a `vfs::FsError` surfaced to the
caller, or an abort (`panic!` / `unimplemented!` / failed assertion /
`expect`), which in Rust unwinds and never produces a value. -/
inductive Err where
  | fs (e : FsError)
  | panic
deriving DecidableEq

/-- Modelled from the spec: `rcore-fs-sfs/src/structs.rs` is not under
`src/`.  Spec §3.2 fixes the block size: "Fixed block size `BLKSIZE`
(typically 4096)". -/
def BLKSIZE : Nat := 4096

/-- Modelled from the spec: `BLKSIZE_LOG2` with `BLKSIZE = 2 ^ BLKSIZE_LOG2`
(spec §3.2, §4.1). -/
def BLKSIZE_LOG2 : Nat := 12

/-- Modelled from the spec: entry size of a block-pointer table, spec §3.2
"`BLK_NENTRY = BLKSIZE / ENTRY_SIZE` (ENTRY_SIZE=4)". -/
def ENTRY_SIZE : Nat := 4

/-- Modelled from the spec: number of `u32` entries per block (spec §3.2). -/
def BLK_NENTRY : Nat := BLKSIZE / ENTRY_SIZE

/-- Modelled from the spec: number of direct block pointers; spec §8.2
scenario 2 fixes `NDIRECT = 12`. -/
def NDIRECT : Nat := 12

/-- Modelled from the spec: `MAX_NBLOCK_DIRECT = NDIRECT` (spec §3.2). -/
def MAX_NBLOCK_DIRECT : Nat := NDIRECT

/-- Modelled from the spec: `MAX_NBLOCK_INDIRECT = NDIRECT + BLK_NENTRY`
(spec §3.2). -/
def MAX_NBLOCK_INDIRECT : Nat := NDIRECT + BLK_NENTRY

/-- Modelled from the spec:
`MAX_NBLOCK_DOUBLE_INDIRECT = MAX_NBLOCK_INDIRECT + BLK_NENTRY²` (spec §3.2). -/
def MAX_NBLOCK_DOUBLE_INDIRECT : Nat := MAX_NBLOCK_INDIRECT + BLK_NENTRY * BLK_NENTRY

/-- Modelled from the spec: files larger than
`MAX_NBLOCK_DOUBLE_INDIRECT * BLKSIZE` cannot be created (spec §9). -/
def MAX_FILE_SIZE : Nat := MAX_NBLOCK_DOUBLE_INDIRECT * BLKSIZE

/-- Modelled from the spec: bits per freemap block — the free bitmap has one
bit per block and occupies whole blocks of `BLKSIZE` bytes (spec §3.2, §6.1),
hence `BLKBITS = BLKSIZE * 8`. -/
def BLKBITS : Nat := BLKSIZE * 8

/-- Modelled from the spec: `BLKN_FREEMAP` is block index 1 (spec §3.2). -/
def BLKN_FREEMAP : Nat := 1

/-! ## Byte-addressed device contents

SFS talks to an in-memory reliable `Device`; its contents are a total map
from byte address to byte value.  Block `b` occupies addresses
`[b*BLKSIZE, (b+1)*BLKSIZE)`. -/

/-- Read `n` bytes starting at address `a`. -/
def readBytes (dev : Nat → Nat) (a n : Nat) : List Nat :=
  (List.range n).map fun j => dev (a + j)

/-- Overwrite the `bs.length` bytes starting at address `a`
(`copy_from_slice` on a byte slice of the device). -/
def writeBytes (dev : Nat → Nat) (a : Nat) (bs : List Nat) : Nat → Nat :=
  fun x => if a ≤ x ∧ x < a + bs.length then bs.getD (x - a) 0 else dev x

/-- The four little-endian bytes of a `u32` value (`as_buf` on a `u32`). -/
def u32Bytes (v : Nat) : List Nat :=
  [v % 256, v / 256 % 256, v / 65536 % 256, v / 16777216 % 256]

/-- Reassemble a little-endian `u32` from the device at address `a`. -/
def readU32 (dev : Nat → Nat) (a : Nat) : Nat :=
  dev a + 256 * dev (a + 1) + 65536 * dev (a + 2) + 16777216 * dev (a + 3)

/-- Store a `u32` at address `a` (`as_buf` of the value, 4 bytes LE). -/
def writeU32 (dev : Nat → Nat) (a v : Nat) : Nat → Nat :=
  writeBytes dev a (u32Bytes v)

/-- `DeviceExt::read_block(id, offset, buf)` with `buf.len() = n`
(rcore-fs-sfs/src/lib.rs:40-49): `debug_assert!(offset + buf.len() <= BLKSIZE)`
then a device read; the device is a reliable in-memory map, so short reads
and device errors (both of which `panic!` in the source) do not occur. -/
def read_block (dev : Nat → Nat) (id off n : Nat) : Except Err (List Nat) :=
  if off + n ≤ BLKSIZE then .ok (readBytes dev (id * BLKSIZE + off) n)
  else .error .panic

/-- `DeviceExt::write_block(id, offset, buf)` (rcore-fs-sfs/src/lib.rs:50-58). -/
def write_block (dev : Nat → Nat) (id off : Nat) (bs : List Nat) :
    Except Err (Nat → Nat) :=
  if off + bs.length ≤ BLKSIZE then .ok (writeBytes dev (id * BLKSIZE + off) bs)
  else .error .panic

/-- `read_block` of a `u32` (`disk_block_id.as_buf_mut()` has length 4). -/
def read_block_u32 (dev : Nat → Nat) (id off : Nat) : Except Err Nat :=
  if off + 4 ≤ BLKSIZE then .ok (readU32 dev (id * BLKSIZE + off))
  else .error .panic

/-- `write_block` of a `u32` value (4 LE bytes). -/
def write_block_u32 (dev : Nat → Nat) (id off v : Nat) : Except Err (Nat → Nat) :=
  if off + 4 ≤ BLKSIZE then .ok (writeU32 dev (id * BLKSIZE + off) v)
  else .error .panic

/-! ## SFS state

`DiskINode` (spec §3.2, §6.1; the struct itself lives in the absent
structs.rs, its fields are read and written throughout
rcore-fs-sfs/src/lib.rs).  `SfsState` bundles the single inode an operation
works on with the filesystem pieces it touches: the device, the free map
(bit = `true` means free) and the superblock's `unused_blocks` counter.
The `device_inodes` table of `SimpleFileSystem` is left empty (no
`new_device_inode` call is modelled), so the `CharDevice` arms below take
the `None => Err(DeviceError)` path of the source. -/

structure DiskINode where
  type_ : FileType
  size : Nat
  blocks : Nat
  direct : List Nat
  indirect : Nat
  db_indirect : Nat
  nlinks : Nat

structure SfsState where
  dev : Nat → Nat
  freemap : List Bool
  unused_blocks : Nat
  inode : DiskINode

/-- `BitsetAlloc::alloc` (rcore-fs-sfs/src/lib.rs:1120-1129): find the first
set bit, clear it, return its index. -/
def bitset_alloc (m : List Bool) : Option (Nat × List Bool) :=
  match m.findIdx? (fun b => b) with
  | some id => some (id, m.set id false)
  | none => none

/-- `SimpleFileSystem::alloc_block` (rcore-fs-sfs/src/lib.rs:945-961).
Returns `some id` on success, `none` when the bitmap had a free bit but the
superblock reported `unused_blocks == 0` (the bit is put back), and aborts
(`panic!("{:?}", super_block)`) when the bitmap has no free bit. -/
def alloc_block (st : SfsState) : Except Err (Option Nat × SfsState) :=
  match bitset_alloc st.freemap with
  | some (id, m') =>
    if st.unused_blocks = 0 then
      .ok (none, { st with freemap := m'.set id true })
    else
      .ok (some id, { st with freemap := m', unused_blocks := st.unused_blocks - 1 })
  | none => .error .panic

/-- `alloc_block` as used in `_resize`: `.expect("no space")` turns `None`
into an abort. -/
def alloc_block_expect (st : SfsState) : Except Err (Nat × SfsState) :=
  match alloc_block st with
  | .ok (some id, st') => .ok (id, st')
  | .ok (none, _) => .error .panic
  | .error e => .error e

/-- `SimpleFileSystem::free_block` (rcore-fs-sfs/src/lib.rs:963-969):
`assert!(!free_map[block_id])` (indexing out of bounds also aborts), set the
bit, increment `unused_blocks`. -/
def free_block (st : SfsState) (block_id : Nat) : Except Err SfsState :=
  if h : block_id < st.freemap.length then
    if st.freemap.get ⟨block_id, h⟩ then .error .panic
    else .ok { st with freemap := st.freemap.set block_id true,
                       unused_blocks := st.unused_blocks + 1 }
  else .error .panic

/-- `INodeImpl::get_disk_block_id` (rcore-fs-sfs/src/lib.rs:96-131).
`assert!(indirect_block_id > 0)` / `assert!(disk_block_id > 0)` abort, and the
final `unimplemented!("triple indirect blocks is not supported")` aborts. -/
def get_disk_block_id (st : SfsState) (file_block_id : Nat) : Except Err Nat :=
  if file_block_id ≥ st.inode.blocks then .error (.fs .InvalidParam)
  else if file_block_id < MAX_NBLOCK_DIRECT then
    .ok (st.inode.direct.getD file_block_id 0)
  else if file_block_id < MAX_NBLOCK_INDIRECT then do
    let v ← read_block_u32 st.dev st.inode.indirect
      (ENTRY_SIZE * (file_block_id - NDIRECT))
    .ok v
  else if file_block_id < MAX_NBLOCK_DOUBLE_INDIRECT then do
    let indirect_id := file_block_id - MAX_NBLOCK_INDIRECT
    let indirect_block_id ← read_block_u32 st.dev st.inode.db_indirect
      (ENTRY_SIZE * (indirect_id / BLK_NENTRY))
    if indirect_block_id = 0 then .error .panic
    else do
      let disk_block_id ← read_block_u32 st.dev indirect_block_id
        (ENTRY_SIZE * (indirect_id % BLK_NENTRY))
      if disk_block_id = 0 then .error .panic
      else .ok disk_block_id
  else .error .panic

/-- `INodeImpl::set_disk_block_id` (rcore-fs-sfs/src/lib.rs:132-168).
`disk_block_id as u32` is `% 2 ^ 32`. -/
def set_disk_block_id (st : SfsState) (file_block_id disk_block_id : Nat) :
    Except Err SfsState :=
  if file_block_id ≥ st.inode.blocks then .error (.fs .InvalidParam)
  else if file_block_id < MAX_NBLOCK_DIRECT then
    .ok { st with inode := { st.inode with
      direct := st.inode.direct.set file_block_id (disk_block_id % 2 ^ 32) } }
  else if file_block_id < MAX_NBLOCK_INDIRECT then do
    let dev' ← write_block_u32 st.dev st.inode.indirect
      (ENTRY_SIZE * (file_block_id - NDIRECT)) (disk_block_id % 2 ^ 32)
    .ok { st with dev := dev' }
  else if file_block_id < MAX_NBLOCK_DOUBLE_INDIRECT then do
    let indirect_id := file_block_id - MAX_NBLOCK_INDIRECT
    let indirect_block_id ← read_block_u32 st.dev st.inode.db_indirect
      (ENTRY_SIZE * (indirect_id / BLK_NENTRY))
    if indirect_block_id = 0 then .error .panic
    else do
      let dev' ← write_block_u32 st.dev indirect_block_id
        (ENTRY_SIZE * (indirect_id % BLK_NENTRY)) (disk_block_id % 2 ^ 32)
      .ok { st with dev := dev' }
  else .error .panic

/-! ## Block iterator

Modelled from the spec (rcore-fs/src/util.rs is not under `src/`): "Block
Iterator: given a byte range `[begin, end)` and block size `2^k`, yields
`(block_index, intra_block_begin, intra_block_end)` triples covering the
range" (spec §2).  Each step advances by at least one byte, so `hi - lo`
steps suffice; `blockRanges` materialises the whole iterator as a list. -/

structure BlockRange where
  block : Nat
  begin_ : Nat
  end_ : Nat
  block_size_log2 : Nat
deriving DecidableEq

def BlockRange.len (r : BlockRange) : Nat := r.end_ - r.begin_

def BlockRange.origin_begin (r : BlockRange) : Nat :=
  r.block * 2 ^ r.block_size_log2 + r.begin_

def BlockRange.origin_end (r : BlockRange) : Nat :=
  r.block * 2 ^ r.block_size_log2 + r.end_

def BlockRange.is_full (r : BlockRange) : Bool :=
  r.len = 2 ^ r.block_size_log2

def blockRangesAux (k : Nat) : Nat → Nat → Nat → List BlockRange
  | 0, _, _ => []
  | fuel + 1, lo, hi =>
    if lo < hi then
      let bs := 2 ^ k
      let block := lo / bs
      let b := lo % bs
      let e := if block = hi / bs then hi % bs else bs
      ⟨block, b, e, k⟩ :: blockRangesAux k fuel (lo + (e - b)) hi
    else []

def blockRanges (k lo hi : Nat) : List BlockRange := blockRangesAux k (hi - lo) lo hi

/-! ## SFS byte I/O (`_read_at`, `_write_at`, `_clean_at`,
rcore-fs-sfs/src/lib.rs:372-446): clip `[offset, offset+len)` against the
current size, then per block range translate via `get_disk_block_id` and
dispatch to the device. -/

def readRanges (st : SfsState) : List BlockRange → Except Err (List Nat)
  | [] => .ok []
  | r :: rest => do
    let dbid ← get_disk_block_id st r.block
    let chunk ← read_block st.dev dbid r.begin_ r.len
    let tail ← readRanges st rest
    .ok (chunk ++ tail)

def _read_at (st : SfsState) (offset n : Nat) : Except Err (List Nat) :=
  readRanges st
    (blockRanges BLKSIZE_LOG2 (min st.inode.size offset) (min st.inode.size (offset + n)))

def writeRanges (buf : List Nat) : List BlockRange → Nat → SfsState →
    Except Err (Nat × SfsState)
  | [], buf_offset, st => .ok (buf_offset, st)
  | r :: rest, buf_offset, st => do
    let dbid ← get_disk_block_id st r.block
    let dev' ← write_block st.dev dbid r.begin_ ((buf.drop buf_offset).take r.len)
    writeRanges buf rest (buf_offset + r.len) { st with dev := dev' }

def _write_at (st : SfsState) (offset : Nat) (buf : List Nat) :
    Except Err (Nat × SfsState) :=
  writeRanges buf
    (blockRanges BLKSIZE_LOG2 (min st.inode.size offset)
      (min st.inode.size (offset + buf.length))) 0 st

def cleanRanges : List BlockRange → Nat → SfsState → Except Err (Nat × SfsState)
  | [], buf_offset, st => .ok (buf_offset, st)
  | r :: rest, buf_offset, st => do
    let dbid ← get_disk_block_id st r.block
    let dev' ← write_block st.dev dbid r.begin_ (List.replicate r.len 0)
    cleanRanges rest (buf_offset + r.len) { st with dev := dev' }

def _clean_at (st : SfsState) (begin_ end_ : Nat) : Except Err (Nat × SfsState) :=
  cleanRanges
    (blockRanges BLKSIZE_LOG2 (min st.inode.size begin_) (min st.inode.size end_)) 0 st

/-! ## `_resize` (rcore-fs-sfs/src/lib.rs:232-334) -/

/-- Sequencing of a bounded `for` loop in the `Except` monad. -/
def foldE (f : SfsState → Nat → Except Err SfsState) :
    SfsState → List Nat → Except Err SfsState
  | st, [] => .ok st
  | st, i :: rest => do
    let st' ← f st i
    foldE f st' rest

/-- Greater branch, `for i in indirect_begin..indirect_end`: allocate an
indirect page and store its id in entry `i` of the `db_indirect` block
(rcore-fs-sfs/src/lib.rs:266-273). -/
def resizeAllocPages (st : SfsState) (indirect_begin indirect_end : Nat) :
    Except Err SfsState :=
  foldE (fun s i => do
    let (indirect, s') ← alloc_block_expect s
    let dev' ← write_block_u32 s'.dev s'.inode.db_indirect (ENTRY_SIZE * i)
      (indirect % 2 ^ 32)
    .ok { s' with dev := dev' }) st (List.range' indirect_begin (indirect_end - indirect_begin))

/-- Greater branch, `for i in old_blocks..blocks`: allocate a data block and
install it (rcore-fs-sfs/src/lib.rs:277-280). -/
def resizeAllocData (st : SfsState) (old_blocks blocks : Nat) : Except Err SfsState :=
  foldE (fun s i => do
    let (disk_block_id, s') ← alloc_block_expect s
    set_disk_block_id s' i disk_block_id) st (List.range' old_blocks (blocks - old_blocks))

/-- Less branch, `for i in blocks..old_blocks`: free the mapped data blocks
(rcore-fs-sfs/src/lib.rs:290-293). -/
def resizeFreeData (st : SfsState) (blocks old_blocks : Nat) : Except Err SfsState :=
  foldE (fun s i => do
    let dbid ← get_disk_block_id s i
    free_block s dbid) st (List.range' blocks (old_blocks - blocks))

/-- Less branch, `for i in indirect_begin..indirect_end`: read each indirect
page id out of the `db_indirect` block (`assert!(indirect > 0)`) and free it
(rcore-fs-sfs/src/lib.rs:313-322). -/
def resizeFreePages (st : SfsState) (indirect_begin indirect_end : Nat) :
    Except Err SfsState :=
  foldE (fun s i => do
    let indirect ← read_block_u32 s.dev s.inode.db_indirect (ENTRY_SIZE * i)
    if indirect = 0 then .error .panic
    else free_block s indirect) st (List.range' indirect_begin (indirect_end - indirect_begin))

/-- `INodeImpl::_resize` (rcore-fs-sfs/src/lib.rs:232-334). -/
def _resize (st : SfsState) (len : Nat) : Except Err SfsState :=
  if len > MAX_FILE_SIZE then .error (.fs .InvalidParam)
  else
    let blocks := (len + BLKSIZE - 1) / BLKSIZE
    if blocks > MAX_NBLOCK_DOUBLE_INDIRECT then .error (.fs .InvalidParam)
    else
      let old_blocks := st.inode.blocks
      if blocks = old_blocks then
        .ok { st with inode := { st.inode with size := len } }
      else if old_blocks < blocks then do
        -- Ordering::Greater
        let st1 := { st with inode := { st.inode with blocks := blocks } }
        -- allocate indirect block if needed
        let st2 ←
          if old_blocks < MAX_NBLOCK_DIRECT ∧ MAX_NBLOCK_DIRECT ≤ blocks then do
            let (id, s) ← alloc_block_expect st1
            Except.ok { s with inode := { s.inode with indirect := id % 2 ^ 32 } }
          else .ok st1
        -- allocate double indirect block if needed, then new indirect pages
        let st3 ←
          if MAX_NBLOCK_INDIRECT ≤ blocks then do
            let s ←
              if st2.inode.db_indirect = 0 then do
                let (id, s) ← alloc_block_expect st2
                Except.ok { s with inode := { s.inode with db_indirect := id % 2 ^ 32 } }
              else .ok st2
            let indirect_begin :=
              if old_blocks < MAX_NBLOCK_INDIRECT then 0
              else (old_blocks - MAX_NBLOCK_INDIRECT) / BLK_NENTRY + 1
            let indirect_end := (blocks - MAX_NBLOCK_INDIRECT) / BLK_NENTRY + 1
            resizeAllocPages s indirect_begin indirect_end
          else .ok st2
        -- allocate extra blocks
        let st4 ← resizeAllocData st3 old_blocks blocks
        -- clean up: set size, then zero-fill [old_size, len)
        let old_size := st4.inode.size
        let st5 := { st4 with inode := { st4.inode with size := len } }
        let (_, st6) ← _clean_at st5 old_size len
        .ok st6
      else do
        -- Ordering::Less: free extra blocks
        let stA ← resizeFreeData st blocks old_blocks
        -- free indirect block if needed
        let stB ←
          if blocks < MAX_NBLOCK_DIRECT ∧ MAX_NBLOCK_DIRECT ≤ stA.inode.blocks then do
            let s ← free_block stA stA.inode.indirect
            Except.ok { s with inode := { s.inode with indirect := 0 } }
          else .ok stA
        -- free double indirect block if needed
        let stC ←
          if MAX_NBLOCK_INDIRECT ≤ stB.inode.blocks then do
            let indirect_begin :=
              if blocks < MAX_NBLOCK_INDIRECT then 0
              else (blocks - MAX_NBLOCK_INDIRECT) / BLK_NENTRY + 1
            let indirect_end := (stB.inode.blocks - MAX_NBLOCK_INDIRECT) / BLK_NENTRY + 1
            let s ← resizeFreePages stB indirect_begin indirect_end
            if blocks < MAX_NBLOCK_INDIRECT then
              if s.inode.db_indirect = 0 then .error .panic
              else do
                let s' ← free_block s s.inode.db_indirect
                Except.ok { s' with inode := { s'.inode with db_indirect := 0 } }
            else .ok s
          else .ok stB
        .ok { stC with inode := { stC.inode with blocks := blocks, size := len } }

/-! ## INode-level operations (`vfs::INode` impl,
rcore-fs-sfs/src/lib.rs:489-524, 591-598).  The `CharDevice` arms consult the
`device_inodes` table, which is empty in the modelled states, hence
`Err(DeviceError)`. -/

def vfs_read_at (st : SfsState) (offset n : Nat) : Except Err (List Nat) :=
  match st.inode.type_ with
  | .File => _read_at st offset n
  | .SymLink => _read_at st offset n
  | .CharDevice => .error (.fs .DeviceError)
  | _ => .error (.fs .NotFile)

def vfs_write_at (st : SfsState) (offset : Nat) (buf : List Nat) :
    Except Err (Nat × SfsState) :=
  match st.inode.type_ with
  | .File | .SymLink => do
    let end_offset := offset + buf.length
    let st1 ← if st.inode.size < end_offset then _resize st end_offset else .ok st
    _write_at st1 offset buf
  | .CharDevice => .error (.fs .DeviceError)
  | _ => .error (.fs .NotFile)

def vfs_resize (st : SfsState) (len : Nat) : Except Err SfsState :=
  if st.inode.type_ ≠ .File ∧ st.inode.type_ ≠ .SymLink then .error (.fs .NotFile)
  else _resize st len

/-! ## Reduction of `Except` binds -/

theorem bindE_ok {ε α β : Type} (a : α) (f : α → Except ε β) :
    (Except.ok a >>= f) = f a := rfl

theorem bindE_err {ε α β : Type} (e : ε) (f : α → Except ε β) :
    ((Except.error e : Except ε α) >>= f) = Except.error e := rfl

/-! ## Numeric values of the derived constants -/

theorem BLK_NENTRY_eq : BLK_NENTRY = 1024 := rfl
theorem MAX_NBLOCK_INDIRECT_eq : MAX_NBLOCK_INDIRECT = 1036 := rfl
theorem MAX_NBLOCK_DOUBLE_INDIRECT_eq : MAX_NBLOCK_DOUBLE_INDIRECT = 1049612 := rfl

/-! ## List helpers -/

theorem set_self_of_getElem {l : List Bool} {i : Nat} {a : Bool}
    (h : i < l.length) (hv : l[i] = a) : l.set i a = l := by
  apply List.ext_getElem?
  intro j
  rcases eq_or_ne i j with rfl | hne
  · rw [List.getElem?_set_self h, List.getElem?_eq_getElem h, hv]
  · rw [List.getElem?_set_ne hne]

/-! ## Characterization of `bitset_alloc` -/

theorem bitset_alloc_some {m : List Bool} {id : Nat} {m' : List Bool}
    (h : bitset_alloc m = some (id, m')) :
    id < m.length ∧ m.getD id false = true ∧
    (∀ j, j < id → m.getD j false = false) ∧ m' = m.set id false := by
  unfold bitset_alloc at h
  cases hf : m.findIdx? (fun b => b) with
  | none => rw [hf] at h; cases h
  | some k =>
    rw [hf] at h
    cases h
    obtain ⟨hlt, hidx⟩ := List.findIdx?_eq_some_iff_findIdx_eq.mp hf
    subst hidx
    refine ⟨hlt, ?_, ?_, rfl⟩
    · rw [List.getD_eq_getElem?_getD, List.getElem?_eq_getElem hlt]
      simpa using List.findIdx_getElem (w := hlt)
    · intro j hj
      have hjl : j < m.length := lt_trans hj hlt
      rw [List.getD_eq_getElem?_getD, List.getElem?_eq_getElem hjl]
      simpa using List.not_of_lt_findIdx hj

theorem bitset_alloc_none {m : List Bool} (h : ∀ x ∈ m, x = false) :
    bitset_alloc m = none := by
  unfold bitset_alloc
  rw [List.findIdx?_eq_none_iff.mpr fun x hx => h x hx]

theorem bitset_alloc_isSome {m : List Bool} (h : ∃ x ∈ m, x = true) :
    ∃ id m', bitset_alloc m = some (id, m') := by
  unfold bitset_alloc
  cases hf : m.findIdx? (fun b => b) with
  | none =>
    obtain ⟨x, hx, hxt⟩ := h
    have := List.findIdx?_eq_none_iff.mp hf x hx
    rw [hxt] at this
    cases this
  | some k => exact ⟨k, m.set k false, rfl⟩

/-- C3 (amended): when the freemap has a free bit and `unused_blocks ≠ 0`,
`alloc_block` clears the first free bit, decrements `unused_blocks` and
returns the index; when `unused_blocks = 0` but a free bit exists it returns
`none` leaving the state unchanged; when the freemap has **no** free bit it
aborts with `panic!` instead of returning `none`. -/
theorem C3_alloc_block_characterization (st : SfsState) :
    (∀ id st', alloc_block st = .ok (some id, st') →
      id < st.freemap.length ∧
      st.freemap.getD id false = true ∧
      (∀ j, j < id → st.freemap.getD j false = false) ∧
      st'.freemap = st.freemap.set id false ∧
      st'.unused_blocks = st.unused_blocks - 1 ∧
      st.unused_blocks ≠ 0 ∧ st'.dev = st.dev ∧ st'.inode = st.inode) ∧
    (st.unused_blocks = 0 → (∃ x ∈ st.freemap, x = true) →
      alloc_block st = .ok (none, st)) ∧
    ((∀ x ∈ st.freemap, x = false) → alloc_block st = .error .panic) := by
  refine ⟨?_, ?_, ?_⟩
  · intro id st' h
    unfold alloc_block at h
    cases hb : bitset_alloc st.freemap with
    | none => rw [hb] at h; cases h
    | some p =>
      obtain ⟨bid, m'⟩ := p
      rw [hb] at h
      dsimp only at h
      obtain ⟨hlt, hbit, hmin, hm'⟩ := bitset_alloc_some hb
      by_cases hu : st.unused_blocks = 0
      · rw [if_pos hu] at h; cases h
      · rw [if_neg hu] at h
        cases h
        exact ⟨hlt, hbit, hmin, by rw [hm'], rfl, hu, rfl, rfl⟩
  · intro hu hex
    obtain ⟨id, m', hb⟩ := bitset_alloc_isSome hex
    obtain ⟨hlt, hbit, _, hm'⟩ := bitset_alloc_some hb
    unfold alloc_block
    rw [hb]
    dsimp only
    rw [if_pos hu, hm', List.set_set]
    have : st.freemap.set id true = st.freemap := by
      apply set_self_of_getElem hlt
      have := hbit
      rwa [List.getD_eq_getElem?_getD, List.getElem?_eq_getElem hlt,
        Option.getD_some] at this
    rw [this]
  · intro hall
    unfold alloc_block
    rw [bitset_alloc_none hall]

/-- C3 counterexample to the claim as stated: in a state whose superblock
reports no unused blocks and whose freemap (consistently) has no free bit,
`alloc_block` aborts via `panic!` — it does not return `none`. -/
def c3_full_state : SfsState :=
  { dev := fun _ => 0
    freemap := [false, false]
    unused_blocks := 0
    inode := { type_ := .File, size := 0, blocks := 0,
               direct := List.replicate 12 0, indirect := 0, db_indirect := 0,
               nlinks := 1 } }

theorem C3_counterexample :
    c3_full_state.unused_blocks = 0 ∧
    alloc_block c3_full_state = Except.error Err.panic := ⟨rfl, rfl⟩

def c3_wit_ok : SfsState :=
  { c3_full_state with freemap := [false, true, true], unused_blocks := 2 }

def c3_wit_ok' : SfsState :=
  { c3_wit_ok with freemap := [false, false, true], unused_blocks := 1 }

def c3_wit_none : SfsState :=
  { c3_full_state with freemap := [false, true], unused_blocks := 0 }

theorem C3_alloc_block_characterization_witness :
    c3_wit_ok'.freemap = c3_wit_ok.freemap.set 1 false ∧
    alloc_block c3_wit_none = Except.ok (none, c3_wit_none) ∧
    alloc_block c3_full_state = Except.error Err.panic :=
  ⟨(((C3_alloc_block_characterization c3_wit_ok).1 1 c3_wit_ok' rfl).2.2.2.1),
   (C3_alloc_block_characterization c3_wit_none).2.1 rfl ⟨true, by decide, rfl⟩,
   (C3_alloc_block_characterization c3_full_state).2.2 (by decide)⟩

/-- C5: the four guards of `get_disk_block_id`.  `id ≥ blocks` (checked
first) yields `InvalidParam`; direct ids read `inode.direct[id]`; indirect
ids read the `u32` at byte offset `ENTRY_SIZE*(id-NDIRECT)` of block
`inode.indirect`; double-indirect ids first read the indirect-page pointer
at entry `k / BLK_NENTRY` of block `inode.db_indirect` and then the data
pointer at entry `k % BLK_NENTRY` of that page (`k = id -
MAX_NBLOCK_INDIRECT`); the positivity hypotheses in the last case mirror the
source's `assert!`s on the two loaded pointers. -/
theorem C5_get_disk_block_id_cases (st : SfsState) (id : Nat) :
    (st.inode.blocks ≤ id →
      get_disk_block_id st id = .error (.fs .InvalidParam)) ∧
    (id < st.inode.blocks → id < MAX_NBLOCK_DIRECT →
      get_disk_block_id st id = .ok (st.inode.direct.getD id 0)) ∧
    (id < st.inode.blocks → MAX_NBLOCK_DIRECT ≤ id → id < MAX_NBLOCK_INDIRECT →
      get_disk_block_id st id =
        .ok (readU32 st.dev
          (st.inode.indirect * BLKSIZE + ENTRY_SIZE * (id - NDIRECT)))) ∧
    (∀ ipage, id < st.inode.blocks → MAX_NBLOCK_INDIRECT ≤ id →
      id < MAX_NBLOCK_DOUBLE_INDIRECT →
      ipage = readU32 st.dev (st.inode.db_indirect * BLKSIZE +
        ENTRY_SIZE * ((id - MAX_NBLOCK_INDIRECT) / BLK_NENTRY)) →
      0 < ipage →
      0 < readU32 st.dev (ipage * BLKSIZE +
        ENTRY_SIZE * ((id - MAX_NBLOCK_INDIRECT) % BLK_NENTRY)) →
      get_disk_block_id st id =
        .ok (readU32 st.dev (ipage * BLKSIZE +
          ENTRY_SIZE * ((id - MAX_NBLOCK_INDIRECT) % BLK_NENTRY)))) := by
  have hMD : MAX_NBLOCK_DIRECT = 12 := rfl
  have hMI : MAX_NBLOCK_INDIRECT = 1036 := rfl
  have hMDI : MAX_NBLOCK_DOUBLE_INDIRECT = 1049612 := rfl
  refine ⟨?_, ?_, ?_, ?_⟩
  · intro h
    unfold get_disk_block_id
    rw [if_pos h]
  · intro h1 h2
    unfold get_disk_block_id
    rw [if_neg (by omega), if_pos h2]
  · intro h1 h2 h3
    have h3' : id - NDIRECT < 1024 := by
      rw [hMI] at h3; simp only [NDIRECT]; omega
    unfold get_disk_block_id read_block_u32
    rw [if_neg (by omega), if_neg (by omega), if_pos h3,
      if_pos (by simp only [ENTRY_SIZE, BLKSIZE]; omega), bindE_ok]
  · intro ipage h1 h2 h3 hip hpos hpos2
    have hdiv : (id - MAX_NBLOCK_INDIRECT) / BLK_NENTRY ≤ 1023 := by
      rw [BLK_NENTRY_eq]
      calc (id - MAX_NBLOCK_INDIRECT) / 1024 ≤ 1048575 / 1024 :=
            Nat.div_le_div_right (by rw [hMI] at h2 ⊢; rw [hMDI] at h3; omega)
        _ = 1023 := by norm_num
    have hmod : (id - MAX_NBLOCK_INDIRECT) % BLK_NENTRY < 1024 := by
      rw [BLK_NENTRY_eq]; exact Nat.mod_lt _ (by norm_num)
    subst hip
    unfold get_disk_block_id read_block_u32
    rw [if_neg (by omega), if_neg (by omega), if_neg (by omega), if_pos h3]
    dsimp only
    rw [if_pos (by simp only [ENTRY_SIZE, BLKSIZE]; omega), bindE_ok,
      if_neg (by omega), if_pos (by simp only [ENTRY_SIZE, BLKSIZE]; omega),
      bindE_ok, if_neg (by omega)]

def c5_wit_state : SfsState :=
  { dev := fun _ => 1
    freemap := []
    unused_blocks := 0
    inode := { type_ := .File, size := 0, blocks := 2000,
               direct := (List.range 12).map (fun i => 100 + i),
               indirect := 7, db_indirect := 9, nlinks := 1 } }

theorem C5_get_disk_block_id_cases_witness :
    get_disk_block_id c5_wit_state 2000 = Except.error (Err.fs FsError.InvalidParam) ∧
    get_disk_block_id c5_wit_state 3 = Except.ok 103 ∧
    get_disk_block_id c5_wit_state 20 =
      Except.ok (readU32 c5_wit_state.dev (7 * BLKSIZE + ENTRY_SIZE * 8)) ∧
    get_disk_block_id c5_wit_state 1040 =
      Except.ok (readU32 c5_wit_state.dev
        (readU32 c5_wit_state.dev (9 * BLKSIZE + ENTRY_SIZE * 0) * BLKSIZE +
          ENTRY_SIZE * 4)) :=
  ⟨(C5_get_disk_block_id_cases c5_wit_state 2000).1 (by decide),
   (C5_get_disk_block_id_cases c5_wit_state 3).2.1 (by decide) (by decide),
   (C5_get_disk_block_id_cases c5_wit_state 20).2.2.1 (by decide) (by decide) (by decide),
   (C5_get_disk_block_id_cases c5_wit_state 1040).2.2.2
     (readU32 c5_wit_state.dev (9 * BLKSIZE + ENTRY_SIZE * 0))
     (by decide) (by decide) (by decide) rfl (by decide) (by decide)⟩

/-- C9 (amended): for `file_block_id < inode.blocks` at or above
`MAX_NBLOCK_DOUBLE_INDIRECT`, both `get_disk_block_id` and
`set_disk_block_id` hit `unimplemented!("triple indirect blocks is not
supported")`, which aborts — the branch does not return an error value. -/
theorem C9_beyond_double_indirect_aborts (st : SfsState) (id d : Nat)
    (h1 : id < st.inode.blocks) (h2 : MAX_NBLOCK_DOUBLE_INDIRECT ≤ id) :
    get_disk_block_id st id = .error .panic ∧
    set_disk_block_id st id d = .error .panic := by
  have hMD : MAX_NBLOCK_DIRECT = 12 := rfl
  have hMI : MAX_NBLOCK_INDIRECT = 1036 := rfl
  have hMDI : MAX_NBLOCK_DOUBLE_INDIRECT = 1049612 := rfl
  constructor
  · unfold get_disk_block_id
    rw [if_neg (by omega), if_neg (by omega), if_neg (by omega), if_neg (by omega)]
  · unfold set_disk_block_id
    rw [if_neg (by omega), if_neg (by omega), if_neg (by omega), if_neg (by omega)]

def c9_state : SfsState :=
  { dev := fun _ => 0
    freemap := []
    unused_blocks := 0
    inode := { type_ := .File, size := 0,
               blocks := MAX_NBLOCK_DOUBLE_INDIRECT + 1,
               direct := List.replicate 12 0, indirect := 0, db_indirect := 0,
               nlinks := 1 } }

/-- C9 counterexample to the claim as stated: at a `file_block_id` below
`inode.blocks` but at the double-indirect limit, `get_disk_block_id` aborts
(`unimplemented!` panics); in particular it does not raise
`FsError::NotSupported`. -/
theorem C9_counterexample :
    get_disk_block_id c9_state MAX_NBLOCK_DOUBLE_INDIRECT = Except.error Err.panic ∧
    get_disk_block_id c9_state MAX_NBLOCK_DOUBLE_INDIRECT ≠
      Except.error (Err.fs FsError.NotSupported) := by
  exact ⟨by decide, by decide⟩

theorem C9_beyond_double_indirect_aborts_witness :
    get_disk_block_id c9_state (MAX_NBLOCK_DOUBLE_INDIRECT + 0) = Except.error Err.panic ∧
    set_disk_block_id c9_state (MAX_NBLOCK_DOUBLE_INDIRECT + 0) 5 = Except.error Err.panic :=
  C9_beyond_double_indirect_aborts c9_state _ 5 (by decide) (by decide)

/-! ## C4: the allocator invariant -/

theorem count_true_set_false {m : List Bool} {i : Nat} (h : i < m.length)
    (hv : m[i] = true) : (m.set i false).count true + 1 = m.count true := by
  rw [List.set_eq_take_cons_drop _ h]
  conv_rhs => rw [← List.take_append_drop i m, List.drop_eq_getElem_cons h]
  simp [List.count_append, List.count_cons, hv]
  omega

theorem count_true_set_true {m : List Bool} {i : Nat} (h : i < m.length)
    (hv : m[i] = false) : (m.set i true).count true = m.count true + 1 := by
  rw [List.set_eq_take_cons_drop _ h]
  conv_rhs => rw [← List.take_append_drop i m, List.drop_eq_getElem_cons h]
  simp [List.count_append, List.count_cons, hv]
  omega

/-- A sequence of allocator calls: the two operations of the claim. -/
inductive AllocOp where
  | alloc : AllocOp
  | free (id : Nat) : AllocOp

/-- One `alloc_block`/`free_block` call, with a ghost list `alive` of the
block ids currently handed out by `alloc_block` and not yet freed. -/
def stepOp (st : SfsState) (alive : List Nat) :
    AllocOp → Except Err (SfsState × List Nat)
  | .alloc =>
    match alloc_block st with
    | .ok (some id, st') => .ok (st', alive ++ [id])
    | .ok (none, st') => .ok (st', alive)
    | .error e => .error e
  | .free id =>
    match free_block st id with
    | .ok st' => .ok (st', alive.erase id)
    | .error e => .error e

def runOps : SfsState → List Nat → List AllocOp → Except Err (SfsState × List Nat)
  | st, alive, [] => .ok (st, alive)
  | st, alive, op :: rest =>
    match stepOp st alive op with
    | .ok (st', alive') => runOps st' alive' rest
    | .error e => .error e

/-- The allocator invariant: `unused_blocks` counts the set (free) bits, the
live allocated ids are pairwise distinct, and each live id is in range with
its bit cleared. -/
def AllocInv (st : SfsState) (alive : List Nat) : Prop :=
  st.unused_blocks = st.freemap.count true ∧
  alive.Nodup ∧
  ∀ a ∈ alive, a < st.freemap.length ∧ st.freemap.getD a false = false

instance (st : SfsState) (alive : List Nat) : Decidable (AllocInv st alive) := by
  unfold AllocInv
  infer_instance

/-- `SimpleFileSystem::create` (rcore-fs-sfs/src/lib.rs:890-929), restricted
to the allocator state it constructs: `bitset` of `freemap_blocks * BLKBITS`
bits all clear, then bits `[BLKN_FREEMAP + freemap_blocks, blocks)` set. -/
def createFreemapBits (freemap_blocks blocks : Nat) : List Bool :=
  (List.range' (BLKN_FREEMAP + freemap_blocks)
      (blocks - (BLKN_FREEMAP + freemap_blocks))).foldl
    (fun m i => m.set i true) (List.replicate (freemap_blocks * BLKBITS) false)

/-- The allocator state made by `SimpleFileSystem::create(device, space)`:
`blocks = ceil(space / BLKSIZE)`,
`freemap_blocks = ceil(space / (BLKBITS * BLKSIZE))` (the source divides by
`BLKBITS` then `BLKSIZE`), `unused_blocks = blocks - BLKN_FREEMAP -
freemap_blocks` (in-range whenever the source's `assert!(blocks >= 16)`
holds, so the `Nat` subtraction is exact).  The inode fields play no part in
allocation. -/
def sfs_create_state (space : Nat) : SfsState :=
  let blocks := (space + BLKSIZE - 1) / BLKSIZE
  let freemap_blocks := (space + BLKBITS * BLKSIZE - 1) / BLKBITS / BLKSIZE
  { dev := fun _ => 0
    freemap := createFreemapBits freemap_blocks blocks
    unused_blocks := blocks - BLKN_FREEMAP - freemap_blocks
    inode := { type_ := .Dir, size := 0, blocks := 0,
               direct := List.replicate 12 0, indirect := 0, db_indirect := 0,
               nlinks := 0 } }

theorem count_foldl_set_true (n : Nat) : ∀ (m : List Bool) (s : Nat),
    (∀ i, s ≤ i → i < s + n → i < m.length ∧ m.getD i false = false) →
    ((List.range' s n).foldl (fun m i => m.set i true) m).count true =
      m.count true + n := by
  induction n with
  | zero => intro m s _; simp
  | succ k ih =>
    intro m s hall
    rw [List.range'_succ, List.foldl_cons]
    obtain ⟨hs, hv⟩ := hall s le_rfl (by omega)
    have hv' : m[s] = false := by
      have := hv
      rwa [List.getD_eq_getElem?_getD, List.getElem?_eq_getElem hs,
        Option.getD_some] at this
    rw [ih (m.set s true) (s + 1) ?_]
    · rw [count_true_set_true hs hv']
      omega
    · intro i hi1 hi2
      have hne : s ≠ i := by omega
      have hi := hall i (by omega) (by omega)
      constructor
      · simpa using hi.1
      · rw [List.getD_eq_getElem?_getD, List.getElem?_set_ne hne,
          ← List.getD_eq_getElem?_getD]
        exact hi.2

/-- C4: starting from a freshly created filesystem (or any state satisfying
the allocator invariant, which is what a well-formed opened filesystem
provides), any successful sequence of `alloc_block`/`free_block` calls
preserves `unused_blocks = count(set bits)`, and the ids handed out by
`alloc_block` and still allocated are pairwise distinct. -/
theorem C4_alloc_free_invariant :
    (∀ space, 16 ≤ (space + BLKSIZE - 1) / BLKSIZE →
      AllocInv (sfs_create_state space) []) ∧
    (∀ ops st alive st' alive', AllocInv st alive →
      runOps st alive ops = .ok (st', alive') →
      st'.unused_blocks = st'.freemap.count true ∧ alive'.Nodup ∧
      ∀ a ∈ alive', a < st'.freemap.length ∧ st'.freemap.getD a false = false) := by
  constructor
  · intro space h16
    simp only [AllocInv, sfs_create_state, createFreemapBits, BLKSIZE, BLKBITS,
      BLKN_FREEMAP, Nat.div_div_eq_div_mul] at h16 ⊢
    have harith :
        1 + (space + 32768 * 4096 - 1) / (32768 * 4096) ≤ (space + 4096 - 1) / 4096 ∧
        (space + 4096 - 1) / 4096 ≤
          ((space + 32768 * 4096 - 1) / (32768 * 4096)) * 32768 := by omega
    refine ⟨?_, List.nodup_nil, by simp⟩
    rw [count_foldl_set_true _ _ _ ?_]
    · simp [List.count_replicate]
      omega
    · intro i hi1 hi2
      refine ⟨?_, by simp⟩
      simp only [List.length_replicate]
      omega
  · intro ops
    induction ops with
    | nil =>
      intro st alive st' alive' hinv hrun
      unfold runOps at hrun
      cases hrun
      exact hinv
    | cons op rest ih =>
      intro st alive st' alive' hinv hrun
      unfold runOps at hrun
      cases hstep : stepOp st alive op with
      | error e => rw [hstep] at hrun; cases hrun
      | ok p =>
        obtain ⟨stm, alivem⟩ := p
        rw [hstep] at hrun
        dsimp only at hrun
        refine ih stm alivem st' alive' ?_ hrun
        obtain ⟨hcount, hnodup, hbits⟩ := hinv
        cases op with
        | alloc =>
          unfold stepOp at hstep
          dsimp only at hstep
          cases halloc : alloc_block st with
          | error e => rw [halloc] at hstep; cases hstep
          | ok q =>
            obtain ⟨oid, st1⟩ := q
            rw [halloc] at hstep
            cases oid with
            | none =>
              -- impossible under the invariant: `alloc_block` returns
              -- `none` only when a free bit exists while `unused = 0`
              exfalso
              unfold alloc_block at halloc
              cases hb : bitset_alloc st.freemap with
              | none => rw [hb] at halloc; cases halloc
              | some r =>
                obtain ⟨bid, m'⟩ := r
                rw [hb] at halloc
                dsimp only at halloc
                obtain ⟨hlt, hbit, -, -⟩ := bitset_alloc_some hb
                have htmem : true ∈ st.freemap := by
                  have : st.freemap.getD bid false = st.freemap[bid] := by
                    rw [List.getD_eq_getElem?_getD, List.getElem?_eq_getElem hlt,
                      Option.getD_some]
                  rw [this] at hbit
                  rw [← hbit]
                  exact List.getElem_mem hlt
                have hpos : 0 < st.freemap.count true :=
                  List.count_pos_iff.mpr htmem
                by_cases hu : st.unused_blocks = 0
                · rw [hu] at hcount; omega
                · rw [if_neg hu] at halloc; cases halloc
            | some id =>
              obtain ⟨hlt, hbit, -, hm', hub, hune, hdev, hino⟩ :=
                (C3_alloc_block_characterization st).1 id st1 halloc
              cases hstep
              have hbit' : st.freemap[id] = true := by
                rwa [List.getD_eq_getElem?_getD, List.getElem?_eq_getElem hlt,
                  Option.getD_some] at hbit
              have hidfresh : id ∉ alive := by
                intro hmem
                have := (hbits id hmem).2
                rw [List.getD_eq_getElem?_getD, List.getElem?_eq_getElem hlt,
                  Option.getD_some, hbit'] at this
                cases this
              refine ⟨?_, ?_, ?_⟩
              · rw [hub, hcount, hm']
                have := count_true_set_false hlt hbit'
                omega
              · simpa [List.nodup_append] using ⟨hnodup, hidfresh⟩
              · intro a ha
                rw [hm']
                simp only [List.length_set]
                rcases List.mem_append.mp ha with ha' | ha'
                · obtain ⟨haL, haB⟩ := hbits a ha'
                  refine ⟨haL, ?_⟩
                  rcases eq_or_ne id a with rfl | hne
                  · rw [List.getD_eq_getElem?_getD,
                      List.getElem?_set_self hlt, Option.getD_some]
                  · rwa [List.getD_eq_getElem?_getD, List.getElem?_set_ne hne,
                      ← List.getD_eq_getElem?_getD]
                · have : a = id := by simpa using ha'
                  subst this
                  exact ⟨hlt, by rw [List.getD_eq_getElem?_getD,
                    List.getElem?_set_self hlt, Option.getD_some]⟩
        | free fid =>
          unfold stepOp at hstep
          dsimp only at hstep
          unfold free_block at hstep
          by_cases hlt : fid < st.freemap.length
          · rw [dif_pos hlt] at hstep
            by_cases hbit : st.freemap.get ⟨fid, hlt⟩ = true
            · rw [if_pos hbit] at hstep; cases hstep
            · rw [if_neg hbit] at hstep
              dsimp only at hstep
              cases hstep
              have hbit' : st.freemap[fid] = false := by
                simpa using hbit
              refine ⟨?_, hnodup.erase fid, ?_⟩
              · rw [hcount, count_true_set_true hlt hbit']
              · intro a ha
                have hane : a ≠ fid := (List.Nodup.mem_erase_iff hnodup).mp ha |>.1
                have ha' : a ∈ alive := (List.Nodup.mem_erase_iff hnodup).mp ha |>.2
                obtain ⟨haL, haB⟩ := hbits a ha'
                simp only [List.length_set]
                refine ⟨haL, ?_⟩
                rwa [List.getD_eq_getElem?_getD, List.getElem?_set_ne (Ne.symm hane),
                  ← List.getD_eq_getElem?_getD]
          · rw [dif_neg hlt] at hstep; cases hstep

def c4_run_state : SfsState :=
  { dev := fun _ => 0
    freemap := [false, true, true, true]
    unused_blocks := 3
    inode := { type_ := .File, size := 0, blocks := 0,
               direct := List.replicate 12 0, indirect := 0, db_indirect := 0,
               nlinks := 1 } }

def c4_run_ops : List AllocOp := [.alloc, .alloc, .free 1, .alloc]

def c4_run_result : SfsState × List Nat :=
  match runOps c4_run_state [] c4_run_ops with
  | .ok p => p
  | .error _ => (c4_run_state, [])

/-! ## Properties of the block iterator -/

/-- The size of one iterator step, `end - begin` in `BlockIter::next`. -/
def brStep (k lo hi : Nat) : Nat :=
  (if lo / 2 ^ k = hi / 2 ^ k then hi % 2 ^ k else 2 ^ k) - lo % 2 ^ k

theorem brStep_pos (k lo hi : Nat) (h : lo < hi) :
    1 ≤ brStep k lo hi ∧ lo + brStep k lo hi ≤ hi := by
  have hbs : 0 < 2 ^ k := Nat.pos_pow_of_pos k (by norm_num)
  have h1 : lo / 2 ^ k * 2 ^ k + lo % 2 ^ k = lo := Nat.div_add_mod' lo (2 ^ k)
  have h2 : hi / 2 ^ k * 2 ^ k + hi % 2 ^ k = hi := Nat.div_add_mod' hi (2 ^ k)
  have hmlo : lo % 2 ^ k < 2 ^ k := Nat.mod_lt lo hbs
  have hmhi : hi % 2 ^ k < 2 ^ k := Nat.mod_lt hi hbs
  unfold brStep
  by_cases hq : lo / 2 ^ k = hi / 2 ^ k
  · rw [if_pos hq]
    have hXY : lo / 2 ^ k * 2 ^ k = hi / 2 ^ k * 2 ^ k := by rw [hq]
    omega
  · rw [if_neg hq]
    have hqle : lo / 2 ^ k ≤ hi / 2 ^ k := Nat.div_le_div_right (le_of_lt h)
    have hqlt : lo / 2 ^ k < hi / 2 ^ k := lt_of_le_of_ne hqle hq
    have hmul : lo / 2 ^ k * 2 ^ k + 2 ^ k ≤ hi / 2 ^ k * 2 ^ k := by
      calc lo / 2 ^ k * 2 ^ k + 2 ^ k = (lo / 2 ^ k + 1) * 2 ^ k := by ring
        _ ≤ hi / 2 ^ k * 2 ^ k :=
          Nat.mul_le_mul_right _ (Nat.succ_le_of_lt hqlt)
    omega

theorem blockRangesAux_congr (k : Nat) :
    ∀ fuel1 fuel2 lo hi, hi - lo ≤ fuel1 → hi - lo ≤ fuel2 →
      blockRangesAux k fuel1 lo hi = blockRangesAux k fuel2 lo hi := by
  intro fuel1
  induction fuel1 with
  | zero =>
    intro fuel2 lo hi h1 h2
    have hnl : ¬ lo < hi := by omega
    cases fuel2 <;> simp [blockRangesAux, hnl]
  | succ f ih =>
    intro fuel2 lo hi h1 h2
    cases fuel2 with
    | zero =>
      have hnl : ¬ lo < hi := by omega
      simp [blockRangesAux, hnl]
    | succ f2 =>
      by_cases h : lo < hi
      · show (if lo < hi then _ else _) = (if lo < hi then _ else _)
        rw [if_pos h, if_pos h]
        dsimp only
        have hstep := brStep_pos k lo hi h
        congr 1
        exact ih f2 (lo + brStep k lo hi) hi
          (by unfold brStep at hstep ⊢; omega) (by unfold brStep at hstep ⊢; omega)
      · show (if lo < hi then _ else _) = (if lo < hi then _ else _)
        rw [if_neg h, if_neg h]

/-- Unfolding `blockRanges` one step (one `BlockIter::next` call). -/
theorem blockRanges_cons (k lo hi : Nat) (h : lo < hi) :
    blockRanges k lo hi =
      ⟨lo / 2 ^ k, lo % 2 ^ k,
        if lo / 2 ^ k = hi / 2 ^ k then hi % 2 ^ k else 2 ^ k, k⟩ ::
        blockRanges k (lo + brStep k lo hi) hi := by
  have hstep := brStep_pos k lo hi h
  unfold blockRanges
  have hfuel : hi - lo = (hi - lo - 1) + 1 := by omega
  rw [hfuel]
  show (if lo < hi then _ else _) = _
  rw [if_pos h]
  dsimp only
  congr 1
  have hEq : brStep k lo hi =
      (if lo / 2 ^ k = hi / 2 ^ k then hi % 2 ^ k else 2 ^ k) - lo % 2 ^ k := rfl
  exact blockRangesAux_congr k _ _ _ _ (by omega) (by omega)

theorem blockRanges_nil (k lo hi : Nat) (h : hi ≤ lo) :
    blockRanges k lo hi = [] := by
  unfold blockRanges
  have : hi - lo = 0 := by omega
  rw [this]
  rfl

/-- Every range produced by the iterator stays inside `[lo, hi)`, is
nonempty and fits in one block. -/
theorem blockRanges_mem_spec (k : Nat) :
    ∀ n lo hi, hi - lo ≤ n → ∀ r ∈ blockRanges k lo hi,
      r.block_size_log2 = k ∧ r.begin_ < r.end_ ∧ r.end_ ≤ 2 ^ k ∧
      lo ≤ r.origin_begin ∧ r.origin_end ≤ hi := by
  intro n
  induction n with
  | zero =>
    intro lo hi hn r hr
    rw [blockRanges_nil k lo hi (by omega)] at hr
    cases hr
  | succ m ih =>
    intro lo hi hn r hr
    by_cases h : lo < hi
    · have hstep := brStep_pos k lo hi h
      rw [blockRanges_cons k lo hi h] at hr
      rcases List.mem_cons.mp hr with rfl | htail
      · dsimp only [BlockRange.origin_begin, BlockRange.origin_end]
        have hbs : 0 < 2 ^ k := Nat.pos_pow_of_pos k (by norm_num)
        have h1 : lo / 2 ^ k * 2 ^ k + lo % 2 ^ k = lo := Nat.div_add_mod' lo (2 ^ k)
        have h2 : hi / 2 ^ k * 2 ^ k + hi % 2 ^ k = hi := Nat.div_add_mod' hi (2 ^ k)
        have hmlo : lo % 2 ^ k < 2 ^ k := Nat.mod_lt lo hbs
        have hmhi : hi % 2 ^ k < 2 ^ k := Nat.mod_lt hi hbs
        have hstep' := hstep
        unfold brStep at hstep'
        refine ⟨rfl, ?_, ?_, ?_, ?_⟩
        · show lo % 2 ^ k < _
          by_cases hq : lo / 2 ^ k = hi / 2 ^ k
          · rw [if_pos hq] at hstep' ⊢
            omega
          · rw [if_neg hq]
            omega
        · show (if lo / 2 ^ k = hi / 2 ^ k then hi % 2 ^ k else 2 ^ k) ≤ 2 ^ k
          by_cases hq : lo / 2 ^ k = hi / 2 ^ k
          · rw [if_pos hq]; omega
          · rw [if_neg hq]
        · show lo ≤ lo / 2 ^ k * 2 ^ k + lo % 2 ^ k
          omega
        · show lo / 2 ^ k * 2 ^ k +
            (if lo / 2 ^ k = hi / 2 ^ k then hi % 2 ^ k else 2 ^ k) ≤ hi
          by_cases hq : lo / 2 ^ k = hi / 2 ^ k
          · rw [if_pos hq]
            have hXY : lo / 2 ^ k * 2 ^ k = hi / 2 ^ k * 2 ^ k := by rw [hq]
            omega
          · rw [if_neg hq]
            rw [if_neg hq] at hstep'
            omega
      · have := ih (lo + brStep k lo hi) hi (by omega) r htail
        exact ⟨this.1, this.2.1, this.2.2.1, le_trans (by omega) this.2.2.2.1,
          this.2.2.2.2⟩
    · rw [blockRanges_nil k lo hi (by omega)] at hr
      cases hr

/-! ## C6: the block-device adapter (rcore-fs/src/dev/mod.rs:52-115)

A `BlockDevice` is modelled by its byte contents (block `b` occupies
addresses `[b * 2^log2, (b+1) * 2^log2)`) plus per-block success predicates
for `read_at` and `write_at` — `try0!` swallows any per-block failure and
returns `Ok(len)` with `len = range.origin_begin() - offset`, the bytes
transferred before the failing block. -/

structure BDev where
  block_size_log2 : Nat
  data : Nat → Nat
  readOk : Nat → Bool
  writeOk : Nat → Bool

/-- `copy_from_slice` into `buf[pos..pos+chunk.length]`. -/
def listWrite (buf : List Nat) (pos : Nat) (chunk : List Nat) : List Nat :=
  buf.take pos ++ chunk ++ buf.drop (pos + chunk.length)

/-- `<T: BlockDevice> Device::read_at` (rcore-fs/src/dev/mod.rs:55-81): for a
full range, read the device block straight into the buffer slice; for a
partial range, `assert!(BLOCK_SIZE_LOG2 <= 10)`, read the whole block into a
scratch buffer and copy `[begin, end)` out of it. -/
def dev_read_at_go (d : BDev) (offset : Nat) :
    List BlockRange → List Nat → Except Err (Nat × List Nat)
  | [], buf => .ok (buf.length, buf)
  | r :: rest, buf =>
    let len := r.origin_begin - offset
    let bs := 2 ^ d.block_size_log2
    if r.is_full then
      if d.readOk r.block then
        dev_read_at_go d offset rest
          (listWrite buf (r.origin_begin - offset)
            (readBytes d.data (r.block * bs) bs))
      else .ok (len, buf)
    else
      if d.block_size_log2 ≤ 10 then
        if d.readOk r.block then
          dev_read_at_go d offset rest
            (listWrite buf (r.origin_begin - offset)
              (((readBytes d.data (r.block * bs) bs).drop r.begin_).take r.len))
        else .ok (len, buf)
      else .error .panic

/-- `<T: BlockDevice> Device::write_at` (rcore-fs/src/dev/mod.rs:83-110):
full ranges are written directly; partial ranges are read-modify-write via
the scratch buffer, and either of the two block operations may fail. -/
def dev_write_at_go (d : BDev) (offset : Nat) (buf : List Nat) :
    List BlockRange → (Nat → Nat) → Except Err (Nat × (Nat → Nat))
  | [], data => .ok (buf.length, data)
  | r :: rest, data =>
    let len := r.origin_begin - offset
    let bs := 2 ^ d.block_size_log2
    let chunk := (buf.drop (r.origin_begin - offset)).take r.len
    if r.is_full then
      if d.writeOk r.block then
        dev_write_at_go d offset buf rest (writeBytes data (r.block * bs) chunk)
      else .ok (len, data)
    else
      if d.block_size_log2 ≤ 10 then
        if d.readOk r.block then
          if d.writeOk r.block then
            dev_write_at_go d offset buf rest
              (writeBytes data (r.block * bs)
                (listWrite (readBytes data (r.block * bs) bs) r.begin_ chunk))
          else .ok (len, data)
        else .ok (len, data)
      else .error .panic

def dev_read_at (d : BDev) (offset : Nat) (buf : List Nat) :
    Except Err (Nat × List Nat) :=
  dev_read_at_go d offset
    (blockRanges d.block_size_log2 offset (offset + buf.length)) buf

def dev_write_at (d : BDev) (offset : Nat) (buf : List Nat) :
    Except Err (Nat × (Nat → Nat)) :=
  dev_write_at_go d offset buf
    (blockRanges d.block_size_log2 offset (offset + buf.length)) d.data

/-- The block operations of one range of `write_at` fail: a full range
fails on its device write; a partial range fails on the read of the
read-modify-write or on the write-back. -/
def writeRangeFails (d : BDev) (r : BlockRange) : Prop :=
  if r.is_full then d.writeOk r.block = false
  else d.readOk r.block = false ∨
    (d.readOk r.block = true ∧ d.writeOk r.block = false)

instance (d : BDev) (r : BlockRange) : Decidable (writeRangeFails d r) := by
  unfold writeRangeFails
  infer_instance

theorem listWrite_length {buf chunk : List Nat} {pos : Nat}
    (h : pos + chunk.length ≤ buf.length) :
    (listWrite buf pos chunk).length = buf.length := by
  simp [listWrite]
  omega

/-- Bounds we need of each range, as supplied by `blockRanges_mem_spec`. -/
def RangeWf (d : BDev) (offset n : Nat) (r : BlockRange) : Prop :=
  r.block_size_log2 = d.block_size_log2 ∧ r.begin_ < r.end_ ∧
  r.end_ ≤ 2 ^ d.block_size_log2 ∧ offset ≤ r.origin_begin ∧
  r.origin_end ≤ offset + n

theorem rangeWf_chunk_le {d : BDev} {offset n : Nat} {r : BlockRange}
    (h : RangeWf d offset n r) :
    (r.origin_begin - offset) + (r.end_ - r.begin_) ≤ n := by
  obtain ⟨hk, hbe, hend, hob, hoe⟩ := h
  have hA : r.origin_begin = r.block * 2 ^ r.block_size_log2 + r.begin_ := rfl
  have hB : r.origin_end = r.block * 2 ^ r.block_size_log2 + r.end_ := rfl
  omega

theorem dev_read_at_go_ok (d : BDev) (offset n : Nat) (hb : d.block_size_log2 ≤ 10) :
    ∀ rs (buf : List Nat), buf.length = n →
      (∀ r ∈ rs, RangeWf d offset n r ∧ d.readOk r.block = true) →
      ∃ out, dev_read_at_go d offset rs buf = .ok (n, out) := by
  intro rs
  induction rs with
  | nil =>
    intro buf hlen _
    exact ⟨buf, by rw [dev_read_at_go, hlen]⟩
  | cons r rest ih =>
    intro buf hlen hall
    obtain ⟨hwf, hok⟩ := hall r (List.mem_cons_self _ _)
    have hchunk := rangeWf_chunk_le hwf
    have hbytes : ∀ a m, (readBytes d.data a m).length = m := by
      intro a m; simp [readBytes]
    unfold dev_read_at_go
    dsimp only
    by_cases hfull : r.is_full = true
    · rw [if_pos hfull, if_pos hok]
      apply ih _ ?_ (fun r' hr' => hall r' (List.mem_cons_of_mem _ hr'))
      rw [listWrite_length, hlen]
      rw [hbytes, hlen]
      have : r.end_ - r.begin_ = 2 ^ d.block_size_log2 := by
        have := of_decide_eq_true hfull
        rw [← hwf.1]
        exact this
      omega
    · rw [if_neg (by simpa using hfull), if_pos hb, if_pos hok]
      apply ih _ ?_ (fun r' hr' => hall r' (List.mem_cons_of_mem _ hr'))
      rw [listWrite_length, hlen]
      simp only [List.length_take, List.length_drop, hbytes, BlockRange.len]
      rw [hlen]
      have h1 := hwf.2.1
      have h2 := hwf.2.2.1
      omega

theorem dev_read_at_go_fail (d : BDev) (offset n : Nat)
    (hb : d.block_size_log2 ≤ 10) :
    ∀ rs1 (r : BlockRange) rs2 (buf : List Nat), buf.length = n →
      (∀ r' ∈ rs1, RangeWf d offset n r' ∧ d.readOk r'.block = true) →
      d.readOk r.block = false →
      ∃ out, dev_read_at_go d offset (rs1 ++ r :: rs2) buf =
        .ok (r.origin_begin - offset, out) := by
  intro rs1
  induction rs1 with
  | nil =>
    intro r rs2 buf hlen _ hfail
    refine ⟨buf, ?_⟩
    rw [List.nil_append]
    unfold dev_read_at_go
    dsimp only
    by_cases hfull : r.is_full = true
    · rw [if_pos hfull, if_neg (by simp [hfail])]
    · rw [if_neg (by simpa using hfull), if_pos hb, if_neg (by simp [hfail])]
  | cons r1 rest ih =>
    intro r rs2 buf hlen hall hfail
    obtain ⟨hwf, hok⟩ := hall r1 (List.mem_cons_self _ _)
    have hchunk := rangeWf_chunk_le hwf
    have hbytes : ∀ a m, (readBytes d.data a m).length = m := by
      intro a m; simp [readBytes]
    rw [List.cons_append]
    unfold dev_read_at_go
    dsimp only
    by_cases hfull : r1.is_full = true
    · rw [if_pos hfull, if_pos hok]
      apply ih r rs2 _ ?_ (fun r' hr' => hall r' (List.mem_cons_of_mem _ hr')) hfail
      rw [listWrite_length, hlen]
      rw [hbytes, hlen]
      have : r1.end_ - r1.begin_ = 2 ^ d.block_size_log2 := by
        have := of_decide_eq_true hfull
        rw [← hwf.1]
        exact this
      omega
    · rw [if_neg (by simpa using hfull), if_pos hb, if_pos hok]
      apply ih r rs2 _ ?_ (fun r' hr' => hall r' (List.mem_cons_of_mem _ hr')) hfail
      rw [listWrite_length, hlen]
      simp only [List.length_take, List.length_drop, hbytes, BlockRange.len]
      rw [hlen]
      have h1 := hwf.2.1
      have h2 := hwf.2.2.1
      omega

theorem dev_write_at_go_ok (d : BDev) (offset : Nat) (buf : List Nat)
    (hb : d.block_size_log2 ≤ 10) :
    ∀ rs (data : Nat → Nat), (∀ r ∈ rs, ¬ writeRangeFails d r) →
      ∃ out, dev_write_at_go d offset buf rs data = .ok (buf.length, out) := by
  intro rs
  induction rs with
  | nil => intro data _; exact ⟨data, by rw [dev_write_at_go]⟩
  | cons r rest ih =>
    intro data hall
    have hnf := hall r (List.mem_cons_self _ _)
    unfold dev_write_at_go
    dsimp only
    unfold writeRangeFails at hnf
    by_cases hfull : r.is_full = true
    · rw [if_pos hfull] at hnf ⊢
      rw [if_pos (by simpa using hnf)]
      exact ih _ (fun r' hr' => hall r' (List.mem_cons_of_mem _ hr'))
    · rw [if_neg (by simpa using hfull)] at hnf ⊢
      rw [if_pos hb]
      push_neg at hnf
      have hro : d.readOk r.block = true := by
        rcases Bool.eq_false_or_eq_true (d.readOk r.block) with h | h
        · exact h
        · exact absurd h hnf.1
      rw [if_pos hro, if_pos (by
        rcases Bool.eq_false_or_eq_true (d.writeOk r.block) with h | h
        · exact h
        · exact absurd h (hnf.2 hro))]
      exact ih _ (fun r' hr' => hall r' (List.mem_cons_of_mem _ hr'))

theorem dev_write_at_go_fail (d : BDev) (offset : Nat) (buf : List Nat)
    (hb : d.block_size_log2 ≤ 10) :
    ∀ rs1 (r : BlockRange) rs2 (data : Nat → Nat),
      (∀ r' ∈ rs1, ¬ writeRangeFails d r') →
      writeRangeFails d r →
      ∃ out, dev_write_at_go d offset buf (rs1 ++ r :: rs2) data =
        .ok (r.origin_begin - offset, out) := by
  intro rs1
  induction rs1 with
  | nil =>
    intro r rs2 data _ hfail
    refine ⟨data, ?_⟩
    rw [List.nil_append]
    unfold dev_write_at_go
    dsimp only
    unfold writeRangeFails at hfail
    by_cases hfull : r.is_full = true
    · rw [if_pos hfull] at hfail ⊢
      rw [if_neg (by simp [hfail])]
    · rw [if_neg (by simpa using hfull)] at hfail ⊢
      rw [if_pos hb]
      rcases hfail with hf | ⟨hro, hwo⟩
      · rw [if_neg (by simp [hf])]
      · rw [if_pos hro, if_neg (by simp [hwo])]
  | cons r1 rest ih =>
    intro r rs2 data hall hfail
    have hnf := hall r1 (List.mem_cons_self _ _)
    rw [List.cons_append]
    unfold dev_write_at_go
    dsimp only
    unfold writeRangeFails at hnf
    by_cases hfull : r1.is_full = true
    · rw [if_pos hfull] at hnf ⊢
      rw [if_pos (by simpa using hnf)]
      exact ih r rs2 _ (fun r' hr' => hall r' (List.mem_cons_of_mem _ hr')) hfail
    · rw [if_neg (by simpa using hfull)] at hnf ⊢
      rw [if_pos hb]
      push_neg at hnf
      have hro : d.readOk r1.block = true := by
        rcases Bool.eq_false_or_eq_true (d.readOk r1.block) with h | h
        · exact h
        · exact absurd h hnf.1
      rw [if_pos hro, if_pos (by
        rcases Bool.eq_false_or_eq_true (d.writeOk r1.block) with h | h
        · exact h
        · exact absurd h (hnf.2 hro))]
      exact ih r rs2 _ (fun r' hr' => hall r' (List.mem_cons_of_mem _ hr')) hfail

/-- C6: the byte-granular `Device` impl for a `BlockDevice` iterates the
block ranges covering `[offset, offset + buf.len())`; when every per-block
device operation succeeds, both `read_at` and `write_at` return
`Ok(buf.len())`; on the first per-block failure they stop and return `Ok`
carrying the byte count transferred before the failing block
(`range.origin_begin() - offset`) — no error is surfaced. -/
theorem C6_adapter_short_count (d : BDev) (offset : Nat) (buf : List Nat)
    (hb : d.block_size_log2 ≤ 10) :
    ((∀ r ∈ blockRanges d.block_size_log2 offset (offset + buf.length),
        d.readOk r.block = true) →
      Except.map Prod.fst (dev_read_at d offset buf) = .ok buf.length) ∧
    (∀ rs1 r rs2,
      blockRanges d.block_size_log2 offset (offset + buf.length) =
        rs1 ++ r :: rs2 →
      (∀ r' ∈ rs1, d.readOk r'.block = true) → d.readOk r.block = false →
      Except.map Prod.fst (dev_read_at d offset buf) =
        .ok (r.origin_begin - offset)) ∧
    ((∀ r ∈ blockRanges d.block_size_log2 offset (offset + buf.length),
        ¬ writeRangeFails d r) →
      Except.map Prod.fst (dev_write_at d offset buf) = .ok buf.length) ∧
    (∀ rs1 r rs2,
      blockRanges d.block_size_log2 offset (offset + buf.length) =
        rs1 ++ r :: rs2 →
      (∀ r' ∈ rs1, ¬ writeRangeFails d r') → writeRangeFails d r →
      Except.map Prod.fst (dev_write_at d offset buf) =
        .ok (r.origin_begin - offset)) := by
  have hspec := blockRanges_mem_spec d.block_size_log2 (offset + buf.length)
    offset (offset + buf.length) (by omega)
  refine ⟨?_, ?_, ?_, ?_⟩
  · intro hall
    obtain ⟨out, hout⟩ := dev_read_at_go_ok d offset buf.length hb
      (blockRanges d.block_size_log2 offset (offset + buf.length)) buf rfl
      (fun r hr => ⟨⟨(hspec r hr).1, (hspec r hr).2.1, (hspec r hr).2.2.1,
        (hspec r hr).2.2.2.1, (hspec r hr).2.2.2.2⟩, hall r hr⟩)
    rw [dev_read_at, hout]
    rfl
  · intro rs1 r rs2 hdec hall hfail
    obtain ⟨out, hout⟩ := dev_read_at_go_fail d offset buf.length hb rs1 r rs2 buf
      rfl
      (fun r' hr' => by
        have hmem : r' ∈ blockRanges d.block_size_log2 offset (offset + buf.length) := by
          rw [hdec]; exact List.mem_append.mpr (Or.inl hr')
        exact ⟨⟨(hspec r' hmem).1, (hspec r' hmem).2.1, (hspec r' hmem).2.2.1,
          (hspec r' hmem).2.2.2.1, (hspec r' hmem).2.2.2.2⟩, hall r' hr'⟩)
      hfail
    rw [dev_read_at, hdec, hout]
    rfl
  · intro hall
    obtain ⟨out, hout⟩ := dev_write_at_go_ok d offset buf hb
      (blockRanges d.block_size_log2 offset (offset + buf.length)) d.data hall
    rw [dev_write_at, hout]
    rfl
  · intro rs1 r rs2 hdec hall hfail
    obtain ⟨out, hout⟩ := dev_write_at_go_fail d offset buf hb rs1 r rs2 d.data
      hall hfail
    rw [dev_write_at, hdec, hout]
    rfl

/-- The 16-byte test device of rcore-fs/src/dev/mod.rs:124-145: four 4-byte
blocks, any access to block ≥ 4 fails. -/
def c6_test_dev : BDev :=
  { block_size_log2 := 2
    data := fun a => if a < 16 then a else 0
    readOk := fun b => decide (b < 4)
    writeOk := fun b => decide (b < 4) }

theorem C6_adapter_short_count_witness :
    Except.map Prod.fst (dev_read_at c6_test_dev 3 [0, 0, 0, 0, 0, 0]) =
      Except.ok 6 ∧
    Except.map Prod.fst (dev_read_at c6_test_dev 11 [0, 0, 0, 0, 0, 0]) =
      Except.ok 5 ∧
    Except.map Prod.fst (dev_write_at c6_test_dev 11 [3, 4, 5, 6, 7, 8]) =
      Except.ok 5 :=
  ⟨(C6_adapter_short_count c6_test_dev 3 [0, 0, 0, 0, 0, 0] (by decide)).1
      (by decide),
   (C6_adapter_short_count c6_test_dev 11 [0, 0, 0, 0, 0, 0] (by decide)).2.1
      (blockRanges 2 11 17).dropLast ⟨4, 0, 1, 2⟩ [] (by decide) (by decide)
      (by decide),
   (C6_adapter_short_count c6_test_dev 11 [3, 4, 5, 6, 7, 8] (by decide)).2.2.2
      (blockRanges 2 11 17).dropLast ⟨4, 0, 1, 2⟩ [] (by decide) (by decide)
      (by decide)⟩

/-! ## C8: DevFS `find` (rcore-fs-devfs/src/lib.rs) -/

/-- A `DevINode` directory node (rcore-fs-devfs/src/lib.rs:73-79): `this` is
the weak self reference installed by `wrap()`, which always upgrades while
the node is alive, modelled as the node's id; `parent` is the weak parent
reference — `new_with_parent(Weak::default())` for the root made by `new()`
(lib.rs:93-95) never upgrades, modelled as `none`.  `children` is the
`BTreeMap<String, Arc<dyn INode>>`, children as abstract inode ids. -/
structure DevDir where
  this : Nat
  parent : Option Nat
  children : List (String × Nat)

/-- `DevINode::find` (rcore-fs-devfs/src/lib.rs:208-219): `"."` upgrades
`this`, `".."` upgrades `parent` (`ok_or(EntryNotFound)`), any other name is
looked up in the children map. -/
def dev_find (d : DevDir) (name : String) : Except FsError Nat :=
  if name = "." then .ok d.this
  else if name = ".." then
    match d.parent with
    | some p => .ok p
    | none => .error .EntryNotFound
  else
    match d.children.lookup name with
    | some c => .ok c
    | none => .error .EntryNotFound

/-- C8 (amended): `find(".")` returns the node itself; `find("..")` returns
the parent when there is one, but on the root directory — whose `parent` is
`Weak::default()` and never upgrades — it returns `EntryNotFound`, not the
root itself; every other name is looked up in the children map, giving
`EntryNotFound` when absent. -/
theorem C8_devfs_find_characterization (d : DevDir) (name : String) (p c : Nat) :
    (dev_find d "." = .ok d.this) ∧
    (d.parent = some p → dev_find d ".." = .ok p) ∧
    (d.parent = none → dev_find d ".." = .error .EntryNotFound) ∧
    (name ≠ "." → name ≠ ".." → d.children.lookup name = some c →
      dev_find d name = .ok c) ∧
    (name ≠ "." → name ≠ ".." → d.children.lookup name = none →
      dev_find d name = .error .EntryNotFound) := by
  refine ⟨rfl, ?_, ?_, ?_, ?_⟩
  · intro hp
    unfold dev_find
    rw [if_neg (by decide), if_pos rfl, hp]
  · intro hp
    unfold dev_find
    rw [if_neg (by decide), if_pos rfl, hp]
  · intro h1 h2 hc
    unfold dev_find
    rw [if_neg h1, if_neg h2, hc]
  · intro h1 h2 hc
    unfold dev_find
    rw [if_neg h1, if_neg h2, hc]

/-- C8 counterexample to the claim as stated: on the root (no parent),
`find("..")` returns `EntryNotFound` — it does not return the root itself. -/
def c8_root : DevDir := { this := 0, parent := none, children := [("null", 7)] }

theorem C8_counterexample :
    dev_find c8_root ".." = Except.error FsError.EntryNotFound ∧
    Except.error FsError.EntryNotFound ≠ Except.ok c8_root.this :=
  ⟨rfl, by decide⟩

def c8_node : DevDir := { this := 3, parent := some 1, children := [("null", 7)] }

theorem C8_devfs_find_characterization_witness :
    dev_find c8_node "." = Except.ok 3 ∧
    dev_find c8_node ".." = Except.ok 1 ∧
    dev_find c8_node "null" = Except.ok 7 ∧
    dev_find c8_node "zero" = Except.error FsError.EntryNotFound :=
  ⟨(C8_devfs_find_characterization c8_node "." 1 7).1,
   (C8_devfs_find_characterization c8_node "." 1 7).2.1 rfl,
   (C8_devfs_find_characterization c8_node "null" 1 7).2.2.2.1
     (by decide) (by decide) rfl,
   (C8_devfs_find_characterization c8_node "zero" 1 7).2.2.2.2
     (by decide) (by decide) rfl⟩

/-! ## C7: MountFS traversal (rcore-fs-mountfs/src/lib.rs) -/

/-- The filesystem wrapped by a `MountFS`: its root inode id and its inode
`find`. -/
structure InnerFs where
  rootId : Nat
  find : Nat → String → Except FsError Nat

/-- One `MountFS` (rcore-fs-mountfs/src/lib.rs:24-33): the inner filesystem,
the `mountpoints` table (inner inode id → child `MountFS`, children as
indices into the world), and `self_mountpoint`, the `MNode` this filesystem
is mounted on (`None` for the root filesystem). -/
structure MFs where
  inner : InnerFs
  mountpoints : List (Nat × Nat)
  self_mountpoint : Option (Nat × Nat)

/-- An `MNode` is identified by `(owning MountFS, inner inode id)`
(spec §4.4.2). -/
structure MNodeRef where
  fs : Nat
  inodeId : Nat
deriving DecidableEq

/-- All live `MountFS` instances, indexed by position. -/
def MWorld := List MFs

def dfltMFs : MFs :=
  { inner := { rootId := 0, find := fun _ _ => .error .EntryNotFound }
    mountpoints := []
    self_mountpoint := none }

def MWorld.get (w : MWorld) (i : Nat) : MFs := List.getD w i dfltMFs

/-- `MNode::overlaid_inode` (rcore-fs-mountfs/src/lib.rs:118-125): look the
node's inner inode id up in its MountFS's mountpoints table; if a filesystem
is mounted here return that filesystem's root inode, else the node itself. -/
def overlaid_inode (w : MWorld) (nd : MNodeRef) : MNodeRef :=
  match (w.get nd.fs).mountpoints.lookup nd.inodeId with
  | some sub => ⟨sub, (w.get sub).inner.rootId⟩
  | none => nd

/-- `MNode::is_root` (rcore-fs-mountfs/src/lib.rs:128-131): the inner inode
id equals the inner filesystem's root inode id. -/
def m_is_root (w : MWorld) (nd : MNodeRef) : Prop :=
  (w.get nd.fs).inner.rootId = nd.inodeId

instance (w : MWorld) (nd : MNodeRef) : Decidable (m_is_root w nd) := by
  unfold m_is_root
  infer_instance

/-- `MNode::find(root, name)` (rcore-fs-mountfs/src/lib.rs:145-186).  The
`".."` arm recurses across the mount boundary (`#[async_recursion]`); the
recursion is bounded by the mount nesting depth, modelled with fuel.  In the
downward arm, the source wraps the inner `find` result with `vfs:
self.vfs.clone()` — the node's own MountFS — and then applies
`overlaid_inode` to the wrapper. -/
def m_find (w : MWorld) : Nat → MNodeRef → Bool → String → Except Err MNodeRef
  | 0, _, _, _ => .error .panic
  | fuel + 1, nd, root, name =>
    if name = "" ∨ name = "." then .ok nd
    else if name = ".." then
      if root then .ok nd
      else if m_is_root w nd then
        match (w.get nd.fs).self_mountpoint with
        | some p => m_find w fuel ⟨p.1, p.2⟩ root ".."
        | none => .ok nd
      else
        match (w.get nd.fs).inner.find nd.inodeId ".." with
        | .ok id' => .ok ⟨nd.fs, id'⟩
        | .error e => .error (.fs e)
    else
      match (w.get (overlaid_inode w nd).fs).inner.find
          (overlaid_inode w nd).inodeId name with
      | .ok id' => .ok (overlaid_inode w ⟨nd.fs, id'⟩)
      | .error e => .error (.fs e)

/-- C7: with `fs_b` mounted at `/a/b` of `fs_a`,
`root(fs_a).find("a").find("b")` crosses the boundary downward and returns
`root(fs_b)`, and `root(fs_b).find("..")` re-enters `fs_a` at the mount
point's parent `/a`, so a second `find("..")` returns `root(fs_a)`. -/
theorem C7_mount_traversal (w : MWorld) (A B rootA rootB idA idB fuel : Nat)
    (hA : (w.get A).inner.rootId = rootA)
    (hB : (w.get B).inner.rootId = rootB)
    (hfindA : (w.get A).inner.find rootA "a" = .ok idA)
    (hfindB : (w.get A).inner.find idA "b" = .ok idB)
    (hmountRoot : (w.get A).mountpoints.lookup rootA = none)
    (hmountA : (w.get A).mountpoints.lookup idA = none)
    (hmountB : (w.get A).mountpoints.lookup idB = some B)
    (hself : (w.get B).self_mountpoint = some (A, idB))
    (hne1 : idB ≠ rootA) (hne2 : idA ≠ rootA)
    (hup1 : (w.get A).inner.find idB ".." = .ok idA)
    (hup2 : (w.get A).inner.find idA ".." = .ok rootA)
    (hfuel : 2 ≤ fuel) :
    (m_find w fuel ⟨A, rootA⟩ false "a" = .ok ⟨A, idA⟩ ∧
     m_find w fuel ⟨A, idA⟩ false "b" = .ok ⟨B, rootB⟩) ∧
    (m_find w fuel ⟨B, rootB⟩ false ".." = .ok ⟨A, idA⟩ ∧
     m_find w fuel ⟨A, idA⟩ false ".." = .ok ⟨A, rootA⟩) := by
  obtain ⟨f, rfl⟩ : ∃ f, fuel = f + 2 := ⟨fuel - 2, by omega⟩
  have hovRoot : overlaid_inode w ⟨A, rootA⟩ = ⟨A, rootA⟩ := by
    unfold overlaid_inode
    rw [hmountRoot]
  have hovA : overlaid_inode w ⟨A, idA⟩ = ⟨A, idA⟩ := by
    unfold overlaid_inode
    rw [hmountA]
  have hovB : overlaid_inode w ⟨A, idB⟩ = ⟨B, rootB⟩ := by
    unfold overlaid_inode
    rw [hmountB]
    dsimp only
    rw [hB]
  refine ⟨⟨?_, ?_⟩, ?_, ?_⟩
  · show m_find w (f + 1 + 1) _ _ _ = _
    unfold m_find
    rw [if_neg (by decide), if_neg (by decide), hovRoot]
    dsimp only
    rw [hfindA]
    dsimp only
    rw [hovA]
  · show m_find w (f + 1 + 1) _ _ _ = _
    unfold m_find
    rw [if_neg (by decide), if_neg (by decide), hovA]
    dsimp only
    rw [hfindB]
    dsimp only
    rw [hovB]
  · show m_find w (f + 1 + 1) _ _ _ = _
    unfold m_find
    rw [if_neg (by decide), if_pos rfl, if_neg (by decide),
      if_pos (show m_is_root w ⟨B, rootB⟩ from hB), hself]
    unfold m_find
    rw [if_neg (by decide), if_pos rfl, if_neg (by decide),
      if_neg (show ¬ m_is_root w ⟨A, idB⟩ by
        unfold m_is_root
        dsimp only
        rw [hA]
        exact fun h => hne1 h.symm)]
    dsimp only
    rw [hup1]
  · show m_find w (f + 1 + 1) _ _ _ = _
    unfold m_find
    rw [if_neg (by decide), if_pos rfl, if_neg (by decide),
      if_neg (show ¬ m_is_root w ⟨A, idA⟩ by
        unfold m_is_root
        dsimp only
        rw [hA]
        exact fun h => hne2 h.symm)]
    dsimp only
    rw [hup2]

def c7_innerA : InnerFs :=
  { rootId := 1
    find := fun id name =>
      if id = 1 ∧ name = "a" then .ok 2
      else if id = 2 ∧ name = "b" then .ok 3
      else if id = 3 ∧ name = ".." then .ok 2
      else if id = 2 ∧ name = ".." then .ok 1
      else .error .EntryNotFound }

def c7_innerB : InnerFs :=
  { rootId := 10, find := fun _ _ => .error .EntryNotFound }

/-- `c7_world`: world index 0 is `fs_a` (root inode 1, `/a` = 2, `/a/b` = 3,
with `fs_b` mounted at inode 3), world index 1 is `fs_b` (root inode 10). -/
def c7_world : MWorld :=
  [ { inner := c7_innerA, mountpoints := [(3, 1)], self_mountpoint := none },
    { inner := c7_innerB, mountpoints := [], self_mountpoint := some (0, 3) } ]

theorem C7_mount_traversal_witness :
    (m_find c7_world 2 ⟨0, 1⟩ false "a" = Except.ok ⟨0, 2⟩ ∧
     m_find c7_world 2 ⟨0, 2⟩ false "b" = Except.ok ⟨1, 10⟩) ∧
    (m_find c7_world 2 ⟨1, 10⟩ false ".." = Except.ok ⟨0, 2⟩ ∧
     m_find c7_world 2 ⟨0, 2⟩ false ".." = Except.ok ⟨0, 1⟩) :=
  C7_mount_traversal c7_world 0 1 1 10 2 3 2 rfl rfl rfl rfl rfl rfl rfl rfl
    (by decide) (by decide) rfl rfl (by decide)

/-! ## C10: `move_` and the displaced entry (rcore-fs-sfs/src/lib.rs:705-764)

Directory contents are modelled at the `DiskEntry` level: the body of a Dir
inode is its packed entry array (entry `i` at byte offset `DIRENT_SIZE * i`),
so `read_direntry` / `write_direntry` / `append_direntry` / `remove_direntry`
(lib.rs:204-230) become list operations on that array, and the `_resize` by
`±DIRENT_SIZE` becomes a length change.  The inode table maps inode ids to
`(type_, nlinks, entries)`; `self` and `target` may be the same inode, which
the source observes through the shared `disk_inode`, so every step re-reads
from the updated table.  `Arc::ptr_eq(self.fs, dest.fs)` always holds here
(one filesystem), and `fs.get_inode` of an absent id is an abort. -/

structure DirInode where
  type_ : FileType
  nlinks : Nat
  entries : List (String × Nat)
deriving DecidableEq

structure DirFs where
  inodes : List (Nat × DirInode)
deriving DecidableEq

def DirFs.get (fs : DirFs) (id : Nat) : Option DirInode := fs.inodes.lookup id

/-- Replace the binding of `id` in the inode table. -/
def assocSet : List (Nat × DirInode) → Nat → DirInode → List (Nat × DirInode)
  | [], _, _ => []
  | (k, v) :: rest, id, ino =>
    if k = id then (k, ino) :: rest else (k, v) :: assocSet rest id ino

/-- `INodeImpl::get_file_inode_and_entry_id` (lib.rs:170-178): linear scan,
first match wins, returning `(inode id, entry index)`. -/
def get_file_inode_and_entry_id (d : DirInode) (name : String) :
    Option (Nat × Nat) :=
  match d.entries.findIdx? (fun e => e.1 = name) with
  | some i => some ((d.entries.getD i ("", 0)).2, i)
  | none => none

/-- `INodeImpl::remove_direntry` (lib.rs:222-230):
`debug_assert!(id < dirent_count)`, copy the last entry into slot `id`,
shrink by one entry. -/
def remove_direntry (d : DirInode) (id : Nat) : Except Err DirInode :=
  if id < d.entries.length then
    .ok { d with entries :=
      (d.entries.set id (d.entries.getD (d.entries.length - 1) ("", 0))).dropLast }
  else .error .panic

/-- `fs.get_inode(id)` (rcore-fs-sfs/src/lib.rs:993-1005): asserts the id is
valid (`assert!(!free_map[id])` and a successful load), so an absent id is
an abort. -/
def dirfs_get_inode (fs : DirFs) (id : Nat) : Except Err DirInode :=
  match fs.get id with
  | some i => .ok i
  | none => .error .panic

/-- Update one inode in the table. -/
def withSet (fs : DirFs) (id : Nat) (ino : DirInode) : DirFs :=
  ⟨assocSet fs.inodes id ino⟩

/-- `move_` lines 733-735: if `new_name` exists in the target, remove that
entry via `remove_direntry` — with no `nlinks` adjustment on the inode the
entry named. -/
def move_displaced (fs : DirFs) (destId : Nat) (destI : DirInode)
    (new_name : String) : Except Err DirFs :=
  match get_file_inode_and_entry_id destI new_name with
  | some di =>
    match remove_direntry destI di.2 with
    | .ok destR => .ok (withSet fs destId destR)
    | .error e => .error e
  | none => .ok fs

/-- `move_` lines 757-761: after the entry moved, if the moved inode is a
directory, `self.nlinks_dec(); dest.nlinks_inc()` (`nlinks_dec` asserts
positivity). -/
def move_nlinks_adjust (fs3 : DirFs) (selfId destId moved : Nat) :
    Except Err DirFs := do
  let movedI ← dirfs_get_inode fs3 moved
  if movedI.type_ = .Dir then do
    let selfI4 ← dirfs_get_inode fs3 selfId
    if selfI4.nlinks = 0 then .error .panic
    else do
      let destI2 ← dirfs_get_inode
        (withSet fs3 selfId { selfI4 with nlinks := selfI4.nlinks - 1 }) destId
      .ok (withSet (withSet fs3 selfId { selfI4 with nlinks := selfI4.nlinks - 1 })
        destId { destI2 with nlinks := destI2.nlinks + 1 })
  else .ok fs3

/-- `move_` lines 755-756: `self.remove_direntry(entry_id)` then the nlinks
adjustment. -/
def move_remove_old (fs2 : DirFs) (selfId destId moved entryId : Nat) :
    Except Err DirFs := do
  let selfI2 ← dirfs_get_inode fs2 selfId
  let selfI3 ← remove_direntry selfI2 entryId
  move_nlinks_adjust (withSet fs2 selfId selfI3) selfId destId moved

/-- `move_` lines 749-762, the cross-directory branch: append the entry to
the target, remove it from the source, adjust parent nlinks for a moved
directory. -/
def move_cross (fs1 : DirFs) (selfId destId : Nat) (new_name : String)
    (ie : Nat × Nat) : Except Err DirFs := do
  let destI1 ← dirfs_get_inode fs1 destId
  move_remove_old
    (withSet fs1 destId { destI1 with entries := destI1.entries ++ [(new_name, ie.1)] })
    selfId destId ie.1 ie.2

/-- `INodeImpl::move_` (rcore-fs-sfs/src/lib.rs:705-764).  `self` and
`target` always share the filesystem here, so the `NotSameFs` downcast
checks are omitted. -/
def move_ (fs : DirFs) (selfId : Nat) (old_name : String) (destId : Nat)
    (new_name : String) : Except Err DirFs := do
  let selfI ← dirfs_get_inode fs selfId
  if selfI.type_ ≠ .Dir then .error (.fs .NotDir)
  else if selfI.nlinks = 0 then .error (.fs .DirRemoved)
  else if old_name = "." then .error (.fs .IsDir)
  else if old_name = ".." then .error (.fs .IsDir)
  else do
    let destI ← dirfs_get_inode fs destId
    if destI.type_ ≠ .Dir then .error (.fs .NotDir)
    else if destI.nlinks = 0 then .error (.fs .DirRemoved)
    else do
      let fs1 ← move_displaced fs destId destI new_name
      let selfI1 ← dirfs_get_inode fs1 selfId
      match get_file_inode_and_entry_id selfI1 old_name with
      | none => .error (.fs .EntryNotFound)
      | some ie =>
        if selfId = destId then
          .ok (withSet fs1 selfId
            { selfI1 with entries := selfI1.entries.set ie.2 (new_name, ie.1) })
        else move_cross fs1 selfId destId new_name ie

theorem assocSet_lookup_ne (l : List (Nat × DirInode)) (k j : Nat)
    (v : DirInode) (h : j ≠ k) :
    (assocSet l k v).lookup j = l.lookup j := by
  induction l with
  | nil => rfl
  | cons p rest ih =>
    obtain ⟨pk, pv⟩ := p
    unfold assocSet
    by_cases hk : pk = k
    · subst hk
      rw [if_pos rfl]
      have hbeq : (j == pk) = false := by
        simp only [beq_eq_false_iff_ne, ne_eq]
        exact h
      simp [List.lookup, hbeq]
    · rw [if_neg hk]
      cases hjp : j == pk <;> simp [List.lookup, hjp, ih]

theorem withSet_get_ne (fs : DirFs) (id : Nat) (ino : DirInode) {j : Nat}
    (h : j ≠ id) : (withSet fs id ino).get j = fs.get j := by
  unfold withSet DirFs.get
  exact assocSet_lookup_ne fs.inodes id j ino h

theorem move_displaced_frame {fs fs1 : DirFs} {destId : Nat}
    {destI : DirInode} {new_name : String} {j : Nat}
    (h : move_displaced fs destId destI new_name = .ok fs1) (hj : j ≠ destId) :
    fs1.get j = fs.get j := by
  unfold move_displaced at h
  repeat' split at h
  all_goals cases h
  all_goals simp only [withSet_get_ne _ _ _ hj]

theorem move_nlinks_adjust_frame {fs3 fs' : DirFs} {selfId destId moved j : Nat}
    (h : move_nlinks_adjust fs3 selfId destId moved = .ok fs')
    (hj1 : j ≠ selfId) (hj2 : j ≠ destId) :
    fs'.get j = fs3.get j := by
  unfold move_nlinks_adjust at h
  cases h1 : dirfs_get_inode fs3 moved with
  | error e => rw [h1, bindE_err] at h; cases h
  | ok movedI =>
    rw [h1, bindE_ok] at h
    split at h
    · cases h2 : dirfs_get_inode fs3 selfId with
      | error e => rw [h2, bindE_err] at h; cases h
      | ok selfI4 =>
        rw [h2, bindE_ok] at h
        split at h
        · cases h
        · cases h3 : dirfs_get_inode
            (withSet fs3 selfId { selfI4 with nlinks := selfI4.nlinks - 1 }) destId with
          | error e => rw [h3, bindE_err] at h; cases h
          | ok destI2 =>
            rw [h3, bindE_ok] at h
            cases h
            rw [withSet_get_ne _ _ _ hj2, withSet_get_ne _ _ _ hj1]
    · cases h
      rfl

theorem move_remove_old_frame {fs2 fs' : DirFs}
    {selfId destId moved entryId j : Nat}
    (h : move_remove_old fs2 selfId destId moved entryId = .ok fs')
    (hj1 : j ≠ selfId) (hj2 : j ≠ destId) :
    fs'.get j = fs2.get j := by
  unfold move_remove_old at h
  cases h1 : dirfs_get_inode fs2 selfId with
  | error e => rw [h1, bindE_err] at h; cases h
  | ok selfI2 =>
    rw [h1, bindE_ok] at h
    cases h2 : remove_direntry selfI2 entryId with
    | error e => rw [h2, bindE_err] at h; cases h
    | ok selfI3 =>
      rw [h2, bindE_ok] at h
      rw [move_nlinks_adjust_frame h hj1 hj2, withSet_get_ne _ _ _ hj1]

theorem move_cross_frame {fs1 fs' : DirFs} {selfId destId : Nat}
    {new_name : String} {ie : Nat × Nat} {j : Nat}
    (h : move_cross fs1 selfId destId new_name ie = .ok fs')
    (hj1 : j ≠ selfId) (hj2 : j ≠ destId) :
    fs'.get j = fs1.get j := by
  unfold move_cross at h
  cases h1 : dirfs_get_inode fs1 destId with
  | error e => rw [h1, bindE_err] at h; cases h
  | ok destI1 =>
    rw [h1, bindE_ok] at h
    rw [move_remove_old_frame h hj1 hj2, withSet_get_ne _ _ _ hj2]

/-- C10 (amended): when `move_` succeeds with `new_name` already present in
the target directory, the displaced entry is removed via `remove_direntry`
with no `nlinks` change on the inode `j` it named — provided `j` is neither
the source nor the target directory itself; if the displaced entry names one
of those (e.g. `new_name = ".."`), the usual parent-link adjustment of a
cross-directory directory move still applies to it. -/
theorem C10_move_displaced_nlinks (fs fs' : DirFs) (selfId destId j e : Nat)
    (old_name new_name : String) (destI : DirInode)
    (hdest : fs.get destId = some destI)
    (hdisp : get_file_inode_and_entry_id destI new_name = some (j, e))
    (hj1 : j ≠ selfId) (hj2 : j ≠ destId)
    (hrun : move_ fs selfId old_name destId new_name = .ok fs') :
    (fs'.get j).map DirInode.nlinks = (fs.get j).map DirInode.nlinks := by
  unfold move_ at hrun
  cases h1 : dirfs_get_inode fs selfId with
  | error e => rw [h1, bindE_err] at hrun; cases hrun
  | ok selfI =>
    rw [h1, bindE_ok] at hrun
    split at hrun
    · cases hrun
    · split at hrun
      · cases hrun
      · split at hrun
        · cases hrun
        · split at hrun
          · cases hrun
          · cases h2 : dirfs_get_inode fs destId with
            | error e => rw [h2, bindE_err] at hrun; cases hrun
            | ok destI0 =>
              rw [h2, bindE_ok] at hrun
              split at hrun
              · cases hrun
              · split at hrun
                · cases hrun
                · cases hd : move_displaced fs destId destI0 new_name with
                  | error e => rw [hd, bindE_err] at hrun; cases hrun
                  | ok fs1 =>
                    rw [hd, bindE_ok] at hrun
                    cases h3 : dirfs_get_inode fs1 selfId with
                    | error e => rw [h3, bindE_err] at hrun; cases hrun
                    | ok selfI1 =>
                      rw [h3, bindE_ok] at hrun
                      split at hrun
                      · cases hrun
                      · split at hrun
                        · cases hrun
                          rw [withSet_get_ne _ _ _ hj1,
                            move_displaced_frame hd hj2]
                        · rw [move_cross_frame hrun hj1 hj2,
                            move_displaced_frame hd hj2]

/-- C10 counterexample to the unqualified claim: `/a` contains directory
`d` and subdirectory `b`; `move_(a, "d", b, "..")` succeeds, the displaced
entry `".."` of `b` names `a` itself, and `a`'s `nlinks` drops from 4 to 3
(the usual parent adjustment for a directory changing parents). -/
def c10_fs : DirFs :=
  ⟨[(1, ⟨.Dir, 4, [(".", 1), ("..", 1), ("d", 3), ("b", 2)]⟩),
    (2, ⟨.Dir, 2, [(".", 2), ("..", 1)]⟩),
    (3, ⟨.Dir, 2, [(".", 3), ("..", 1)]⟩)]⟩

def c10_fs_after : DirFs :=
  match move_ c10_fs 1 "d" 2 ".." with
  | .ok f => f
  | .error _ => c10_fs

theorem C10_counterexample :
    get_file_inode_and_entry_id ⟨.Dir, 2, [(".", 2), ("..", 1)]⟩ ".." =
      some (1, 1) ∧
    move_ c10_fs 1 "d" 2 ".." = Except.ok c10_fs_after ∧
    (c10_fs.get 1).map DirInode.nlinks = some 4 ∧
    (c10_fs_after.get 1).map DirInode.nlinks = some 3 :=
  ⟨by decide, rfl, by decide, by decide⟩

/-- Witness scenario: moving file `f` from `/a` to `/b` under the name `x`,
which already names file inode 6 in `/b`; inode 6 keeps `nlinks = 1`. -/
def c10w_fs : DirFs :=
  ⟨[(1, ⟨.Dir, 3, [(".", 1), ("..", 1), ("f", 5)]⟩),
    (2, ⟨.Dir, 2, [(".", 2), ("..", 1), ("x", 6)]⟩),
    (5, ⟨.File, 1, []⟩),
    (6, ⟨.File, 1, []⟩)]⟩

def c10w_fs_after : DirFs :=
  match move_ c10w_fs 1 "f" 2 "x" with
  | .ok f => f
  | .error _ => c10w_fs

theorem C10_move_displaced_nlinks_witness :
    (c10w_fs_after.get 6).map DirInode.nlinks =
      (c10w_fs.get 6).map DirInode.nlinks :=
  C10_move_displaced_nlinks c10w_fs c10w_fs_after 1 2 6 2 "f" "x"
    ⟨.Dir, 2, [(".", 2), ("..", 1), ("x", 6)]⟩ (by decide) (by decide)
    (by decide) (by decide) rfl

theorem C4_alloc_free_invariant_witness :
    (sfs_create_state 70000).unused_blocks =
      (sfs_create_state 70000).freemap.count true ∧
    c4_run_result.1.unused_blocks = c4_run_result.1.freemap.count true ∧
    c4_run_result.2.Nodup :=
  ⟨(C4_alloc_free_invariant.1 70000 (by decide)).1,
   (C4_alloc_free_invariant.2 c4_run_ops c4_run_state [] c4_run_result.1
     c4_run_result.2 (by decide) rfl).1,
   (C4_alloc_free_invariant.2 c4_run_ops c4_run_state [] c4_run_result.1
     c4_run_result.2 (by decide) rfl).2.1⟩

/-! ## C1/C2: correctness of resize, write and read

Proof-side view of the state: `dmap st i` is the disk block that
`get_disk_block_id` resolves file block `i` to; `metaIds` are the blocks
holding the mapping (the indirect block, the double-indirect block and its
pages); `Good` is the invariant tying them together: the mapping and meta
blocks are pairwise distinct, positive, and marked in-use in the freemap. -/

def ceilB (len : Nat) : Nat := (len + BLKSIZE - 1) / BLKSIZE

def pageCount (nb : Nat) : Nat := (nb - MAX_NBLOCK_INDIRECT) / BLK_NENTRY + 1

def pageOf (st : SfsState) (j : Nat) : Nat :=
  readU32 st.dev (st.inode.db_indirect * BLKSIZE + ENTRY_SIZE * j)

def dmap (st : SfsState) (i : Nat) : Nat :=
  if i < MAX_NBLOCK_DIRECT then st.inode.direct.getD i 0
  else if i < MAX_NBLOCK_INDIRECT then
    readU32 st.dev (st.inode.indirect * BLKSIZE + ENTRY_SIZE * (i - NDIRECT))
  else
    readU32 st.dev
      (pageOf st ((i - MAX_NBLOCK_INDIRECT) / BLK_NENTRY) * BLKSIZE +
        ENTRY_SIZE * ((i - MAX_NBLOCK_INDIRECT) % BLK_NENTRY))

def metaIds (st : SfsState) : List Nat :=
  (if NDIRECT ≤ st.inode.blocks then [st.inode.indirect] else []) ++
  (if MAX_NBLOCK_INDIRECT ≤ st.inode.blocks then
    st.inode.db_indirect :: (List.range (pageCount st.inode.blocks)).map (pageOf st)
   else [])

def dataIds (st : SfsState) : List Nat :=
  (List.range st.inode.blocks).map (dmap st)

/-- Claims for the mapping prefix `[0, m)`: all meta blocks plus the first
`m` data blocks.  `PartialClaimed st st.inode.blocks` is everything the
inode owns beyond its own block. -/
def PartialClaimed (st : SfsState) (m : Nat) : List Nat :=
  metaIds st ++ (List.range m).map (dmap st)

/-- Invariant holding midway through `_resize`'s data-block loop: the meta
blocks are in place and the first `m` file blocks are mapped, all claimed
blocks pairwise distinct, positive, in range and marked in-use. -/
def MidGood (st : SfsState) (m : Nat) : Prop :=
  st.inode.blocks < MAX_NBLOCK_DOUBLE_INDIRECT ∧
  st.inode.direct.length = NDIRECT ∧
  (st.inode.blocks < MAX_NBLOCK_INDIRECT → st.inode.db_indirect = 0) ∧
  (PartialClaimed st m).Nodup ∧
  (∀ c ∈ PartialClaimed st m, 0 < c ∧ c < st.freemap.length ∧
    st.freemap.getD c false = false) ∧
  st.freemap.getD 0 false = false ∧
  st.freemap.length ≤ 2 ^ 32

/-- The full invariant between operations. -/
def Good (st : SfsState) : Prop :=
  st.inode.blocks = ceilB st.inode.size ∧ MidGood st st.inode.blocks

instance (st : SfsState) (m : Nat) : Decidable (MidGood st m) := by
  unfold MidGood
  infer_instance

instance (st : SfsState) : Decidable (Good st) := by
  unfold Good
  infer_instance

theorem claimedEq (st : SfsState) :
    PartialClaimed st st.inode.blocks = metaIds st ++ dataIds st := rfl

/-! ### Byte-level lemmas -/

theorem writeBytes_out {dev : Nat → Nat} {a : Nat} {bs : List Nat} {x : Nat}
    (h : x < a ∨ a + bs.length ≤ x) : writeBytes dev a bs x = dev x := by
  unfold writeBytes
  rw [if_neg (by omega)]

theorem writeBytes_in {dev : Nat → Nat} {a : Nat} {bs : List Nat} {x : Nat}
    (h1 : a ≤ x) (h2 : x < a + bs.length) :
    writeBytes dev a bs x = bs.getD (x - a) 0 := by
  unfold writeBytes
  rw [if_pos ⟨h1, h2⟩]

theorem readU32_congr {dev dev' : Nat → Nat} {a : Nat}
    (h : ∀ x, a ≤ x → x < a + 4 → dev' x = dev x) :
    readU32 dev' a = readU32 dev a := by
  unfold readU32
  rw [h a (by omega) (by omega), h (a + 1) (by omega) (by omega),
    h (a + 2) (by omega) (by omega), h (a + 3) (by omega) (by omega)]

theorem readU32_writeU32_same (dev : Nat → Nat) (a v : Nat) :
    readU32 (writeU32 dev a v) a = v % 2 ^ 32 := by
  unfold readU32 writeU32 u32Bytes
  rw [writeBytes_in (by omega) (by simp), writeBytes_in (by omega) (by simp),
    writeBytes_in (by omega) (by simp), writeBytes_in (by omega) (by simp)]
  have h0 : a - a = 0 := by omega
  have h1 : a + 1 - a = 1 := by omega
  have h2 : a + 2 - a = 2 := by omega
  have h3 : a + 3 - a = 3 := by omega
  rw [h0, h1, h2, h3]
  simp only [List.getD_cons_zero, List.getD_cons_succ]
  omega

theorem readU32_writeU32_ne {dev : Nat → Nat} {a a' : Nat} (v : Nat)
    (h : a' + 4 ≤ a ∨ a + 4 ≤ a') :
    readU32 (writeU32 dev a v) a' = readU32 dev a' := by
  apply readU32_congr
  intro x hx1 hx2
  apply writeBytes_out
  simp only [u32Bytes, List.length_cons, List.length_nil]
  omega

theorem readU32_writeBytes_ne {dev : Nat → Nat} {a a' : Nat} {bs : List Nat}
    (h : a' + 4 ≤ a ∨ a + bs.length ≤ a') :
    readU32 (writeBytes dev a bs) a' = readU32 dev a' := by
  apply readU32_congr
  intro x hx1 hx2
  apply writeBytes_out
  omega

theorem readU32_lt (dev : Nat → Nat) (a : Nat) (h : ∀ x, dev x < 256) :
    readU32 dev a < 2 ^ 32 := by
  unfold readU32
  have := h a
  have := h (a + 1)
  have := h (a + 2)
  have := h (a + 3)
  omega

theorem ceilB_size_le (size : Nat) : size ≤ ceilB size * BLKSIZE := by
  unfold ceilB BLKSIZE
  omega

theorem ceilB_le_iff (size nb : Nat) : ceilB size ≤ nb ↔ size ≤ nb * BLKSIZE := by
  unfold ceilB BLKSIZE
  omega

theorem BLKSIZE_eq : BLKSIZE = 4096 := rfl

theorem ENTRY_SIZE_eq : ENTRY_SIZE = 4 := rfl

theorem NDIRECT_eq : NDIRECT = 12 := rfl

theorem MAX_NBLOCK_DIRECT_eq : MAX_NBLOCK_DIRECT = 12 := rfl

/-! ### Page-index arithmetic -/

theorem pageCount_le {nb : Nat} (h : nb < MAX_NBLOCK_DOUBLE_INDIRECT) :
    pageCount nb ≤ BLK_NENTRY := by
  unfold pageCount
  rw [BLK_NENTRY_eq, MAX_NBLOCK_INDIRECT_eq] at *
  rw [MAX_NBLOCK_DOUBLE_INDIRECT_eq] at h
  omega

theorem pageIdx_lt {i nb : Nat} (h : i < nb) :
    (i - MAX_NBLOCK_INDIRECT) / BLK_NENTRY < pageCount nb := by
  unfold pageCount
  rw [BLK_NENTRY_eq, MAX_NBLOCK_INDIRECT_eq] at *
  omega

/-! ### Membership in the claimed lists -/

theorem indirect_mem_metaIds {st : SfsState} (h : NDIRECT ≤ st.inode.blocks) :
    st.inode.indirect ∈ metaIds st := by
  unfold metaIds
  rw [if_pos h]
  simp

theorem db_mem_metaIds {st : SfsState}
    (h : MAX_NBLOCK_INDIRECT ≤ st.inode.blocks) :
    st.inode.db_indirect ∈ metaIds st := by
  unfold metaIds
  rw [if_pos h]
  exact List.mem_append_right _ (List.mem_cons_self _ _)

theorem page_mem_metaIds {st : SfsState}
    (h : MAX_NBLOCK_INDIRECT ≤ st.inode.blocks) {j : Nat}
    (hj : j < pageCount st.inode.blocks) : pageOf st j ∈ metaIds st := by
  unfold metaIds
  rw [if_pos h]
  exact List.mem_append_right _ (List.mem_cons_of_mem _
    (List.mem_map_of_mem _ (List.mem_range.mpr hj)))

theorem meta_mem_claimed {st : SfsState} {m c : Nat} (h : c ∈ metaIds st) :
    c ∈ PartialClaimed st m := List.mem_append_left _ h

theorem dmap_mem_claimed {st : SfsState} {m i : Nat} (hi : i < m) :
    dmap st i ∈ PartialClaimed st m :=
  List.mem_append_right _ (List.mem_map_of_mem _ (List.mem_range.mpr hi))

/-! ### Meta addresses.  `IsMetaAddr st a` holds when byte `a` lies inside
one of the blocks that store the file-block mapping; writes outside those
leave `dmap` (and hence `get_disk_block_id`) unchanged. -/

def IsMetaAddr (st : SfsState) (a : Nat) : Prop :=
  (NDIRECT ≤ st.inode.blocks ∧ st.inode.indirect * BLKSIZE ≤ a ∧
    a < st.inode.indirect * BLKSIZE + BLKSIZE) ∨
  (MAX_NBLOCK_INDIRECT ≤ st.inode.blocks ∧
    (st.inode.db_indirect * BLKSIZE ≤ a ∧
      a < st.inode.db_indirect * BLKSIZE + BLKSIZE ∨
     ∃ j, j < pageCount st.inode.blocks ∧
      pageOf st j * BLKSIZE ≤ a ∧ a < pageOf st j * BLKSIZE + BLKSIZE))

theorem isMeta_elim {st : SfsState} {a : Nat} (h : IsMetaAddr st a) :
    ∃ c ∈ metaIds st, c * BLKSIZE ≤ a ∧ a < c * BLKSIZE + BLKSIZE := by
  rcases h with ⟨h12, h1, h2⟩ | ⟨hM, ⟨h1, h2⟩ | ⟨j, hj, h1, h2⟩⟩
  · exact ⟨_, indirect_mem_metaIds h12, h1, h2⟩
  · exact ⟨_, db_mem_metaIds hM, h1, h2⟩
  · exact ⟨_, page_mem_metaIds hM hj, h1, h2⟩

/-! ### Congruence: a device rewrite that agrees on all meta addresses
leaves the whole mapping view unchanged. -/

theorem pageOf_congr {st : SfsState} {dev' : Nat → Nat}
    (hnb : st.inode.blocks < MAX_NBLOCK_DOUBLE_INDIRECT)
    (hagree : ∀ a, IsMetaAddr st a → dev' a = st.dev a)
    {j : Nat} (hj : j < pageCount st.inode.blocks)
    (hMNI : MAX_NBLOCK_INDIRECT ≤ st.inode.blocks) :
    pageOf { st with dev := dev' } j = pageOf st j := by
  unfold pageOf
  dsimp only
  apply readU32_congr
  intro x hx1 hx2
  apply hagree
  have hle := pageCount_le hnb
  rw [BLK_NENTRY_eq] at hle
  right
  refine ⟨hMNI, Or.inl ⟨?_, ?_⟩⟩
  · rw [ENTRY_SIZE_eq] at hx1
    omega
  · rw [ENTRY_SIZE_eq] at hx2
    rw [BLKSIZE_eq] at *
    omega

theorem dmap_congr {st : SfsState} {dev' : Nat → Nat}
    (hnb : st.inode.blocks < MAX_NBLOCK_DOUBLE_INDIRECT)
    (hagree : ∀ a, IsMetaAddr st a → dev' a = st.dev a)
    {i : Nat} (hi : i < st.inode.blocks) :
    dmap { st with dev := dev' } i = dmap st i := by
  unfold dmap
  dsimp only
  by_cases h1 : i < MAX_NBLOCK_DIRECT
  · rw [if_pos h1, if_pos h1]
  · rw [if_neg h1, if_neg h1]
    by_cases h2 : i < MAX_NBLOCK_INDIRECT
    · rw [if_pos h2, if_pos h2]
      apply readU32_congr
      intro x hx1 hx2
      apply hagree
      left
      rw [MAX_NBLOCK_DIRECT_eq] at h1
      rw [MAX_NBLOCK_INDIRECT_eq] at h2
      rw [NDIRECT_eq] at hx1 hx2 ⊢
      refine ⟨by omega, ?_, ?_⟩
      · rw [ENTRY_SIZE_eq] at hx1
        omega
      · rw [ENTRY_SIZE_eq] at hx2
        rw [BLKSIZE_eq] at *
        omega
    · rw [if_neg h2, if_neg h2]
      rw [pageOf_congr hnb hagree (pageIdx_lt hi) (by omega)]
      apply readU32_congr
      intro x hx1 hx2
      apply hagree
      right
      refine ⟨by omega, Or.inr ⟨(i - MAX_NBLOCK_INDIRECT) / BLK_NENTRY,
        pageIdx_lt hi, ?_, ?_⟩⟩
      · rw [ENTRY_SIZE_eq] at hx1
        omega
      · rw [ENTRY_SIZE_eq, BLK_NENTRY_eq] at hx2
        rw [BLK_NENTRY_eq, BLKSIZE_eq]
        rw [BLKSIZE_eq] at hx2
        omega

theorem metaIds_congr {st : SfsState} {dev' : Nat → Nat}
    (hnb : st.inode.blocks < MAX_NBLOCK_DOUBLE_INDIRECT)
    (hagree : ∀ a, IsMetaAddr st a → dev' a = st.dev a) :
    metaIds { st with dev := dev' } = metaIds st := by
  unfold metaIds
  dsimp only
  congr 1
  by_cases hM : MAX_NBLOCK_INDIRECT ≤ st.inode.blocks
  · rw [if_pos hM, if_pos hM]
    congr 1
    apply List.map_congr_left
    intro j hj
    exact pageOf_congr hnb hagree (List.mem_range.mp hj) hM
  · rw [if_neg hM, if_neg hM]

theorem partialClaimed_congr {st : SfsState} {dev' : Nat → Nat}
    (hnb : st.inode.blocks < MAX_NBLOCK_DOUBLE_INDIRECT)
    (hagree : ∀ a, IsMetaAddr st a → dev' a = st.dev a)
    {m : Nat} (hm : m ≤ st.inode.blocks) :
    PartialClaimed { st with dev := dev' } m = PartialClaimed st m := by
  unfold PartialClaimed
  rw [metaIds_congr hnb hagree]
  congr 1
  apply List.map_congr_left
  intro i hi
  exact dmap_congr hnb hagree (lt_of_lt_of_le (List.mem_range.mp hi) hm)

theorem midGood_dev_congr {st : SfsState} {dev' : Nat → Nat} {m : Nat}
    (hMG : MidGood st m) (hm : m ≤ st.inode.blocks)
    (hagree : ∀ a, IsMetaAddr st a → dev' a = st.dev a) :
    MidGood { st with dev := dev' } m := by
  obtain ⟨h1, h2, h3, h4, h5, h6, h7⟩ := hMG
  refine ⟨h1, h2, h3, ?_, ?_, h6, h7⟩
  · rw [partialClaimed_congr h1 hagree hm]
    exact h4
  · rw [partialClaimed_congr h1 hagree hm]
    exact h5

/-! ### Separation of data and meta blocks -/

theorem range_map_inj {m : Nat} {f : Nat → Nat}
    (h : ((List.range m).map f).Nodup)
    {i i' : Nat} (hi : i < m) (hi' : i' < m) (hne : i ≠ i') : f i ≠ f i' := by
  intro heq
  have hlen : ((List.range m).map f).length = m := by simp
  have hinj : Function.Injective (((List.range m).map f).get) :=
    List.nodup_iff_injective_get.mp h
  have e1 : ((List.range m).map f).get ⟨i, by omega⟩ = f i := by simp
  have e2 : ((List.range m).map f).get ⟨i', by omega⟩ = f i' := by simp
  have h3 := hinj (show ((List.range m).map f).get ⟨i, by omega⟩ =
    ((List.range m).map f).get ⟨i', by omega⟩ from by rw [e1, e2]; exact heq)
  exact hne (by simpa using congrArg Fin.val h3)

theorem data_not_meta {st : SfsState} {m : Nat} (hMG : MidGood st m) {i : Nat}
    (hi : i < m) {a : Nat} (h1 : dmap st i * BLKSIZE ≤ a)
    (h2 : a < dmap st i * BLKSIZE + BLKSIZE) : ¬ IsMetaAddr st a := by
  intro hmeta
  obtain ⟨c, hc, hc1, hc2⟩ := isMeta_elim hmeta
  have hceq : c = dmap st i := by
    rw [BLKSIZE_eq] at h1 h2 hc1 hc2
    omega
  have hnd := hMG.2.2.2.1
  unfold PartialClaimed at hnd
  have hdisj := (List.nodup_append.mp hnd).2.2
  exact hdisj hc (hceq ▸ List.mem_map_of_mem _ (List.mem_range.mpr hi))

theorem dmap_inj {st : SfsState} {m : Nat} (hMG : MidGood st m) {i i' : Nat}
    (hi : i < m) (hi' : i' < m) (hne : i ≠ i') : dmap st i ≠ dmap st i' := by
  have hnd := hMG.2.2.2.1
  unfold PartialClaimed at hnd
  exact range_map_inj (List.nodup_append.mp hnd).2.1 hi hi' hne

/-! ### `get_disk_block_id` under the invariant realises `dmap` -/

theorem get_disk_block_id_eq {st : SfsState} {m : Nat} (hMG : MidGood st m)
    {i : Nat} (hi : i < m) (him : m ≤ st.inode.blocks) :
    get_disk_block_id st i = .ok (dmap st i) := by
  have hblt : i < st.inode.blocks := lt_of_lt_of_le hi him
  have hnb := hMG.1
  unfold get_disk_block_id
  rw [if_neg (by omega)]
  by_cases h1 : i < MAX_NBLOCK_DIRECT
  · rw [if_pos h1]
    unfold dmap
    rw [if_pos h1]
  · rw [if_neg h1]
    by_cases h2 : i < MAX_NBLOCK_INDIRECT
    · rw [if_pos h2]
      unfold read_block_u32
      rw [if_pos (by
        rw [MAX_NBLOCK_DIRECT_eq] at h1
        rw [MAX_NBLOCK_INDIRECT_eq] at h2
        rw [ENTRY_SIZE_eq, NDIRECT_eq, BLKSIZE_eq]
        omega)]
      rw [bindE_ok]
      unfold dmap
      rw [if_neg h1, if_pos h2]
    · rw [if_neg h2, if_pos (by omega)]
      dsimp only
      have hjlt := pageIdx_lt hblt
      have hjle := pageCount_le hnb
      have hdiv : ENTRY_SIZE * ((i - MAX_NBLOCK_INDIRECT) / BLK_NENTRY) + 4 ≤
          BLKSIZE := by
        rw [BLK_NENTRY_eq] at hjlt hjle
        rw [ENTRY_SIZE_eq, BLKSIZE_eq, BLK_NENTRY_eq]
        omega
      have hmod : ENTRY_SIZE * ((i - MAX_NBLOCK_INDIRECT) % BLK_NENTRY) + 4 ≤
          BLKSIZE := by
        rw [ENTRY_SIZE_eq, BLKSIZE_eq, BLK_NENTRY_eq]
        omega
      have hppos : 0 < pageOf st ((i - MAX_NBLOCK_INDIRECT) / BLK_NENTRY) :=
        (hMG.2.2.2.2.1 _ (meta_mem_claimed (page_mem_metaIds (by omega) hjlt))).1
      have hpval : pageOf st ((i - MAX_NBLOCK_INDIRECT) / BLK_NENTRY) =
          readU32 st.dev (st.inode.db_indirect * BLKSIZE +
            ENTRY_SIZE * ((i - MAX_NBLOCK_INDIRECT) / BLK_NENTRY)) := rfl
      have hdeq : dmap st i = readU32 st.dev
          (pageOf st ((i - MAX_NBLOCK_INDIRECT) / BLK_NENTRY) * BLKSIZE +
            ENTRY_SIZE * ((i - MAX_NBLOCK_INDIRECT) % BLK_NENTRY)) := by
        unfold dmap
        rw [if_neg h1, if_neg h2]
      rw [hpval] at hdeq hppos
      have hdpos : 0 < dmap st i := (hMG.2.2.2.2.1 _ (dmap_mem_claimed hi)).1
      unfold read_block_u32
      rw [if_pos hdiv, bindE_ok, if_neg (by omega), if_pos hmod, bindE_ok,
        if_neg (by rw [← hdeq]; omega), hdeq]

/-! ### The realised byte map -/

def addrOf (st : SfsState) (o : Nat) : Nat :=
  dmap st (o / BLKSIZE) * BLKSIZE + o % BLKSIZE

theorem addrOf_add {st : SfsState} {lo : Nat} (j : Nat)
    (h : lo % BLKSIZE + j < BLKSIZE) : addrOf st (lo + j) = addrOf st lo + j := by
  unfold addrOf
  rw [BLKSIZE_eq] at *
  have h1 : (lo + j) / 4096 = lo / 4096 := by omega
  have h2 : (lo + j) % 4096 = lo % 4096 + j := by omega
  rw [h1, h2]
  omega

theorem addrOf_inj {st : SfsState} {m : Nat} (hMG : MidGood st m) {o o' : Nat}
    (ho : o < m * BLKSIZE) (ho' : o' < m * BLKSIZE) (hne : o ≠ o') :
    addrOf st o ≠ addrOf st o' := by
  have hdiv : o / BLKSIZE < m := by rw [BLKSIZE_eq] at *; omega
  have hdiv' : o' / BLKSIZE < m := by rw [BLKSIZE_eq] at *; omega
  unfold addrOf
  by_cases hq : o / BLKSIZE = o' / BLKSIZE
  · rw [hq]
    intro h
    apply hne
    rw [BLKSIZE_eq] at *
    omega
  · have hdne := dmap_inj hMG hdiv hdiv' hq
    intro h
    apply hdne
    rw [BLKSIZE_eq] at *
    omega

theorem addrOf_in_data {st : SfsState} {m o : Nat} (ho : o < m * BLKSIZE) :
    dmap st (o / BLKSIZE) * BLKSIZE ≤ addrOf st o ∧
      addrOf st o < dmap st (o / BLKSIZE) * BLKSIZE + BLKSIZE := by
  unfold addrOf
  have : o % BLKSIZE < BLKSIZE := Nat.mod_lt _ (by rw [BLKSIZE_eq]; omega)
  omega

/-! ### One step of the block iterator, `step`-form -/

theorem brStep_le (k lo hi : Nat) :
    lo % 2 ^ k + brStep k lo hi ≤ 2 ^ k := by
  have hbs : 0 < 2 ^ k := Nat.pos_pow_of_pos k (by norm_num)
  have hmlo : lo % 2 ^ k < 2 ^ k := Nat.mod_lt lo hbs
  have hmhi : hi % 2 ^ k < 2 ^ k := Nat.mod_lt hi hbs
  unfold brStep
  by_cases hq : lo / 2 ^ k = hi / 2 ^ k
  · rw [if_pos hq]
    omega
  · rw [if_neg hq]
    omega

theorem blockRanges_cons' (k lo hi : Nat) (h : lo < hi) :
    blockRanges k lo hi =
      ⟨lo / 2 ^ k, lo % 2 ^ k, lo % 2 ^ k + brStep k lo hi, k⟩ ::
        blockRanges k (lo + brStep k lo hi) hi := by
  have hbs : 0 < 2 ^ k := Nat.pos_pow_of_pos k (by norm_num)
  have h1 : lo / 2 ^ k * 2 ^ k + lo % 2 ^ k = lo := Nat.div_add_mod' lo (2 ^ k)
  have h2 : hi / 2 ^ k * 2 ^ k + hi % 2 ^ k = hi := Nat.div_add_mod' hi (2 ^ k)
  have hmlo : lo % 2 ^ k < 2 ^ k := Nat.mod_lt lo hbs
  have hmhi : hi % 2 ^ k < 2 ^ k := Nat.mod_lt hi hbs
  have he : (if lo / 2 ^ k = hi / 2 ^ k then hi % 2 ^ k else 2 ^ k) =
      lo % 2 ^ k + brStep k lo hi := by
    unfold brStep
    by_cases hq : lo / 2 ^ k = hi / 2 ^ k
    · rw [if_pos hq]
      have hXY : lo / 2 ^ k * 2 ^ k = hi / 2 ^ k * 2 ^ k := by rw [hq]
      omega
    · rw [if_neg hq]
      omega
  rw [blockRanges_cons k lo hi h, he]

/-! ### Unfolding the I/O loops -/

theorem readRanges_nil (st : SfsState) : readRanges st [] = .ok [] := rfl

theorem readRanges_cons (st : SfsState) (r : BlockRange)
    (rest : List BlockRange) :
    readRanges st (r :: rest) =
      (get_disk_block_id st r.block >>= fun dbid =>
        read_block st.dev dbid r.begin_ r.len >>= fun chunk =>
          readRanges st rest >>= fun tail => .ok (chunk ++ tail)) := rfl

theorem writeRanges_nil (buf : List Nat) (bufOff : Nat) (st : SfsState) :
    writeRanges buf [] bufOff st = .ok (bufOff, st) := rfl

theorem writeRanges_cons (buf : List Nat) (r : BlockRange)
    (rest : List BlockRange) (bufOff : Nat) (st : SfsState) :
    writeRanges buf (r :: rest) bufOff st =
      (get_disk_block_id st r.block >>= fun dbid =>
        write_block st.dev dbid r.begin_ ((buf.drop bufOff).take r.len) >>=
          fun dev' =>
            writeRanges buf rest (bufOff + r.len) { st with dev := dev' }) := rfl

theorem cleanRanges_nil (bufOff : Nat) (st : SfsState) :
    cleanRanges [] bufOff st = .ok (bufOff, st) := rfl

theorem cleanRanges_cons (r : BlockRange) (rest : List BlockRange)
    (bufOff : Nat) (st : SfsState) :
    cleanRanges (r :: rest) bufOff st =
      (get_disk_block_id st r.block >>= fun dbid =>
        write_block st.dev dbid r.begin_ (List.replicate r.len 0) >>=
          fun dev' => cleanRanges rest (bufOff + r.len) { st with dev := dev' }) :=
  rfl

/-! ### List plumbing -/

theorem map_range_split {α : Type} (f : Nat → α) (s t : Nat) :
    (List.range (s + t)).map f =
      (List.range s).map f ++ (List.range t).map (fun j => f (s + j)) := by
  rw [List.range_add, List.map_append, List.map_map]
  rfl

theorem readBytes_length (dev : Nat → Nat) (a n : Nat) :
    (readBytes dev a n).length = n := by
  unfold readBytes
  simp

theorem take_drop_length {buf : List Nat} {bufOff len : Nat}
    (hlen : bufOff + len ≤ buf.length) :
    ((buf.drop bufOff).take len).length = len := by
  simp
  omega

theorem take_drop_getD {buf : List Nat} {bufOff len j : Nat} (hj : j < len) :
    ((buf.drop bufOff).take len).getD j 0 = buf.getD (bufOff + j) 0 := by
  rw [List.getD_eq_getElem?_getD, List.getD_eq_getElem?_getD,
    List.getElem?_take, if_pos hj, List.getElem?_drop]

theorem replicate_getD (n j : Nat) (hj : j < n) :
    (List.replicate n (0 : Nat)).getD j 0 = 0 := by
  rw [List.getD_eq_getElem?_getD]
  simp

/-! ### `_read_at` under the invariant reads through `addrOf` -/

set_option maxRecDepth 4000 in
theorem readRanges_eq {st : SfsState} {m : Nat} (hMG : MidGood st m)
    (him : m ≤ st.inode.blocks) :
    ∀ n lo hi, hi - lo ≤ n → hi ≤ m * BLKSIZE →
      readRanges st (blockRanges BLKSIZE_LOG2 lo hi) =
        .ok ((List.range (hi - lo)).map fun j => st.dev (addrOf st (lo + j))) := by
  intro n
  induction n with
  | zero =>
    intro lo hi h1 h2
    rw [blockRanges_nil _ _ _ (by omega), readRanges_nil]
    have h0 : hi - lo = 0 := by omega
    rw [h0]
    rfl
  | succ nn ih =>
    intro lo hi h1 h2
    by_cases hlt : lo < hi
    · have hstep := brStep_pos BLKSIZE_LOG2 lo hi hlt
      have hstep2 := brStep_le BLKSIZE_LOG2 lo hi
      have hpow : (2 : Nat) ^ BLKSIZE_LOG2 = BLKSIZE := rfl
      rw [hpow] at hstep2
      rw [blockRanges_cons' BLKSIZE_LOG2 lo hi hlt, readRanges_cons]
      dsimp only [BlockRange.len]
      rw [Nat.add_sub_cancel_left]
      simp only [hpow]
      have hblk : lo / BLKSIZE < m := by
        rw [BLKSIZE_eq] at *
        omega
      rw [get_disk_block_id_eq hMG hblk him, bindE_ok]
      unfold read_block
      rw [if_pos hstep2, bindE_ok,
        ih (lo + brStep BLKSIZE_LOG2 lo hi) hi (by omega) h2, bindE_ok]
      have hsplit : hi - lo =
          brStep BLKSIZE_LOG2 lo hi + (hi - (lo + brStep BLKSIZE_LOG2 lo hi)) := by
        omega
      have hc1 : (List.range (brStep BLKSIZE_LOG2 lo hi)).map
            (fun j => st.dev (addrOf st (lo + j))) =
          readBytes st.dev (dmap st (lo / BLKSIZE) * BLKSIZE + lo % BLKSIZE)
            (brStep BLKSIZE_LOG2 lo hi) := by
        unfold readBytes
        apply List.map_congr_left
        intro j hj
        rw [List.mem_range] at hj
        rw [addrOf_add j (by rw [BLKSIZE_eq] at *; omega)]
        rfl
      have hc2 : (List.range (hi - (lo + brStep BLKSIZE_LOG2 lo hi))).map
            (fun j => st.dev (addrOf st (lo + (brStep BLKSIZE_LOG2 lo hi + j)))) =
          (List.range (hi - (lo + brStep BLKSIZE_LOG2 lo hi))).map
            (fun j => st.dev (addrOf st (lo + brStep BLKSIZE_LOG2 lo hi + j))) := by
        apply List.map_congr_left
        intro j hj
        rw [Nat.add_assoc]
      rw [hsplit, map_range_split, hc1, hc2]
    · rw [blockRanges_nil _ _ _ (by omega), readRanges_nil]
      have h0 : hi - lo = 0 := by omega
      rw [h0]
      rfl

theorem _read_at_char {st : SfsState} (hG : Good st) (offset n : Nat) :
    _read_at st offset n =
      .ok ((List.range (min st.inode.size (offset + n) -
          min st.inode.size offset)).map
        fun j => st.dev (addrOf st (min st.inode.size offset + j))) := by
  unfold _read_at
  apply readRanges_eq hG.2 (le_refl _) _ _ _ (le_refl _)
  have h1 := hG.1
  have h2 := ceilB_size_le st.inode.size
  calc min st.inode.size (offset + n) ≤ st.inode.size := min_le_left _ _
    _ ≤ ceilB st.inode.size * BLKSIZE := h2
    _ = st.inode.blocks * BLKSIZE := by rw [h1]

/-! ### `_write_at` / `_clean_at` under the invariant write through `addrOf` -/

theorem writeRanges_char (buf : List Nat) :
    ∀ n (st : SfsState) (m lo hi bufOff : Nat), MidGood st m →
      m ≤ st.inode.blocks → hi - lo ≤ n → hi ≤ m * BLKSIZE →
      bufOff + (hi - lo) ≤ buf.length →
      ∃ st', writeRanges buf (blockRanges BLKSIZE_LOG2 lo hi) bufOff st =
          .ok (bufOff + (hi - lo), st') ∧
        st'.inode = st.inode ∧ st'.freemap = st.freemap ∧
        st'.unused_blocks = st.unused_blocks ∧
        (∀ o, lo ≤ o → o < hi →
          st'.dev (addrOf st o) = buf.getD (bufOff + (o - lo)) 0) ∧
        (∀ a, (∀ o, lo ≤ o → o < hi → a ≠ addrOf st o) → st'.dev a = st.dev a) := by
  intro n
  induction n with
  | zero =>
    intro st m lo hi bufOff hMG him h1 h2 h3
    refine ⟨st, ?_, rfl, rfl, rfl, ?_, ?_⟩
    · rw [blockRanges_nil _ _ _ (by omega), writeRanges_nil]
      have h0 : hi - lo = 0 := by omega
      rw [h0, Nat.add_zero]
    · intro o ho1 ho2
      omega
    · intro a ha
      rfl
  | succ nn ih =>
    intro st m lo hi bufOff hMG him h1 h2 h3
    by_cases hlt : lo < hi
    · have hstep := brStep_pos BLKSIZE_LOG2 lo hi hlt
      have hstep2 := brStep_le BLKSIZE_LOG2 lo hi
      have hpow : (2 : Nat) ^ BLKSIZE_LOG2 = BLKSIZE := rfl
      rw [hpow] at hstep2
      rw [blockRanges_cons' BLKSIZE_LOG2 lo hi hlt, writeRanges_cons]
      dsimp only [BlockRange.len]
      rw [Nat.add_sub_cancel_left]
      simp only [hpow]
      have hblk : lo / BLKSIZE < m := by
        rw [BLKSIZE_eq] at *
        omega
      rw [get_disk_block_id_eq hMG hblk him, bindE_ok]
      unfold write_block
      have hchlen : ((buf.drop bufOff).take (brStep BLKSIZE_LOG2 lo hi)).length =
          brStep BLKSIZE_LOG2 lo hi := take_drop_length (by omega)
      rw [if_pos (by rw [hchlen]; exact hstep2), bindE_ok]
      have hagree : ∀ a, IsMetaAddr st a →
          writeBytes st.dev (dmap st (lo / BLKSIZE) * BLKSIZE + lo % BLKSIZE)
            ((buf.drop bufOff).take (brStep BLKSIZE_LOG2 lo hi)) a = st.dev a := by
        intro a hmeta
        apply writeBytes_out
        rw [hchlen]
        by_contra hcon
        push_neg at hcon
        refine absurd hmeta (data_not_meta hMG hblk ?_ ?_) <;>
          · rw [BLKSIZE_eq] at *
            omega
      have hMGM : MidGood { st with dev := (writeBytes st.dev
          (dmap st (lo / BLKSIZE) * BLKSIZE + lo % BLKSIZE)
          ((buf.drop bufOff).take (brStep BLKSIZE_LOG2 lo hi))) } m :=
        midGood_dev_congr hMG him hagree
      have haddrM : ∀ o', o' < hi → addrOf { st with dev := (writeBytes st.dev
          (dmap st (lo / BLKSIZE) * BLKSIZE + lo % BLKSIZE)
          ((buf.drop bufOff).take (brStep BLKSIZE_LOG2 lo hi))) } o' =
          addrOf st o' := by
        intro o' ho'
        unfold addrOf
        rw [dmap_congr hMG.1 hagree (show o' / BLKSIZE < st.inode.blocks from by
          rw [BLKSIZE_eq] at *
          omega)]
      obtain ⟨st', hrun, hinode, hfm, hub, hbytes, hframe⟩ :=
        ih { st with dev := (writeBytes st.dev
            (dmap st (lo / BLKSIZE) * BLKSIZE + lo % BLKSIZE)
            ((buf.drop bufOff).take (brStep BLKSIZE_LOG2 lo hi))) }
          m (lo + brStep BLKSIZE_LOG2 lo hi) hi
          (bufOff + brStep BLKSIZE_LOG2 lo hi)
          hMGM him (by omega) h2 (by omega)
      refine ⟨st', ?_, hinode, hfm, hub, ?_, ?_⟩
      · rw [hrun]
        have hcnt : bufOff + brStep BLKSIZE_LOG2 lo hi +
            (hi - (lo + brStep BLKSIZE_LOG2 lo hi)) = bufOff + (hi - lo) := by
          omega
        rw [hcnt]
      · intro o ho1 ho2
        by_cases hosplit : lo + brStep BLKSIZE_LOG2 lo hi ≤ o
        · have h := hbytes o hosplit ho2
          rw [haddrM o ho2] at h
          have hidx : bufOff + brStep BLKSIZE_LOG2 lo hi +
              (o - (lo + brStep BLKSIZE_LOG2 lo hi)) = bufOff + (o - lo) := by
            omega
          rw [hidx] at h
          exact h
        · push_neg at hosplit
          have h := hframe (addrOf st o) (by
            intro o' h1' h2'
            rw [haddrM o' h2']
            exact addrOf_inj hMG (by rw [BLKSIZE_eq] at *; omega)
              (by rw [BLKSIZE_eq] at *; omega) (by omega))
          rw [h]
          show writeBytes st.dev (dmap st (lo / BLKSIZE) * BLKSIZE + lo % BLKSIZE)
            ((buf.drop bufOff).take (brStep BLKSIZE_LOG2 lo hi)) (addrOf st o) =
            buf.getD (bufOff + (o - lo)) 0
          have haddro : addrOf st o =
              dmap st (lo / BLKSIZE) * BLKSIZE + lo % BLKSIZE + (o - lo) := by
            have hodec : o = lo + (o - lo) := by omega
            conv_lhs => rw [hodec]
            rw [addrOf_add (o - lo) (by rw [BLKSIZE_eq] at *; omega)]
            rfl
          rw [haddro, writeBytes_in (by omega) (by rw [hchlen]; omega)]
          have hsub : dmap st (lo / BLKSIZE) * BLKSIZE + lo % BLKSIZE + (o - lo) -
              (dmap st (lo / BLKSIZE) * BLKSIZE + lo % BLKSIZE) = o - lo := by
            omega
          rw [hsub, take_drop_getD (by omega)]
      · intro a ha
        have h := hframe a (by
          intro o' h1' h2'
          rw [haddrM o' h2']
          exact ha o' (by omega) h2')
        rw [h]
        show writeBytes st.dev (dmap st (lo / BLKSIZE) * BLKSIZE + lo % BLKSIZE)
          ((buf.drop bufOff).take (brStep BLKSIZE_LOG2 lo hi)) a = st.dev a
        apply writeBytes_out
        rw [hchlen]
        by_contra hcon
        push_neg at hcon
        refine ha (lo + (a - (dmap st (lo / BLKSIZE) * BLKSIZE + lo % BLKSIZE)))
          (by omega) (by omega) ?_
        rw [addrOf_add _ (by rw [BLKSIZE_eq] at *; omega)]
        show a = addrOf st lo + _
        unfold addrOf
        omega
    · refine ⟨st, ?_, rfl, rfl, rfl, ?_, ?_⟩
      · rw [blockRanges_nil _ _ _ (by omega), writeRanges_nil]
        have h0 : hi - lo = 0 := by omega
        rw [h0, Nat.add_zero]
      · intro o ho1 ho2
        omega
      · intro a ha
        rfl

theorem cleanRanges_char :
    ∀ n (st : SfsState) (m lo hi bufOff : Nat), MidGood st m →
      m ≤ st.inode.blocks → hi - lo ≤ n → hi ≤ m * BLKSIZE →
      ∃ st', cleanRanges (blockRanges BLKSIZE_LOG2 lo hi) bufOff st =
          .ok (bufOff + (hi - lo), st') ∧
        st'.inode = st.inode ∧ st'.freemap = st.freemap ∧
        st'.unused_blocks = st.unused_blocks ∧
        (∀ o, lo ≤ o → o < hi → st'.dev (addrOf st o) = 0) ∧
        (∀ a, (∀ o, lo ≤ o → o < hi → a ≠ addrOf st o) → st'.dev a = st.dev a) := by
  intro n
  induction n with
  | zero =>
    intro st m lo hi bufOff hMG him h1 h2
    refine ⟨st, ?_, rfl, rfl, rfl, ?_, ?_⟩
    · rw [blockRanges_nil _ _ _ (by omega), cleanRanges_nil]
      have h0 : hi - lo = 0 := by omega
      rw [h0, Nat.add_zero]
    · intro o ho1 ho2
      omega
    · intro a ha
      rfl
  | succ nn ih =>
    intro st m lo hi bufOff hMG him h1 h2
    by_cases hlt : lo < hi
    · have hstep := brStep_pos BLKSIZE_LOG2 lo hi hlt
      have hstep2 := brStep_le BLKSIZE_LOG2 lo hi
      have hpow : (2 : Nat) ^ BLKSIZE_LOG2 = BLKSIZE := rfl
      rw [hpow] at hstep2
      rw [blockRanges_cons' BLKSIZE_LOG2 lo hi hlt, cleanRanges_cons]
      dsimp only [BlockRange.len]
      rw [Nat.add_sub_cancel_left]
      simp only [hpow]
      have hblk : lo / BLKSIZE < m := by
        rw [BLKSIZE_eq] at *
        omega
      rw [get_disk_block_id_eq hMG hblk him, bindE_ok]
      unfold write_block
      have hchlen : (List.replicate (brStep BLKSIZE_LOG2 lo hi) (0 : Nat)).length =
          brStep BLKSIZE_LOG2 lo hi := List.length_replicate _ _
      rw [if_pos (by rw [hchlen]; exact hstep2), bindE_ok]
      have hagree : ∀ a, IsMetaAddr st a →
          writeBytes st.dev (dmap st (lo / BLKSIZE) * BLKSIZE + lo % BLKSIZE)
            (List.replicate (brStep BLKSIZE_LOG2 lo hi) 0) a = st.dev a := by
        intro a hmeta
        apply writeBytes_out
        rw [hchlen]
        by_contra hcon
        push_neg at hcon
        refine absurd hmeta (data_not_meta hMG hblk ?_ ?_) <;>
          · rw [BLKSIZE_eq] at *
            omega
      have hMGM : MidGood { st with dev := (writeBytes st.dev
          (dmap st (lo / BLKSIZE) * BLKSIZE + lo % BLKSIZE)
          (List.replicate (brStep BLKSIZE_LOG2 lo hi) 0)) } m :=
        midGood_dev_congr hMG him hagree
      have haddrM : ∀ o', o' < hi → addrOf { st with dev := (writeBytes st.dev
          (dmap st (lo / BLKSIZE) * BLKSIZE + lo % BLKSIZE)
          (List.replicate (brStep BLKSIZE_LOG2 lo hi) 0)) } o' = addrOf st o' := by
        intro o' ho'
        unfold addrOf
        rw [dmap_congr hMG.1 hagree (show o' / BLKSIZE < st.inode.blocks from by
          rw [BLKSIZE_eq] at *
          omega)]
      obtain ⟨st', hrun, hinode, hfm, hub, hbytes, hframe⟩ :=
        ih { st with dev := (writeBytes st.dev
            (dmap st (lo / BLKSIZE) * BLKSIZE + lo % BLKSIZE)
            (List.replicate (brStep BLKSIZE_LOG2 lo hi) 0)) }
          m (lo + brStep BLKSIZE_LOG2 lo hi) hi
          (bufOff + brStep BLKSIZE_LOG2 lo hi)
          hMGM him (by omega) h2
      refine ⟨st', ?_, hinode, hfm, hub, ?_, ?_⟩
      · rw [hrun]
        have hcnt : bufOff + brStep BLKSIZE_LOG2 lo hi +
            (hi - (lo + brStep BLKSIZE_LOG2 lo hi)) = bufOff + (hi - lo) := by
          omega
        rw [hcnt]
      · intro o ho1 ho2
        by_cases hosplit : lo + brStep BLKSIZE_LOG2 lo hi ≤ o
        · have h := hbytes o hosplit ho2
          rw [haddrM o ho2] at h
          exact h
        · push_neg at hosplit
          have h := hframe (addrOf st o) (by
            intro o' h1' h2'
            rw [haddrM o' h2']
            exact addrOf_inj hMG (by rw [BLKSIZE_eq] at *; omega)
              (by rw [BLKSIZE_eq] at *; omega) (by omega))
          rw [h]
          show writeBytes st.dev (dmap st (lo / BLKSIZE) * BLKSIZE + lo % BLKSIZE)
            (List.replicate (brStep BLKSIZE_LOG2 lo hi) 0) (addrOf st o) = 0
          have haddro : addrOf st o =
              dmap st (lo / BLKSIZE) * BLKSIZE + lo % BLKSIZE + (o - lo) := by
            have hodec : o = lo + (o - lo) := by omega
            conv_lhs => rw [hodec]
            rw [addrOf_add (o - lo) (by rw [BLKSIZE_eq] at *; omega)]
            rfl
          rw [haddro, writeBytes_in (by omega) (by rw [hchlen]; omega)]
          have hsub : dmap st (lo / BLKSIZE) * BLKSIZE + lo % BLKSIZE + (o - lo) -
              (dmap st (lo / BLKSIZE) * BLKSIZE + lo % BLKSIZE) = o - lo := by
            omega
          rw [hsub, replicate_getD _ _ (by omega)]
      · intro a ha
        have h := hframe a (by
          intro o' h1' h2'
          rw [haddrM o' h2']
          exact ha o' (by omega) h2')
        rw [h]
        show writeBytes st.dev (dmap st (lo / BLKSIZE) * BLKSIZE + lo % BLKSIZE)
          (List.replicate (brStep BLKSIZE_LOG2 lo hi) 0) a = st.dev a
        apply writeBytes_out
        rw [hchlen]
        by_contra hcon
        push_neg at hcon
        refine ha (lo + (a - (dmap st (lo / BLKSIZE) * BLKSIZE + lo % BLKSIZE)))
          (by omega) (by omega) ?_
        rw [addrOf_add _ (by rw [BLKSIZE_eq] at *; omega)]
        show a = addrOf st lo + _
        unfold addrOf
        omega
    · refine ⟨st, ?_, rfl, rfl, rfl, ?_, ?_⟩
      · rw [blockRanges_nil _ _ _ (by omega), cleanRanges_nil]
        have h0 : hi - lo = 0 := by omega
        rw [h0, Nat.add_zero]
      · intro o ho1 ho2
        omega
      · intro a ha
        rfl

/-! ### Transporting the invariant across a framed device update -/

theorem meta_agree_of_frame {st : SfsState} {m : Nat} (hMG : MidGood st m)
    {lo hi : Nat} (hhi : hi ≤ m * BLKSIZE) {dev' : Nat → Nat}
    (hframe : ∀ a, (∀ o, lo ≤ o → o < hi → a ≠ addrOf st o) → dev' a = st.dev a) :
    ∀ a, IsMetaAddr st a → dev' a = st.dev a := by
  intro a hmeta
  apply hframe
  intro o ho1 ho2 heq
  have hoB : o / BLKSIZE < m := by
    rw [BLKSIZE_eq] at *
    omega
  have hd := @addrOf_in_data st m o (by omega)
  rw [heq] at hmeta
  exact absurd hmeta (data_not_meta hMG hoB hd.1 hd.2)

theorem sfs_eta {st' st : SfsState} (hinode : st'.inode = st.inode)
    (hfm : st'.freemap = st.freemap) (hub : st'.unused_blocks = st.unused_blocks) :
    st' = { dev := st'.dev, freemap := st.freemap,
            unused_blocks := st.unused_blocks, inode := st.inode } := by
  cases st'
  dsimp only at hinode hfm hub ⊢
  rw [hinode, hfm, hub]

theorem frame_preserves {st st' : SfsState} {m lo hi : Nat} (hMG : MidGood st m)
    (hm : m ≤ st.inode.blocks) (hhi : hi ≤ m * BLKSIZE)
    (hinode : st'.inode = st.inode) (hfm : st'.freemap = st.freemap)
    (hub : st'.unused_blocks = st.unused_blocks)
    (hframe : ∀ a, (∀ o, lo ≤ o → o < hi → a ≠ addrOf st o) →
      st'.dev a = st.dev a) :
    MidGood st' m ∧ (∀ i, i < st.inode.blocks → dmap st' i = dmap st i) := by
  have hagree := meta_agree_of_frame hMG hhi hframe
  have heta := sfs_eta hinode hfm hub
  constructor
  · rw [heta]
    exact midGood_dev_congr hMG hm hagree
  · intro i hi'
    rw [heta]
    exact dmap_congr hMG.1 hagree hi'

theorem addrOf_eq_of_dmap {st st' : SfsState}
    (hdm : ∀ i, i < st.inode.blocks → dmap st' i = dmap st i)
    {o : Nat} (ho : o < st.inode.blocks * BLKSIZE) :
    addrOf st' o = addrOf st o := by
  unfold addrOf
  rw [hdm (o / BLKSIZE) (by rw [BLKSIZE_eq] at *; omega)]

/-! ### Fresh allocation -/

theorem alloc_expect_char {st : SfsState} {id : Nat} {st' : SfsState}
    (h : alloc_block_expect st = .ok (id, st')) :
    st'.dev = st.dev ∧ st'.inode = st.inode ∧
    st'.freemap = st.freemap.set id false ∧
    st'.unused_blocks = st.unused_blocks - 1 ∧
    id < st.freemap.length ∧ st.freemap.getD id false = true := by
  unfold alloc_block_expect alloc_block at h
  cases hb : bitset_alloc st.freemap with
  | none =>
    rw [hb] at h
    cases h
  | some p =>
    obtain ⟨bid, m'⟩ := p
    rw [hb] at h
    dsimp only at h
    obtain ⟨hlt, hbit, hmin, hm'⟩ := bitset_alloc_some hb
    by_cases hu : st.unused_blocks = 0
    · rw [if_pos hu] at h
      cases h
    · rw [if_neg hu] at h
      cases h
      exact ⟨rfl, rfl, by rw [hm'], rfl, hlt, hbit⟩

theorem set_false_getD (m : List Bool) (id c : Nat)
    (h : m.getD c false = false) : (m.set id false).getD c false = false := by
  rcases eq_or_ne id c with rfl | hne
  · by_cases hlen : id < m.length
    · rw [List.getD_eq_getElem?_getD, List.getElem?_set_self hlen]
      rfl
    · rw [List.getD_eq_getElem?_getD, List.getElem?_eq_none (by simp; omega)]
      rfl
  · rw [List.getD_eq_getElem?_getD, List.getElem?_set_ne hne,
      ← List.getD_eq_getElem?_getD]
    exact h

theorem set_false_getD_self (m : List Bool) (id : Nat) :
    (m.set id false).getD id false = false := by
  by_cases hlen : id < m.length
  · rw [List.getD_eq_getElem?_getD, List.getElem?_set_self hlen]
    rfl
  · rw [List.getD_eq_getElem?_getD, List.getElem?_eq_none (by simp; omega)]
    rfl

theorem set_getD_ne (m : List Bool) (id c : Nat) (b : Bool) (hne : id ≠ c) :
    (m.set id b).getD c false = m.getD c false := by
  rw [List.getD_eq_getElem?_getD, List.getElem?_set_ne hne,
    ← List.getD_eq_getElem?_getD]

/-- After a successful `alloc_block().expect(..)` from a `MidGood` state, the
returned id is fresh: positive, in range, disjoint from every claimed block,
its bit cleared, and the invariant still holds. -/
theorem alloc_fresh {st : SfsState} {m : Nat} (hMG : MidGood st m) {id : Nat}
    {st' : SfsState} (h : alloc_block_expect st = .ok (id, st')) :
    MidGood st' m ∧ st'.dev = st.dev ∧ st'.inode = st.inode ∧
    st'.freemap.length = st.freemap.length ∧
    (∀ c, st.freemap.getD c false = false → st'.freemap.getD c false = false) ∧
    0 < id ∧ id < st.freemap.length ∧ id ∉ PartialClaimed st m ∧
    st'.freemap.getD id false = false ∧ st.freemap.getD id false = true ∧
    (∀ i, i < st.inode.blocks → dmap st' i = dmap st i) ∧
    metaIds st' = metaIds st ∧
    (∀ j, pageOf st' j = pageOf st j) := by
  obtain ⟨hdev, hinode, hfm, hub, hlen, hbit⟩ := alloc_expect_char h
  obtain ⟨hnb, hdir, hdb, hnd, hclm, h0, h32⟩ := hMG
  have hid0 : 0 < id := by
    rcases Nat.eq_zero_or_pos id with rfl | hpos
    · rw [h0] at hbit
      cases hbit
    · exact hpos
  have hnotc : id ∉ PartialClaimed st m := by
    intro hmem
    have := (hclm id hmem).2.2
    rw [this] at hbit
    cases hbit
  have hpageOf : ∀ j, pageOf st' j = pageOf st j := by
    intro j
    unfold pageOf
    rw [hdev, hinode]
  have hdmap : ∀ i, dmap st' i = dmap st i := by
    intro i
    unfold dmap
    rw [hdev, hinode]
    by_cases h1 : i < MAX_NBLOCK_DIRECT
    · rw [if_pos h1, if_pos h1]
    · rw [if_neg h1, if_neg h1]
      by_cases h2 : i < MAX_NBLOCK_INDIRECT
      · rw [if_pos h2, if_pos h2]
      · rw [if_neg h2, if_neg h2]
        have : pageOf st' ((i - MAX_NBLOCK_INDIRECT) / BLK_NENTRY) =
            pageOf st ((i - MAX_NBLOCK_INDIRECT) / BLK_NENTRY) := hpageOf _
        rw [this]
  have hmeta : metaIds st' = metaIds st := by
    unfold metaIds
    rw [hinode]
    congr 1
    by_cases hM : MAX_NBLOCK_INDIRECT ≤ st.inode.blocks
    · rw [if_pos hM, if_pos hM]
      congr 1
      apply List.map_congr_left
      intro j hj
      exact hpageOf j
    · rw [if_neg hM, if_neg hM]
  have hpc : ∀ mm, PartialClaimed st' mm = PartialClaimed st mm := by
    intro mm
    unfold PartialClaimed
    rw [hmeta]
    congr 1
    apply List.map_congr_left
    intro i hi
    exact hdmap i
  refine ⟨⟨?_, ?_, ?_, ?_, ?_, ?_, ?_⟩, hdev, hinode, by rw [hfm]; simp,
    ?_, hid0, hlen, hnotc, ?_, hbit, fun i _ => hdmap i, hmeta, hpageOf⟩
  · rw [hinode]
    exact hnb
  · rw [hinode]
    exact hdir
  · rw [hinode]
    exact hdb
  · rw [hpc]
    exact hnd
  · intro c hc
    rw [hpc] at hc
    obtain ⟨hc1, hc2, hc3⟩ := hclm c hc
    refine ⟨hc1, ?_, ?_⟩
    · rw [hfm]
      simpa using hc2
    · rw [hfm]
      exact set_false_getD _ _ _ hc3
  · rw [hfm]
    exact set_false_getD _ _ _ h0
  · rw [hfm]
    simp
    exact h32
  · intro c hc
    rw [hfm]
    exact set_false_getD _ _ _ hc
  · rw [hfm]
    exact set_false_getD_self _ _

/-! ### Distinctness of the meta blocks -/

theorem metaIds_nodup {st : SfsState} {m : Nat} (hMG : MidGood st m) :
    (metaIds st).Nodup := by
  have h := hMG.2.2.2.1
  unfold PartialClaimed at h
  exact (List.nodup_append.mp h).1

theorem meta_pairs {st : SfsState} {m : Nat} (hMG : MidGood st m)
    (hMNI : MAX_NBLOCK_INDIRECT ≤ st.inode.blocks) :
    (NDIRECT ≤ st.inode.blocks → st.inode.indirect ≠ st.inode.db_indirect) ∧
    (∀ j, j < pageCount st.inode.blocks → NDIRECT ≤ st.inode.blocks →
      st.inode.indirect ≠ pageOf st j) ∧
    (∀ j, j < pageCount st.inode.blocks → st.inode.db_indirect ≠ pageOf st j) ∧
    (∀ j j', j < pageCount st.inode.blocks → j' < pageCount st.inode.blocks →
      j ≠ j' → pageOf st j ≠ pageOf st j') := by
  have hnd := metaIds_nodup hMG
  unfold metaIds at hnd
  rw [if_pos hMNI, List.nodup_append] at hnd
  obtain ⟨h1, h2, h3⟩ := hnd
  rw [List.nodup_cons] at h2
  refine ⟨?_, ?_, ?_, ?_⟩
  · intro h12 heq
    rw [if_pos h12] at h3
    apply h3 (List.mem_singleton_self _)
    rw [heq]
    exact List.mem_cons_self _ _
  · intro j hj h12 heq
    rw [if_pos h12] at h3
    apply h3 (List.mem_singleton_self _)
    rw [heq]
    exact List.mem_cons_of_mem _ (List.mem_map_of_mem _ (List.mem_range.mpr hj))
  · intro j hj heq
    apply h2.1
    rw [heq]
    exact List.mem_map_of_mem _ (List.mem_range.mpr hj)
  · intro j j' hj hj' hne
    exact range_map_inj h2.2 hj hj' hne

theorem metaIds_eq_of_pageOf {s' s : SfsState} (hinode : s'.inode = s.inode)
    (hpage : ∀ j, j < pageCount s.inode.blocks →
      MAX_NBLOCK_INDIRECT ≤ s.inode.blocks → pageOf s' j = pageOf s j) :
    metaIds s' = metaIds s := by
  unfold metaIds
  rw [hinode]
  congr 1
  by_cases hM : MAX_NBLOCK_INDIRECT ≤ s.inode.blocks
  · rw [if_pos hM, if_pos hM]
    congr 1
    apply List.map_congr_left
    intro j hj
    exact hpage j (List.mem_range.mp hj) hM
  · rw [if_neg hM, if_neg hM]

/-! ### Extending the claimed prefix by one freshly mapped block -/

theorem midGood_extend {s s' : SfsState} {m d : Nat} (hMG : MidGood s m)
    (hd0 : 0 < d) (hdlen : d < s.freemap.length)
    (hdbit : s.freemap.getD d false = false) (hdnot : d ∉ PartialClaimed s m)
    (hfm : s'.freemap = s.freemap)
    (hblocks : s'.inode.blocks = s.inode.blocks)
    (hdirlen : s'.inode.direct.length = s.inode.direct.length)
    (hdb : s'.inode.db_indirect = s.inode.db_indirect)
    (hmeta : metaIds s' = metaIds s)
    (hdmap : ∀ i, i < m → dmap s' i = dmap s i)
    (hdm : dmap s' m = d) : MidGood s' (m + 1) := by
  obtain ⟨hnb, hdir, hdb0, hnd, hclm, h0, h32⟩ := hMG
  have hmaps : (List.range m).map (dmap s') = (List.range m).map (dmap s) :=
    List.map_congr_left fun i hi => hdmap i (List.mem_range.mp hi)
  have hpc : PartialClaimed s' (m + 1) = PartialClaimed s m ++ [d] := by
    show metaIds s' ++ (List.range (m + 1)).map (dmap s') =
      PartialClaimed s m ++ [d]
    rw [hmeta, List.range_succ, List.map_append, hmaps]
    simp only [List.map_cons, List.map_nil, hdm]
    show _ = metaIds s ++ (List.range m).map (dmap s) ++ [d]
    rw [List.append_assoc]
  refine ⟨by rw [hblocks]; exact hnb, by rw [hdirlen]; exact hdir,
    by rw [hblocks, hdb]; exact hdb0, ?_, ?_, by rw [hfm]; exact h0,
    by rw [hfm]; exact h32⟩
  · rw [hpc, List.nodup_append]
    refine ⟨hnd, List.nodup_singleton _, ?_⟩
    intro x hx hmem
    rw [List.mem_singleton.mp hmem] at hx
    exact hdnot hx
  · intro c hc
    rw [hpc, List.mem_append] at hc
    rcases hc with hc | hc
    · obtain ⟨ha, hb, hc'⟩ := hclm c hc
      exact ⟨ha, by rw [hfm]; exact hb, by rw [hfm]; exact hc'⟩
    · rw [List.mem_singleton.mp hc]
      exact ⟨hd0, by rw [hfm]; exact hdlen, by rw [hfm]; exact hdbit⟩

/-! ### Installing a fresh data block: `set_disk_block_id` on file block `m` -/

theorem set_disk_block_id_char {s : SfsState} {m d : Nat} (hMG : MidGood s m)
    (hm : m < s.inode.blocks) (hd0 : 0 < d) (hdlen : d < s.freemap.length)
    (hdbit : s.freemap.getD d false = false) (hdnot : d ∉ PartialClaimed s m) :
    ∃ s', set_disk_block_id s m d = .ok s' ∧
      s'.freemap = s.freemap ∧ s'.unused_blocks = s.unused_blocks ∧
      s'.inode.type_ = s.inode.type_ ∧ s'.inode.size = s.inode.size ∧
      s'.inode.blocks = s.inode.blocks ∧ s'.inode.nlinks = s.inode.nlinks ∧
      s'.inode.indirect = s.inode.indirect ∧
      s'.inode.db_indirect = s.inode.db_indirect ∧
      metaIds s' = metaIds s ∧
      MidGood s' (m + 1) := by
  have hd32 : d % 2 ^ 32 = d :=
    Nat.mod_eq_of_lt (lt_of_lt_of_le hdlen hMG.2.2.2.2.2.2)
  have hnb := hMG.1
  unfold set_disk_block_id
  rw [if_neg (by omega)]
  by_cases h1 : m < MAX_NBLOCK_DIRECT
  · -- direct tier
    rw [if_pos h1]
    refine ⟨_, rfl, rfl, rfl, rfl, rfl, rfl, rfl, rfl, rfl, rfl, ?_⟩
    have hdmap : ∀ i, i < m →
        dmap { s with inode := { s.inode with
          direct := s.inode.direct.set m (d % 2 ^ 32) } } i = dmap s i := by
      intro i hi
      unfold dmap
      dsimp only
      rw [if_pos (by omega), if_pos (by omega)]
      rw [List.getD_eq_getElem?_getD, List.getElem?_set_ne (by omega),
        ← List.getD_eq_getElem?_getD]
    have hdm : dmap { s with inode := { s.inode with
        direct := s.inode.direct.set m (d % 2 ^ 32) } } m = d := by
      unfold dmap
      dsimp only
      rw [if_pos h1]
      rw [List.getD_eq_getElem?_getD, List.getElem?_set_self (by
        rw [hMG.2.1, NDIRECT_eq]
        rw [MAX_NBLOCK_DIRECT_eq] at h1
        omega)]
      simpa using hd32
    exact midGood_extend hMG hd0 hdlen hdbit hdnot rfl rfl (by simp) rfl rfl
      hdmap hdm
  · rw [if_neg h1]
    by_cases h2 : m < MAX_NBLOCK_INDIRECT
    · -- indirect tier
      rw [if_pos h2]
      unfold write_block_u32
      rw [if_pos (by
        rw [ENTRY_SIZE_eq, NDIRECT_eq, BLKSIZE_eq]
        rw [MAX_NBLOCK_INDIRECT_eq] at h2
        omega), bindE_ok]
      have h12 : NDIRECT ≤ s.inode.blocks := by
        rw [MAX_NBLOCK_DIRECT_eq] at h1
        rw [NDIRECT_eq]
        omega
      have hpage : ∀ j, j < pageCount s.inode.blocks →
          MAX_NBLOCK_INDIRECT ≤ s.inode.blocks →
          pageOf { s with dev := (writeU32 s.dev (s.inode.indirect * BLKSIZE +
            ENTRY_SIZE * (m - NDIRECT)) (d % 2 ^ 32)) } j = pageOf s j := by
        intro j hj hMNI
        have hjle := pageCount_le hnb
        have hnd := (meta_pairs hMG hMNI).1 h12
        unfold pageOf
        dsimp only
        apply readU32_writeU32_ne
        rw [BLK_NENTRY_eq] at hjle
        rw [ENTRY_SIZE_eq, NDIRECT_eq, BLKSIZE_eq]
        rw [MAX_NBLOCK_INDIRECT_eq] at h2
        rw [MAX_NBLOCK_DIRECT_eq] at h1
        omega
      have hdmap : ∀ i, i < m →
          dmap { s with dev := (writeU32 s.dev (s.inode.indirect * BLKSIZE +
            ENTRY_SIZE * (m - NDIRECT)) (d % 2 ^ 32)) } i = dmap s i := by
        intro i hi
        unfold dmap
        dsimp only
        by_cases hi1 : i < MAX_NBLOCK_DIRECT
        · rw [if_pos hi1, if_pos hi1]
        · rw [if_neg hi1, if_neg hi1,
            if_pos (show i < MAX_NBLOCK_INDIRECT by omega),
            if_pos (show i < MAX_NBLOCK_INDIRECT by omega)]
          apply readU32_writeU32_ne
          rw [ENTRY_SIZE_eq, NDIRECT_eq]
          rw [MAX_NBLOCK_DIRECT_eq] at hi1
          omega
      have hdm : dmap { s with dev := (writeU32 s.dev (s.inode.indirect *
          BLKSIZE + ENTRY_SIZE * (m - NDIRECT)) (d % 2 ^ 32)) } m = d := by
        unfold dmap
        dsimp only
        rw [if_neg h1, if_pos h2, readU32_writeU32_same]
        omega
      exact ⟨_, rfl, rfl, rfl, rfl, rfl, rfl, rfl, rfl, rfl,
        metaIds_eq_of_pageOf rfl hpage,
        midGood_extend hMG hd0 hdlen hdbit hdnot rfl rfl rfl rfl
          (metaIds_eq_of_pageOf rfl hpage) hdmap hdm⟩
    · -- double-indirect tier
      by_cases h3 : m < MAX_NBLOCK_DOUBLE_INDIRECT
      · rw [if_neg h2, if_pos h3]
        dsimp only
        have hMNI : MAX_NBLOCK_INDIRECT ≤ s.inode.blocks := by omega
        have h12 : NDIRECT ≤ s.inode.blocks := by
          rw [NDIRECT_eq]
          rw [MAX_NBLOCK_INDIRECT_eq] at hMNI
          omega
        have hjm := pageIdx_lt hm
        have hjle := pageCount_le hnb
        have hppos : 0 < pageOf s ((m - MAX_NBLOCK_INDIRECT) / BLK_NENTRY) :=
          (hMG.2.2.2.2.1 _ (meta_mem_claimed (page_mem_metaIds hMNI hjm))).1
        have hpval : readU32 s.dev (s.inode.db_indirect * BLKSIZE +
            ENTRY_SIZE * ((m - MAX_NBLOCK_INDIRECT) / BLK_NENTRY)) =
            pageOf s ((m - MAX_NBLOCK_INDIRECT) / BLK_NENTRY) := rfl
        unfold read_block_u32
        rw [if_pos (by
          rw [BLK_NENTRY_eq] at hjm hjle ⊢
          rw [ENTRY_SIZE_eq, BLKSIZE_eq]
          omega), bindE_ok, hpval, if_neg (by omega)]
        unfold write_block_u32
        rw [if_pos (by
          have hkm : (m - MAX_NBLOCK_INDIRECT) % BLK_NENTRY < BLK_NENTRY :=
            Nat.mod_lt _ (by rw [BLK_NENTRY_eq]; omega)
          rw [BLK_NENTRY_eq] at hkm ⊢
          rw [ENTRY_SIZE_eq, BLKSIZE_eq]
          omega), bindE_ok]
        have hpage : ∀ j, j < pageCount s.inode.blocks →
            MAX_NBLOCK_INDIRECT ≤ s.inode.blocks →
            pageOf { s with dev := (writeU32 s.dev
              (pageOf s ((m - MAX_NBLOCK_INDIRECT) / BLK_NENTRY) * BLKSIZE +
                ENTRY_SIZE * ((m - MAX_NBLOCK_INDIRECT) % BLK_NENTRY))
              (d % 2 ^ 32)) } j = pageOf s j := by
          intro j hj _
          have hnd := (meta_pairs hMG hMNI).2.2.1 _ hjm
          have hkm : (m - MAX_NBLOCK_INDIRECT) % BLK_NENTRY < BLK_NENTRY :=
            Nat.mod_lt _ (by rw [BLK_NENTRY_eq]; omega)
          unfold pageOf
          dsimp only
          apply readU32_writeU32_ne
          rw [hpval]
          rw [BLK_NENTRY_eq] at hjle hkm hnd ⊢
          rw [ENTRY_SIZE_eq, BLKSIZE_eq]
          omega
        have hdmap : ∀ i, i < m →
            dmap { s with dev := (writeU32 s.dev
              (pageOf s ((m - MAX_NBLOCK_INDIRECT) / BLK_NENTRY) * BLKSIZE +
                ENTRY_SIZE * ((m - MAX_NBLOCK_INDIRECT) % BLK_NENTRY))
              (d % 2 ^ 32)) } i = dmap s i := by
          intro i hi
          unfold dmap
          dsimp only
          by_cases hi1 : i < MAX_NBLOCK_DIRECT
          · rw [if_pos hi1, if_pos hi1]
          · rw [if_neg hi1, if_neg hi1]
            by_cases hi2 : i < MAX_NBLOCK_INDIRECT
            · rw [if_pos hi2, if_pos hi2]
              have hnd := (meta_pairs hMG hMNI).2.1 _ hjm h12
              have hkm : (m - MAX_NBLOCK_INDIRECT) % BLK_NENTRY < BLK_NENTRY :=
                Nat.mod_lt _ (by rw [BLK_NENTRY_eq]; omega)
              apply readU32_writeU32_ne
              rw [BLK_NENTRY_eq] at hkm hnd ⊢
              rw [ENTRY_SIZE_eq, NDIRECT_eq, BLKSIZE_eq]
              rw [MAX_NBLOCK_INDIRECT_eq] at hi2
              omega
            · rw [if_neg hi2, if_neg hi2]
              have hji := pageIdx_lt (show i < s.inode.blocks by omega)
              rw [hpage _ hji hMNI]
              have hki : (i - MAX_NBLOCK_INDIRECT) % BLK_NENTRY < BLK_NENTRY :=
                Nat.mod_lt _ (by rw [BLK_NENTRY_eq]; omega)
              have hkm : (m - MAX_NBLOCK_INDIRECT) % BLK_NENTRY < BLK_NENTRY :=
                Nat.mod_lt _ (by rw [BLK_NENTRY_eq]; omega)
              by_cases hjeq : (i - MAX_NBLOCK_INDIRECT) / BLK_NENTRY =
                  (m - MAX_NBLOCK_INDIRECT) / BLK_NENTRY
              · rw [hjeq]
                apply readU32_writeU32_ne
                rw [BLK_NENTRY_eq] at hki hkm hjeq ⊢
                rw [ENTRY_SIZE_eq]
                rw [MAX_NBLOCK_INDIRECT_eq] at hi2 h2 hjeq ⊢
                omega
              · have hnd := (meta_pairs hMG hMNI).2.2.2 _ _ hji hjm hjeq
                apply readU32_writeU32_ne
                rw [BLK_NENTRY_eq] at hki hkm hnd ⊢
                rw [ENTRY_SIZE_eq, BLKSIZE_eq]
                omega
        have hdm : dmap { s with dev := (writeU32 s.dev
            (pageOf s ((m - MAX_NBLOCK_INDIRECT) / BLK_NENTRY) * BLKSIZE +
              ENTRY_SIZE * ((m - MAX_NBLOCK_INDIRECT) % BLK_NENTRY))
            (d % 2 ^ 32)) } m = d := by
          unfold dmap
          dsimp only
          rw [if_neg h1, if_neg h2, hpage _ hjm hMNI, readU32_writeU32_same]
          omega
        exact ⟨_, rfl, rfl, rfl, rfl, rfl, rfl, rfl, rfl, rfl,
          metaIds_eq_of_pageOf rfl hpage,
          midGood_extend hMG hd0 hdlen hdbit hdnot rfl rfl rfl rfl
            (metaIds_eq_of_pageOf rfl hpage) hdmap hdm⟩
      · omega

/-! ### The data-block allocation loop of the Greater branch -/

theorem foldE_nil (f : SfsState → Nat → Except Err SfsState) (st : SfsState) :
    foldE f st [] = .ok st := rfl

theorem foldE_cons (f : SfsState → Nat → Except Err SfsState) (st : SfsState)
    (i : Nat) (rest : List Nat) :
    foldE f st (i :: rest) = (f st i >>= fun st' => foldE f st' rest) := rfl

theorem range'_zero (s : Nat) : List.range' s 0 = [] := rfl

theorem range'_succ_eq (s n : Nat) :
    List.range' s (n + 1) = s :: List.range' (s + 1) n := rfl

theorem partialClaimed_eq_of {sa s : SfsState} {m0 : Nat}
    (hmeta : metaIds sa = metaIds s)
    (hdmap : ∀ i, i < m0 → dmap sa i = dmap s i) :
    PartialClaimed sa m0 = PartialClaimed s m0 := by
  unfold PartialClaimed
  rw [hmeta]
  congr 1
  apply List.map_congr_left
  intro i hi
  exact hdmap i (List.mem_range.mp hi)

theorem resizeAllocData_loop :
    ∀ cnt (s : SfsState) (m0 : Nat) (s' : SfsState), MidGood s m0 →
      m0 + cnt ≤ s.inode.blocks →
      foldE (fun s i => do
        let (disk_block_id, s') ← alloc_block_expect s
        set_disk_block_id s' i disk_block_id) s (List.range' m0 cnt) = .ok s' →
      MidGood s' (m0 + cnt) ∧
      s'.inode.type_ = s.inode.type_ ∧ s'.inode.size = s.inode.size ∧
      s'.inode.blocks = s.inode.blocks ∧ s'.inode.nlinks = s.inode.nlinks ∧
      s'.inode.indirect = s.inode.indirect ∧
      s'.inode.db_indirect = s.inode.db_indirect ∧
      s'.freemap.length = s.freemap.length ∧
      (∀ c, s.freemap.getD c false = false →
        s'.freemap.getD c false = false) ∧
      metaIds s' = metaIds s := by
  intro cnt
  induction cnt with
  | zero =>
    intro s m0 s' hMG hle hrun
    rw [range'_zero, foldE_nil] at hrun
    cases hrun
    exact ⟨by rw [Nat.add_zero]; exact hMG, rfl, rfl, rfl, rfl, rfl, rfl, rfl,
      fun c hc => hc, rfl⟩
  | succ nn ih =>
    intro s m0 s' hMG hle hrun
    rw [range'_succ_eq, foldE_cons] at hrun
    cases ha : alloc_block_expect s with
    | error e =>
      rw [ha, bindE_err, bindE_err] at hrun
      cases hrun
    | ok p =>
      obtain ⟨d, sa⟩ := p
      rw [ha, bindE_ok] at hrun
      dsimp only at hrun
      obtain ⟨hMGa, hdev, hinode, hlena, hmono, hd0, hdlt, hdnota, hdbita,
        hdtrue, hdmapa, hmetaa, hpagea⟩ := alloc_fresh hMG ha
      have hm0 : m0 < sa.inode.blocks := by
        rw [hinode]
        omega
      have hpca : PartialClaimed sa m0 = PartialClaimed s m0 :=
        partialClaimed_eq_of hmetaa (fun i hi => hdmapa i (by omega))
      obtain ⟨sb, hsb, hbfm, hbub, hbty, hbsz, hbbl, hbnl, hbind, hbdb,
        hbmeta, hMGb⟩ :=
        set_disk_block_id_char hMGa hm0 hd0 (by rw [hlena]; exact hdlt)
          hdbita (by rw [hpca]; exact hdnota)
      rw [hsb, bindE_ok] at hrun
      obtain ⟨hMG', hty', hsz', hbl', hnl', hind', hdb', hlen', hmono',
        hmeta'⟩ :=
        ih sb (m0 + 1) s' hMGb (by
          rw [hbbl, hinode]
          omega) hrun
      have harith : m0 + 1 + nn = m0 + (nn + 1) := by omega
      rw [harith] at hMG'
      refine ⟨hMG', ?_, ?_, ?_, ?_, ?_, ?_, ?_, ?_, ?_⟩
      · rw [hty', hbty, hinode]
      · rw [hsz', hbsz, hinode]
      · rw [hbl', hbbl, hinode]
      · rw [hnl', hbnl, hinode]
      · rw [hind', hbind, hinode]
      · rw [hdb', hbdb, hinode]
      · rw [hlen', hbfm, hlena]
      · intro c hc
        apply hmono'
        rw [hbfm]
        exact hmono c hc
      · rw [hmeta', hbmeta, hmetaa]

/-! ### The indirect-page allocation loop of the Greater branch -/

theorem writeU32_out {dev : Nat → Nat} {a x : Nat} (v : Nat)
    (h : x < a ∨ a + 4 ≤ x) : writeU32 dev a v x = dev x := by
  unfold writeU32
  apply writeBytes_out
  simp only [u32Bytes, List.length_cons, List.length_nil]
  omega

theorem set_false_true_rev {m : List Bool} {id c : Nat}
    (h : (m.set id false).getD c false = true) : m.getD c false = true := by
  cases hc : m.getD c false
  · rw [set_false_getD m id c hc] at h
    cases h
  · rfl

theorem resizeAllocPages_loop :
    ∀ cnt (t0 : SfsState) (ib : Nat) (t1 : SfsState),
      t0.freemap.getD 0 false = false → t0.freemap.length ≤ 2 ^ 32 →
      foldE (fun s i => do
        let (indirect, s') ← alloc_block_expect s
        let dev' ← write_block_u32 s'.dev s'.inode.db_indirect (ENTRY_SIZE * i)
          (indirect % 2 ^ 32)
        .ok { s' with dev := dev' }) t0 (List.range' ib cnt) = .ok t1 →
      t1.inode = t0.inode ∧
      t1.freemap.length = t0.freemap.length ∧
      (∀ c, t0.freemap.getD c false = false →
        t1.freemap.getD c false = false) ∧
      (∀ a, a < t0.inode.db_indirect * BLKSIZE + ENTRY_SIZE * ib ∨
        t0.inode.db_indirect * BLKSIZE + ENTRY_SIZE * (ib + cnt) ≤ a →
        t1.dev a = t0.dev a) ∧
      (∀ j, ib ≤ j → j < ib + cnt →
        0 < readU32 t1.dev (t0.inode.db_indirect * BLKSIZE + ENTRY_SIZE * j) ∧
        readU32 t1.dev (t0.inode.db_indirect * BLKSIZE + ENTRY_SIZE * j) <
          t0.freemap.length ∧
        t0.freemap.getD (readU32 t1.dev (t0.inode.db_indirect * BLKSIZE +
          ENTRY_SIZE * j)) false = true ∧
        t1.freemap.getD (readU32 t1.dev (t0.inode.db_indirect * BLKSIZE +
          ENTRY_SIZE * j)) false = false) ∧
      (∀ j j', ib ≤ j → j < j' → j' < ib + cnt →
        readU32 t1.dev (t0.inode.db_indirect * BLKSIZE + ENTRY_SIZE * j) ≠
        readU32 t1.dev (t0.inode.db_indirect * BLKSIZE + ENTRY_SIZE * j')) ∧
      (0 < cnt → ib + cnt ≤ BLK_NENTRY) := by
  intro cnt
  induction cnt with
  | zero =>
    intro t0 ib t1 h0 h32 hrun
    rw [range'_zero, foldE_nil] at hrun
    cases hrun
    refine ⟨rfl, rfl, fun c hc => hc, fun a _ => rfl, ?_, ?_, by omega⟩
    · intro j hj1 hj2
      omega
    · intro j j' h1 h2 h3
      omega
  | succ nn ih =>
    intro t0 ib t1 h0 h32 hrun
    rw [range'_succ_eq, foldE_cons] at hrun
    cases ha : alloc_block_expect t0 with
    | error e =>
      rw [ha, bindE_err, bindE_err] at hrun
      cases hrun
    | ok p =>
      obtain ⟨pid, ta⟩ := p
      rw [ha, bindE_ok] at hrun
      dsimp only at hrun
      obtain ⟨hdev, hinode, hfm, hub, hplen, hptrue⟩ := alloc_expect_char ha
      have hpid0 : 0 < pid := by
        rcases Nat.eq_zero_or_pos pid with rfl | hp
        · rw [h0] at hptrue
          cases hptrue
        · exact hp
      have hpid32 : pid % 2 ^ 32 = pid :=
        Nat.mod_eq_of_lt (lt_of_lt_of_le hplen h32)
      unfold write_block_u32 at hrun
      by_cases hg : ENTRY_SIZE * ib + 4 ≤ BLKSIZE
      · rw [if_pos hg, bindE_ok, bindE_ok] at hrun
        have hbit0 : ta.freemap.getD 0 false = false := by
          rw [hfm]
          exact set_false_getD _ _ _ h0
        obtain ⟨ih1, ih2, ih3, ih4, ih5, ih6, ih7⟩ :=
          ih { ta with dev := (writeU32 ta.dev (ta.inode.db_indirect * BLKSIZE +
              ENTRY_SIZE * ib) (pid % 2 ^ 32)) } (ib + 1) t1 hbit0
            (by rw [hfm]; simp; exact h32) hrun
        dsimp only at ih1 ih2 ih3 ih4 ih5 ih6
        have hdb2 : ta.inode.db_indirect = t0.inode.db_indirect := by
          rw [hinode]
        rw [hdb2] at ih4 ih5 ih6
        rw [hdev] at ih4
        rw [hfm] at ih2 ih3 ih5
        have hval : readU32 t1.dev
            (t0.inode.db_indirect * BLKSIZE + ENTRY_SIZE * ib) = pid := by
          have hr : readU32 t1.dev
              (t0.inode.db_indirect * BLKSIZE + ENTRY_SIZE * ib) =
              readU32 (writeU32 t0.dev (t0.inode.db_indirect * BLKSIZE +
                ENTRY_SIZE * ib) (pid % 2 ^ 32))
                (t0.inode.db_indirect * BLKSIZE + ENTRY_SIZE * ib) := by
            apply readU32_congr
            intro x hx1 hx2
            apply ih4
            left
            rw [ENTRY_SIZE_eq] at *
            omega
          rw [hr, readU32_writeU32_same]
          omega
        refine ⟨ih1.trans hinode, by rw [ih2]; simp, ?_, ?_, ?_, ?_, ?_⟩
        · intro c hc
          apply ih3
          exact set_false_getD _ _ _ hc
        · intro a haout
          have h1 : t1.dev a = writeU32 t0.dev (t0.inode.db_indirect * BLKSIZE +
              ENTRY_SIZE * ib) (pid % 2 ^ 32) a := by
            apply ih4
            rw [ENTRY_SIZE_eq] at *
            omega
          rw [h1]
          apply writeU32_out
          rw [ENTRY_SIZE_eq] at *
          omega
        · intro j hj1 hj2
          by_cases hjb : j = ib
          · subst hjb
            rw [hval]
            refine ⟨hpid0, hplen, hptrue, ?_⟩
            apply ih3
            rw [List.getD_eq_getElem?_getD, List.getElem?_set_self hplen]
            rfl
          · obtain ⟨hv1, hv2, hv3, hv4⟩ := ih5 j (by omega) (by omega)
            refine ⟨hv1, by rw [List.length_set] at hv2; exact hv2,
              set_false_true_rev hv3, hv4⟩
        · intro j j' h1 h2 h3
          by_cases hjb : j = ib
          · subst hjb
            rw [hval]
            obtain ⟨hv1, hv2, hv3, hv4⟩ := ih5 j' (by omega) (by omega)
            intro heq
            have hbitpid : (t0.freemap.set pid false).getD pid false = false := by
              rw [List.getD_eq_getElem?_getD, List.getElem?_set_self hplen]
              rfl
            rw [← heq] at hv3
            rw [hv3] at hbitpid
            cases hbitpid
          · exact ih6 j j' (by omega) h2 (by omega)
        · intro _
          rcases Nat.eq_zero_or_pos nn with rfl | hnn
          · rw [ENTRY_SIZE_eq, BLKSIZE_eq] at hg
            rw [BLK_NENTRY_eq]
            omega
          · have := ih7 (by omega)
            rw [BLK_NENTRY_eq] at *
            omega
      · rw [if_neg hg, bindE_err, bindE_err] at hrun
        cases hrun

/-! ### Growing the mapping: assembling `MidGood` for the enlarged inode -/

theorem nodup_map_range' (f : Nat → Nat) :
    ∀ cnt ib, (∀ j j', ib ≤ j → j < j' → j' < ib + cnt → f j ≠ f j') →
      ((List.range' ib cnt).map f).Nodup := by
  intro cnt
  induction cnt with
  | zero =>
    intro ib h
    exact List.nodup_nil
  | succ nn ih =>
    intro ib h
    rw [range'_succ_eq, List.map_cons, List.nodup_cons]
    constructor
    · intro hmem
      obtain ⟨j, hj, hfj⟩ := List.mem_map.mp hmem
      rw [List.mem_range'_1] at hj
      exact h ib j (le_refl _) (by omega) (by omega) hfj.symm
    · exact ih (ib + 1) (fun j j' h1 h2 h3 => h j j' (by omega) h2 (by omega))

/-- If the enlarged inode's mapping view consists of the old meta blocks, a
batch of fresh blocks, and the unchanged old data mapping, the mid-invariant
holds for the old prefix. -/
theorem midGood_grow {st st3 : SfsState} (fresh : List Nat) (hG : Good st)
    (h3nb : st3.inode.blocks < MAX_NBLOCK_DOUBLE_INDIRECT)
    (h3dirlen : st3.inode.direct.length = NDIRECT)
    (h3db0 : st3.inode.blocks < MAX_NBLOCK_INDIRECT → st3.inode.db_indirect = 0)
    (h3len : st3.freemap.length = st.freemap.length)
    (h3mono : ∀ c, st.freemap.getD c false = false →
      st3.freemap.getD c false = false)
    (hdmap : ∀ i, i < st.inode.blocks → dmap st3 i = dmap st i)
    (hmetaEq : metaIds st3 = metaIds st ++ fresh)
    (hfreshnd : fresh.Nodup)
    (hfresh : ∀ c ∈ fresh, 0 < c ∧ c < st.freemap.length ∧
      st.freemap.getD c false = true ∧ st3.freemap.getD c false = false) :
    MidGood st3 st.inode.blocks := by
  obtain ⟨hnb, hdir, hdb, hnd, hclm, h0, h32⟩ := hG.2
  have hdm : (List.range st.inode.blocks).map (dmap st3) =
      (List.range st.inode.blocks).map (dmap st) :=
    List.map_congr_left fun i hi => hdmap i (List.mem_range.mp hi)
  have hdperm : (PartialClaimed st3 st.inode.blocks).Perm
      (PartialClaimed st st.inode.blocks ++ fresh) := by
    show (metaIds st3 ++ (List.range st.inode.blocks).map (dmap st3)).Perm _
    rw [hdm, hmetaEq]
    show ((metaIds st ++ fresh) ++
      (List.range st.inode.blocks).map (dmap st)).Perm
      ((metaIds st ++ (List.range st.inode.blocks).map (dmap st)) ++ fresh)
    rw [List.append_assoc, List.append_assoc]
    exact List.perm_append_comm.append_left (metaIds st)
  refine ⟨h3nb, h3dirlen, h3db0, ?_, ?_, h3mono _ h0, by rw [h3len]; exact h32⟩
  · rw [hdperm.nodup_iff, List.nodup_append]
    refine ⟨hnd, hfreshnd, ?_⟩
    intro x hx hx'
    have h1 := (hclm x hx).2.2
    have h2 := (hfresh x hx').2.2.1
    rw [h1] at h2
    cases h2
  · intro c hc
    rw [hdperm.mem_iff, List.mem_append] at hc
    rcases hc with hc | hc
    · obtain ⟨ha, hb, hcc⟩ := hclm c hc
      exact ⟨ha, by rw [h3len]; exact hb, h3mono _ hcc⟩
    · obtain ⟨ha, hb, _, hd⟩ := hfresh c hc
      exact ⟨ha, by rw [h3len]; exact hb, hd⟩

/-! ### Frame lemmas for writes confined to one block window -/

theorem pageOf_frame {st : SfsState} {dev' : Nat → Nat} {coff : Nat}
    (hfr : ∀ a, a < st.inode.db_indirect * BLKSIZE + ENTRY_SIZE * coff ∨
      st.inode.db_indirect * BLKSIZE + BLKSIZE ≤ a → dev' a = st.dev a)
    {j : Nat} (hj : j < coff) (hcoff : ENTRY_SIZE * coff ≤ BLKSIZE) :
    pageOf { st with dev := dev' } j = pageOf st j := by
  unfold pageOf
  dsimp only
  apply readU32_congr
  intro x hx1 hx2
  apply hfr
  left
  rw [ENTRY_SIZE_eq] at *
  omega

/-- Device rewrites confined to the window
`[w * BLKSIZE + ENTRY_SIZE * coff, (w + 1) * BLKSIZE)` leave the old mapping
prefix intact, provided the window block `w` is either no meta block at all,
or the double-indirect block with the window above all old page entries. -/
theorem dmap_frame_general {st : SfsState} {m : Nat} (hMG : MidGood st m)
    (hm : m ≤ st.inode.blocks) {dev' : Nat → Nat} {w coff : Nat}
    (hfr : ∀ a, a < w * BLKSIZE + ENTRY_SIZE * coff ∨
      w * BLKSIZE + BLKSIZE ≤ a → dev' a = st.dev a)
    (hcase : (MAX_NBLOCK_INDIRECT ≤ st.inode.blocks ∧
        w = st.inode.db_indirect ∧ pageCount m ≤ coff ∧
        ENTRY_SIZE * coff ≤ BLKSIZE) ∨
      (∀ c ∈ metaIds st, c ≠ w)) :
    ∀ i, i < m → dmap { st with dev := dev' } i = dmap st i := by
  have hnb := hMG.1
  have hsafe : ∀ c, c ∈ metaIds st → ∀ off, off + 4 ≤ BLKSIZE →
      (c = w → off + 4 ≤ ENTRY_SIZE * coff) →
      ∀ x, c * BLKSIZE + off ≤ x → x < c * BLKSIZE + off + 4 →
      dev' x = st.dev x := by
    intro c hc off hoff hcw x hx1 hx2
    rcases eq_or_ne c w with rfl | hne
    · apply hfr
      left
      have := hcw rfl
      rw [BLKSIZE_eq] at *
      omega
    · apply hfr
      rw [BLKSIZE_eq] at *
      rcases Nat.lt_or_ge c w with hlt | hge
      · left
        omega
      · right
        omega
  intro i hi
  have hib : i < st.inode.blocks := lt_of_lt_of_le hi hm
  unfold dmap
  dsimp only
  by_cases h1 : i < MAX_NBLOCK_DIRECT
  · rw [if_pos h1, if_pos h1]
  · rw [if_neg h1, if_neg h1]
    have h12 : NDIRECT ≤ st.inode.blocks := by
      rw [MAX_NBLOCK_DIRECT_eq] at h1
      rw [NDIRECT_eq]
      omega
    by_cases h2 : i < MAX_NBLOCK_INDIRECT
    · rw [if_pos h2, if_pos h2]
      have hmem : st.inode.indirect ∈ metaIds st := indirect_mem_metaIds h12
      apply readU32_congr
      intro x hx1 hx2
      refine hsafe _ hmem (ENTRY_SIZE * (i - NDIRECT)) ?_ ?_ x hx1 hx2
      · rw [ENTRY_SIZE_eq, NDIRECT_eq, BLKSIZE_eq]
        rw [MAX_NBLOCK_INDIRECT_eq] at h2
        rw [MAX_NBLOCK_DIRECT_eq] at h1
        omega
      · intro heq
        exfalso
        rcases hcase with ⟨hMNI, hweq, hpc, _⟩ | hnotin
        · exact (meta_pairs hMG hMNI).1 h12 (heq.trans hweq)
        · exact hnotin _ hmem heq
    · rw [if_neg h2, if_neg h2]
      have hMNIm : MAX_NBLOCK_INDIRECT ≤ m := by omega
      have hMNIb : MAX_NBLOCK_INDIRECT ≤ st.inode.blocks := le_trans hMNIm hm
      have hjim := pageIdx_lt hi
      have hjib := pageIdx_lt hib
      have hjible := pageCount_le hnb
      have hdbmem : st.inode.db_indirect ∈ metaIds st := db_mem_metaIds hMNIb
      have hpmem : pageOf st ((i - MAX_NBLOCK_INDIRECT) / BLK_NENTRY) ∈
          metaIds st := page_mem_metaIds hMNIb hjib
      have hpeq : pageOf { st with dev := dev' }
          ((i - MAX_NBLOCK_INDIRECT) / BLK_NENTRY) =
          pageOf st ((i - MAX_NBLOCK_INDIRECT) / BLK_NENTRY) := by
        unfold pageOf
        dsimp only
        apply readU32_congr
        intro x hx1 hx2
        refine hsafe _ hdbmem
          (ENTRY_SIZE * ((i - MAX_NBLOCK_INDIRECT) / BLK_NENTRY)) ?_ ?_
          x hx1 hx2
        · rw [BLK_NENTRY_eq] at hjib hjible ⊢
          rw [ENTRY_SIZE_eq, BLKSIZE_eq]
          omega
        · intro heq
          rcases hcase with ⟨hMNI, hweq, hpc, hcB⟩ | hnotin
          · rw [BLK_NENTRY_eq] at hjim ⊢
            rw [ENTRY_SIZE_eq] at hcB ⊢
            omega
          · exact absurd heq (hnotin _ hdbmem)
      rw [hpeq]
      apply readU32_congr
      intro x hx1 hx2
      refine hsafe _ hpmem
        (ENTRY_SIZE * ((i - MAX_NBLOCK_INDIRECT) % BLK_NENTRY)) ?_ ?_ x hx1 hx2
      · have hki : (i - MAX_NBLOCK_INDIRECT) % BLK_NENTRY < BLK_NENTRY :=
          Nat.mod_lt _ (by rw [BLK_NENTRY_eq]; omega)
        rw [BLK_NENTRY_eq] at hki
        rw [ENTRY_SIZE_eq, BLKSIZE_eq, BLK_NENTRY_eq]
        omega
      · intro heq
        exfalso
        rcases hcase with ⟨hMNI, hweq, hpc, _⟩ | hnotin
        · exact (meta_pairs hMG hMNIb).2.2.1 _ hjib (heq.trans hweq).symm
        · exact hnotin _ hpmem heq

/-! ### The common tail of the Greater branch: data loop, set size, zero-fill -/

theorem resize_tail_char {st st3 st' : SfsState} {len : Nat}
    (hsz : st.inode.size ≤ len)
    (hM3 : MidGood st3 st.inode.blocks)
    (h3bl : st3.inode.blocks = ceilB len)
    (h3sz : st3.inode.size = st.inode.size)
    (h3ty : st3.inode.type_ = st.inode.type_)
    (h3nl : st3.inode.nlinks = st.inode.nlinks)
    (hble : st.inode.blocks ≤ ceilB len)
    (hrun : (do
      let st4 ← resizeAllocData st3 st.inode.blocks (ceilB len)
      let old_size := st4.inode.size
      let st5 := { st4 with inode := { st4.inode with size := len } }
      let (_, st6) ← _clean_at st5 old_size len
      Except.ok st6) = .ok st') :
    Good st' ∧ st'.inode.size = len ∧ st'.inode.type_ = st.inode.type_ ∧
    st'.inode.nlinks = st.inode.nlinks ∧
    (∀ o, st.inode.size ≤ o → o < len → st'.dev (addrOf st' o) = 0) := by
  cases h4 : resizeAllocData st3 st.inode.blocks (ceilB len) with
  | error e =>
    rw [h4, bindE_err] at hrun
    cases hrun
  | ok st4 =>
    rw [h4, bindE_ok] at hrun
    dsimp only at hrun
    have h4' : foldE (fun s i => do
        let (disk_block_id, s') ← alloc_block_expect s
        set_disk_block_id s' i disk_block_id) st3
        (List.range' st.inode.blocks (ceilB len - st.inode.blocks)) = .ok st4 := by
      have h := h4
      unfold resizeAllocData at h
      exact h
    obtain ⟨hM4, h4ty, h4sz, h4bl, h4nl, h4ind, h4db, h4len, h4mono, h4meta⟩ :=
      resizeAllocData_loop (ceilB len - st.inode.blocks) st3 st.inode.blocks st4
        hM3 (by rw [h3bl]; omega) h4'
    have harith : st.inode.blocks + (ceilB len - st.inode.blocks) = ceilB len := by
      omega
    rw [harith] at hM4
    have h4szst : st4.inode.size = st.inode.size := h4sz.trans h3sz
    unfold _clean_at at hrun
    dsimp only at hrun
    rw [h4szst, min_eq_right hsz, min_self] at hrun
    have hM5 : MidGood { st4 with inode := { st4.inode with size := len } }
        (ceilB len) := hM4
    have h5bl : ({ st4 with inode := { st4.inode with size := len } } :
        SfsState).inode.blocks = ceilB len := by
      show st4.inode.blocks = ceilB len
      rw [h4bl, h3bl]
    obtain ⟨st6, hcr, h6inode, h6fm, h6ub, h6z, h6fr⟩ :=
      cleanRanges_char len { st4 with inode := { st4.inode with size := len } }
        (ceilB len) st.inode.size len 0 hM5 (by rw [h5bl]) (by omega)
        (le_trans (ceilB_size_le len) (le_of_eq rfl))
    rw [hcr, bindE_ok] at hrun
    dsimp only at hrun
    cases hrun
    obtain ⟨hM6, hdm6⟩ := frame_preserves hM5 (by rw [h5bl])
      (le_trans (ceilB_size_le len) (le_of_eq rfl)) h6inode h6fm h6ub h6fr
    have h6bl : st'.inode.blocks = ceilB len := by
      rw [h6inode]
      exact h5bl
    have h6sz : st'.inode.size = len := by
      rw [h6inode]
    refine ⟨⟨?_, ?_⟩, h6sz, ?_, ?_, ?_⟩
    · rw [h6bl, h6sz]
    · rw [h6bl]
      exact hM6
    · rw [h6inode]
      show st4.inode.type_ = st.inode.type_
      rw [h4ty, h3ty]
    · rw [h6inode]
      show st4.inode.nlinks = st.inode.nlinks
      rw [h4nl, h3nl]
    · intro o ho1 ho2
      have haddr : addrOf st' o =
          addrOf { st4 with inode := { st4.inode with size := len } } o := by
        apply addrOf_eq_of_dmap hdm6
        rw [h5bl]
        have := ceilB_size_le len
        rw [BLKSIZE_eq] at *
        omega
      rw [haddr]
      exact h6z o ho1 ho2

/-! ### Field-level congruences and page-count arithmetic -/

theorem pageOf_congr_fields {s2 s : SfsState} (hdev : s2.dev = s.dev)
    (hdb : s2.inode.db_indirect = s.inode.db_indirect) :
    pageOf s2 = pageOf s := by
  funext j
  unfold pageOf
  rw [hdev, hdb]

theorem dmap_congr_fields {s2 s : SfsState} (hdev : s2.dev = s.dev)
    (hdir : s2.inode.direct = s.inode.direct)
    (hind : s2.inode.indirect = s.inode.indirect)
    (hdb : s2.inode.db_indirect = s.inode.db_indirect) (i : Nat) :
    dmap s2 i = dmap s i := by
  unfold dmap
  rw [hdev, hdir, hind, pageOf_congr_fields hdev hdb]

theorem dmap_congr_low {s2 s : SfsState} (hdev : s2.dev = s.dev)
    (hdir : s2.inode.direct = s.inode.direct)
    (hind : s2.inode.indirect = s.inode.indirect)
    {i : Nat} (hi : i < MAX_NBLOCK_INDIRECT) :
    dmap s2 i = dmap s i := by
  unfold dmap
  by_cases h1 : i < MAX_NBLOCK_DIRECT
  · rw [if_pos h1, if_pos h1, hdir]
  · rw [if_neg h1, if_neg h1, if_pos hi, if_pos hi, hdev, hind]

theorem pageCount_mono {a b : Nat} (h : a ≤ b) : pageCount a ≤ pageCount b := by
  unfold pageCount
  have := Nat.div_le_div_right (c := BLK_NENTRY)
    (Nat.sub_le_sub_right h MAX_NBLOCK_INDIRECT)
  omega

theorem pageCount_MND :
    pageCount MAX_NBLOCK_DOUBLE_INDIRECT = BLK_NENTRY + 1 := by decide

theorem metaIds_st_shape_low {st : SfsState}
    (h12 : NDIRECT ≤ st.inode.blocks)
    (hMNI : st.inode.blocks < MAX_NBLOCK_INDIRECT) :
    metaIds st = [st.inode.indirect] := by
  unfold metaIds
  rw [if_pos h12, if_neg (by omega)]
  simp

theorem metaIds_st_shape_none {st : SfsState}
    (h12 : st.inode.blocks < NDIRECT) : metaIds st = [] := by
  unfold metaIds
  rw [if_neg (by omega), if_neg (by
    rw [MAX_NBLOCK_INDIRECT_eq]
    rw [NDIRECT_eq] at h12
    omega)]
  rfl

theorem metaIds_st_shape_high {st : SfsState}
    (hMNI : MAX_NBLOCK_INDIRECT ≤ st.inode.blocks) :
    metaIds st = [st.inode.indirect] ++ (st.inode.db_indirect ::
      (List.range (pageCount st.inode.blocks)).map (pageOf st)) := by
  unfold metaIds
  rw [if_pos hMNI, if_pos (by
    rw [MAX_NBLOCK_INDIRECT_eq] at hMNI
    rw [NDIRECT_eq]
    omega)]

theorem dmap_congr_tier1 {s2 s : SfsState}
    (hdir : s2.inode.direct = s.inode.direct)
    {i : Nat} (hi : i < MAX_NBLOCK_DIRECT) : dmap s2 i = dmap s i := by
  unfold dmap
  rw [if_pos hi, if_pos hi, hdir]

/-! ### Greater branch, small targets: no double-indirect involvement -/

theorem leaf_low_package {st : SfsState} (hG : Good st) {B : Nat}
    (hgt : st.inode.blocks < B) (hBlt : B < MAX_NBLOCK_INDIRECT)
    {st2 : SfsState}
    (hf_bl : st2.inode.blocks = B) (hf_dir : st2.inode.direct = st.inode.direct)
    (hf_db : st2.inode.db_indirect = st.inode.db_indirect)
    (hf_dev : st2.dev = st.dev)
    (hf_len : st2.freemap.length = st.freemap.length)
    (hf_mono : ∀ c, st.freemap.getD c false = false →
      st2.freemap.getD c false = false)
    (hind : (st2.inode.indirect = st.inode.indirect ∧
        (NDIRECT ≤ B → NDIRECT ≤ st.inode.blocks)) ∨
      (st.inode.blocks < NDIRECT ∧ NDIRECT ≤ B ∧ 0 < st2.inode.indirect ∧
        st2.inode.indirect < st.freemap.length ∧
        st.freemap.getD st2.inode.indirect false = true ∧
        st2.freemap.getD st2.inode.indirect false = false)) :
    MidGood st2 st.inode.blocks := by
  have hdb0 : st.inode.db_indirect = 0 := hG.2.2.2.1 (by
    rw [MAX_NBLOCK_INDIRECT_eq] at *
    omega)
  rcases hind with ⟨hieq, h12i⟩ | ⟨hlow, h12B, hpos, hlen, htrue, hfalse⟩
  · refine midGood_grow [] hG ?_ ?_ ?_ hf_len hf_mono ?_ ?_ (List.nodup_nil)
      (by intro c hc; cases hc)
    · rw [hf_bl]
      rw [MAX_NBLOCK_INDIRECT_eq] at hBlt
      rw [MAX_NBLOCK_DOUBLE_INDIRECT_eq]
      omega
    · rw [hf_dir]
      exact hG.2.2.1
    · intro _
      rw [hf_db, hdb0]
    · intro i hi
      exact dmap_congr_low hf_dev hf_dir hieq (by omega)
    · rw [List.append_nil]
      by_cases hB12 : NDIRECT ≤ B
      · rw [metaIds_st_shape_low (by rw [hf_bl]; exact hB12)
          (by rw [hf_bl]; exact hBlt), hieq,
          metaIds_st_shape_low (h12i hB12) (by omega)]
      · rw [metaIds_st_shape_none (by rw [hf_bl]; omega),
          metaIds_st_shape_none (by omega)]
  · refine midGood_grow [st2.inode.indirect] hG ?_ ?_ ?_ hf_len hf_mono ?_ ?_
      (List.nodup_singleton _) ?_
    · rw [hf_bl]
      rw [MAX_NBLOCK_INDIRECT_eq] at hBlt
      rw [MAX_NBLOCK_DOUBLE_INDIRECT_eq]
      omega
    · rw [hf_dir]
      exact hG.2.2.1
    · intro _
      rw [hf_db, hdb0]
    · intro i hi
      exact dmap_congr_tier1 hf_dir (by
        rw [NDIRECT_eq] at hlow
        rw [MAX_NBLOCK_DIRECT_eq]
        omega)
    · rw [metaIds_st_shape_low (by rw [hf_bl]; exact h12B)
        (by rw [hf_bl]; exact hBlt),
        metaIds_st_shape_none hlow]
      rfl
    · intro c hc
      rw [List.mem_singleton.mp hc]
      exact ⟨hpos, hlen, htrue, hfalse⟩

/-! ### Greater branch, large targets: double-indirect block and pages -/

theorem leaf_high_package {st : SfsState} (hG : Good st) {B : Nat}
    (hgt : st.inode.blocks < B) (hBle : B ≤ MAX_NBLOCK_DOUBLE_INDIRECT)
    (hBMNI : MAX_NBLOCK_INDIRECT ≤ B)
    {t0 : SfsState} {ib : Nat}
    (hf_bl : t0.inode.blocks = B) (hf_dir : t0.inode.direct = st.inode.direct)
    (hf_dev : t0.dev = st.dev)
    (hf_len : t0.freemap.length = st.freemap.length)
    (hf_mono : ∀ c, st.freemap.getD c false = false →
      t0.freemap.getD c false = false)
    (hind : (t0.inode.indirect = st.inode.indirect ∧
        NDIRECT ≤ st.inode.blocks) ∨
      (st.inode.blocks < NDIRECT ∧ 0 < t0.inode.indirect ∧
        t0.inode.indirect < st.freemap.length ∧
        st.freemap.getD t0.inode.indirect false = true ∧
        t0.freemap.getD t0.inode.indirect false = false))
    (hdbs : (t0.inode.db_indirect = st.inode.db_indirect ∧
        MAX_NBLOCK_INDIRECT ≤ st.inode.blocks ∧
        ib = pageCount st.inode.blocks) ∨
      (st.inode.blocks < MAX_NBLOCK_INDIRECT ∧ ib = 0 ∧
        0 < t0.inode.db_indirect ∧
        t0.inode.db_indirect < st.freemap.length ∧
        st.freemap.getD t0.inode.db_indirect false = true ∧
        t0.freemap.getD t0.inode.db_indirect false = false ∧
        t0.inode.db_indirect ≠ t0.inode.indirect))
    {t1 : SfsState}
    (hp : resizeAllocPages t0 ib (pageCount B) = .ok t1) :
    MidGood t1 st.inode.blocks ∧ t1.inode.blocks = B ∧
    B < MAX_NBLOCK_DOUBLE_INDIRECT ∧ t1.inode = t0.inode := by
  have hstMND : st.inode.blocks < MAX_NBLOCK_DOUBLE_INDIRECT := by omega
  have hble : st.inode.blocks ≤ B := by omega
  have hp' : foldE (fun s i => do
      let (indirect, s') ← alloc_block_expect s
      let dev' ← write_block_u32 s'.dev s'.inode.db_indirect (ENTRY_SIZE * i)
        (indirect % 2 ^ 32)
      .ok { s' with dev := dev' }) t0
      (List.range' ib (pageCount B - ib)) = .ok t1 := by
    have h := hp
    unfold resizeAllocPages at h
    exact h
  obtain ⟨ih1, ih2, ih3, ih4, ih5, ih6, ih7⟩ :=
    resizeAllocPages_loop (pageCount B - ib) t0 ib t1
      (hf_mono 0 hG.2.2.2.2.2.2.1) (by rw [hf_len]; exact hG.2.2.2.2.2.2.2) hp'
  have hible : ib ≤ pageCount B := by
    rcases hdbs with ⟨_, _, hib⟩ | ⟨_, hib, _⟩
    · rw [hib]
      exact pageCount_mono hble
    · rw [hib]
      omega
  have hc : ib + (pageCount B - ib) = pageCount B := by omega
  rw [hc] at ih4 ih5 ih6 ih7
  have hiblt : ib ≤ BLK_NENTRY := by
    rcases hdbs with ⟨_, _, hib⟩ | ⟨_, hib, _⟩
    · rw [hib]
      exact pageCount_le hstMND
    · rw [hib]
      omega
  have hBnd : B < MAX_NBLOCK_DOUBLE_INDIRECT := by
    rcases eq_or_lt_of_le hBle with hBM | hlt
    · exfalso
      have hie : pageCount B = BLK_NENTRY + 1 := by
        rw [hBM]
        exact pageCount_MND
      have := ih7 (by omega)
      omega
    · exact hlt
  have hple : pageCount B ≤ BLK_NENTRY := pageCount_le hBnd
  have ht1bl : t1.inode.blocks = B := by
    rw [ih1]
    exact hf_bl
  have ht1db : t1.inode.db_indirect = t0.inode.db_indirect := by
    rw [ih1]
  have hpval3 : ∀ j, pageOf t1 j =
      readU32 t1.dev (t0.inode.db_indirect * BLKSIZE + ENTRY_SIZE * j) := by
    intro j
    unfold pageOf
    rw [ht1db]
  have htruerev : ∀ c, t0.freemap.getD c false = true →
      st.freemap.getD c false = true := by
    intro c hc'
    cases h : st.freemap.getD c false
    · rw [hf_mono c h] at hc'
      cases hc'
    · rfl
  have hFt0 : ∀ c ∈ (List.range' ib (pageCount B - ib)).map (pageOf t1),
      t0.freemap.getD c false = true := by
    intro c hcm
    obtain ⟨j, hj, hcv⟩ := List.mem_map.mp hcm
    rw [List.mem_range'_1] at hj
    have hv3 := (ih5 j hj.1 (by omega)).2.2.1
    rw [← hpval3, hcv] at hv3
    exact hv3
  have hFfacts : ∀ c ∈ (List.range' ib (pageCount B - ib)).map (pageOf t1),
      0 < c ∧ c < st.freemap.length ∧ st.freemap.getD c false = true ∧
      t1.freemap.getD c false = false := by
    intro c hcm
    obtain ⟨j, hj, hcv⟩ := List.mem_map.mp hcm
    rw [List.mem_range'_1] at hj
    obtain ⟨hv1, hv2, hv3, hv4⟩ := ih5 j hj.1 (by omega)
    rw [← hpval3, hcv] at hv1 hv2 hv3 hv4
    exact ⟨hv1, by rw [← hf_len]; exact hv2, htruerev _ hv3, hv4⟩
  have hFnd : ((List.range' ib (pageCount B - ib)).map (pageOf t1)).Nodup := by
    apply nodup_map_range'
    intro j j' h1 h2 h3
    rw [hpval3, hpval3]
    exact ih6 j j' h1 h2 (by omega)
  have hfr : ∀ a, a < t0.inode.db_indirect * BLKSIZE + ENTRY_SIZE * ib ∨
      t0.inode.db_indirect * BLKSIZE + BLKSIZE ≤ a → t1.dev a = st.dev a := by
    intro a ha
    rw [← hf_dev]
    apply ih4
    rcases ha with ha | ha
    · left
      exact ha
    · right
      rw [BLK_NENTRY_eq] at hple
      rw [ENTRY_SIZE_eq]
      rw [BLKSIZE_eq] at *
      omega
  have holdpages : ∀ j, j < ib → pageOf t1 j = pageOf t0 j := by
    intro j hj
    rw [hpval3]
    unfold pageOf
    apply readU32_congr
    intro x hx1 hx2
    apply ih4
    left
    rw [ENTRY_SIZE_eq] at *
    omega
  have hdmap : ∀ i, i < st.inode.blocks → dmap t1 i = dmap st i := by
    intro i hi
    have hstep2 : dmap { st with dev := t1.dev } i = dmap st i := by
      rcases hdbs with ⟨hdbeq, hMNIo, hib⟩ | ⟨hMNIo, hib, hdbpos, hdblen,
        hdbtrue, hdbfalse, hdbne⟩
      · have hfr' : ∀ a, a < st.inode.db_indirect * BLKSIZE +
            ENTRY_SIZE * ib ∨ st.inode.db_indirect * BLKSIZE + BLKSIZE ≤ a →
            t1.dev a = st.dev a := by
          intro a ha
          rw [← hdbeq] at ha
          exact hfr a ha
        refine dmap_frame_general hG.2 (le_refl _) hfr' ?_ i hi
        left
        refine ⟨hMNIo, rfl, by rw [hib], ?_⟩
        rw [BLK_NENTRY_eq] at hiblt
        rw [ENTRY_SIZE_eq, BLKSIZE_eq]
        omega
      · refine dmap_frame_general hG.2 (le_refl _) hfr ?_ i hi
        right
        intro c hcmem hceq
        have hcdead := (hG.2.2.2.2.2.1 c (meta_mem_claimed hcmem)).2.2
        rw [hceq] at hcdead
        rw [hcdead] at hdbtrue
        cases hdbtrue
    rw [← hstep2]
    rcases hind with ⟨hieq, h12o⟩ | ⟨hlow, _⟩
    · rcases hdbs with ⟨hdbeq, _, _⟩ | ⟨hMNIo, _⟩
      · apply dmap_congr_fields
        · rfl
        · rw [ih1]
          exact hf_dir
        · rw [ih1]
          exact hieq
        · rw [ih1]
          exact hdbeq
      · apply dmap_congr_low
        · rfl
        · rw [ih1]
          exact hf_dir
        · rw [ih1]
          exact hieq
        · omega
    · apply dmap_congr_tier1
      · rw [ih1]
        exact hf_dir
      · rw [NDIRECT_eq] at hlow
        rw [MAX_NBLOCK_DIRECT_eq]
        omega
  have hsplitpages : (List.range (pageCount B)).map (pageOf t1) =
      (List.range ib).map (pageOf t1) ++
      (List.range' ib (pageCount B - ib)).map (pageOf t1) := by
    rw [List.range'_eq_map_range, ← List.map_append, ← List.range_add, hc]
  have hmeta_t1 : metaIds t1 = [t1.inode.indirect] ++ (t0.inode.db_indirect ::
      ((List.range ib).map (pageOf t1) ++
       (List.range' ib (pageCount B - ib)).map (pageOf t1))) := by
    rw [metaIds_st_shape_high (by rw [ht1bl]; exact hBMNI), ht1db]
    rw [show pageCount t1.inode.blocks = pageCount B from by rw [ht1bl]]
    rw [hsplitpages]
  have hdirlen : t1.inode.direct.length = NDIRECT := by
    rw [ih1, hf_dir]
    exact hG.2.2.1
  have hdb0 : t1.inode.blocks < MAX_NBLOCK_INDIRECT → t1.inode.db_indirect = 0 := by
    intro h
    rw [ht1bl] at h
    omega
  have hlen3 : t1.freemap.length = st.freemap.length := by
    rw [ih2, hf_len]
  have hmono3 : ∀ c, st.freemap.getD c false = false →
      t1.freemap.getD c false = false := fun c hc' => ih3 c (hf_mono c hc')
  have ht1nb : t1.inode.blocks < MAX_NBLOCK_DOUBLE_INDIRECT := by
    rw [ht1bl]
    exact hBnd
  refine ⟨?_, ht1bl, hBnd, ih1⟩
  rcases hind with ⟨hieq, h12o⟩ | ⟨hlow, hipos, hilen, hitrue, hifalse⟩
  · rcases hdbs with ⟨hdbeq, hMNIo, hib⟩ | ⟨hMNIo, hib, hdbpos, hdblen,
      hdbtrue, hdbfalse, hdbne⟩
    · -- old indirect, old double-indirect: fresh = new pages only
      refine midGood_grow ((List.range' ib (pageCount B - ib)).map (pageOf t1))
        hG ht1nb hdirlen hdb0 hlen3 hmono3 hdmap ?_ hFnd hFfacts
      have holdP : (List.range ib).map (pageOf t1) =
          (List.range ib).map (pageOf st) := by
        apply List.map_congr_left
        intro j hj
        rw [List.mem_range] at hj
        rw [holdpages j hj, pageOf_congr_fields hf_dev hdbeq]
      rw [hmeta_t1, holdP, metaIds_st_shape_high hMNIo]
      rw [show t1.inode.indirect = st.inode.indirect from by rw [ih1]; exact hieq]
      rw [hdbeq, ← hib]
      simp only [List.singleton_append, List.cons_append, List.append_assoc]
    · -- old indirect, fresh double-indirect, no old pages
      refine midGood_grow (t0.inode.db_indirect ::
        (List.range' ib (pageCount B - ib)).map (pageOf t1))
        hG ht1nb hdirlen hdb0 hlen3 hmono3 hdmap ?_ ?_ ?_
      · rw [hmeta_t1, metaIds_st_shape_low h12o hMNIo]
        rw [show t1.inode.indirect = st.inode.indirect from by
          rw [ih1]; exact hieq]
        rw [hib]
        simp
      · rw [List.nodup_cons]
        refine ⟨?_, hFnd⟩
        intro hmem
        have := hFt0 _ hmem
        rw [hdbfalse] at this
        cases this
      · intro c hcm
        rcases List.mem_cons.mp hcm with rfl | hcm
        · exact ⟨hdbpos, hdblen, hdbtrue, ih3 _ hdbfalse⟩
        · exact hFfacts _ hcm
  · -- fresh indirect (old below NDIRECT), fresh double-indirect
    rcases hdbs with ⟨hdbeq, hMNIo, hib⟩ | ⟨hMNIo, hib, hdbpos, hdblen,
      hdbtrue, hdbfalse, hdbne⟩
    · exfalso
      rw [NDIRECT_eq] at hlow
      rw [MAX_NBLOCK_INDIRECT_eq] at hMNIo
      omega
    · refine midGood_grow (t1.inode.indirect :: t0.inode.db_indirect ::
        (List.range' ib (pageCount B - ib)).map (pageOf t1))
        hG ht1nb hdirlen hdb0 hlen3 hmono3 hdmap ?_ ?_ ?_
      · rw [hmeta_t1, metaIds_st_shape_none hlow]
        rw [hib]
        simp
      · rw [List.nodup_cons, List.nodup_cons]
        refine ⟨?_, ?_, hFnd⟩
        · intro hmem
          rcases List.mem_cons.mp hmem with heq | hmem
          · have h1 : t1.inode.indirect = t0.inode.indirect := by rw [ih1]
            rw [h1] at heq
            exact hdbne heq.symm
          · have := hFt0 _ hmem
            have h1 : t1.inode.indirect = t0.inode.indirect := by rw [ih1]
            rw [h1] at hmem
            have h2 := hFt0 _ hmem
            rw [hifalse] at h2
            cases h2
        · intro hmem
          have := hFt0 _ hmem
          rw [hdbfalse] at this
          cases this
      · intro c hcm
        rcases List.mem_cons.mp hcm with rfl | hcm
        · have h1 : t1.inode.indirect = t0.inode.indirect := by rw [ih1]
          rw [h1]
          exact ⟨hipos, hilen, hitrue, ih3 _ hifalse⟩
        · rcases List.mem_cons.mp hcm with rfl | hcm
          · exact ⟨hdbpos, hdblen, hdbtrue, ih3 _ hdbfalse⟩
          · exact hFfacts _ hcm

/-! ### `_resize` to a size at least the current one, conditional on success -/

theorem resize_ok_char {st : SfsState} (hG : Good st) {len : Nat}
    {st' : SfsState} (hsz : st.inode.size ≤ len)
    (hrun : _resize st len = .ok st') :
    Good st' ∧ st'.inode.size = len ∧ st'.inode.type_ = st.inode.type_ ∧
    st'.inode.nlinks = st.inode.nlinks ∧
    (st.inode.blocks < ceilB len →
      ∀ o, st.inode.size ≤ o → o < len → st'.dev (addrOf st' o) = 0) := by
  have hble : st.inode.blocks ≤ ceilB len := by
    rw [hG.1]
    unfold ceilB
    exact Nat.div_le_div_right (by omega)
  have hMDN : MAX_NBLOCK_DIRECT = NDIRECT := rfl
  unfold _resize at hrun
  by_cases hmax : len > MAX_FILE_SIZE
  · rw [if_pos hmax] at hrun
    cases hrun
  rw [if_neg hmax] at hrun
  dsimp only at hrun
  have hcb : (len + BLKSIZE - 1) / BLKSIZE = ceilB len := rfl
  rw [hcb] at hrun
  by_cases hmax2 : ceilB len > MAX_NBLOCK_DOUBLE_INDIRECT
  · rw [if_pos hmax2] at hrun
    cases hrun
  rw [if_neg hmax2] at hrun
  by_cases heqb : ceilB len = st.inode.blocks
  · rw [if_pos heqb] at hrun
    cases hrun
    refine ⟨⟨?_, hG.2⟩, rfl, rfl, rfl, ?_⟩
    · show st.inode.blocks = ceilB len
      omega
    · intro h
      exact absurd h (by omega)
  rw [if_neg heqb] at hrun
  have hlt : st.inode.blocks < ceilB len := by omega
  rw [if_pos hlt] at hrun
  split at hrun
  next hcA =>
    -- a fresh indirect block is allocated
    rw [hMDN] at hcA
    cases ha : alloc_block_expect
        { st with inode := { st.inode with blocks := ceilB len } } with
    | error e =>
      rw [ha] at hrun
      simp only [bindE_err] at hrun
      cases hrun
    | ok p =>
      obtain ⟨aid, sA⟩ := p
      rw [ha] at hrun
      simp only [bindE_ok] at hrun
      obtain ⟨hAdev, hAinode, hAfm, hAub, hAlen, hAbit⟩ := alloc_expect_char ha
      have hAdev' : sA.dev = st.dev := hAdev
      have hAinode' : sA.inode = { st.inode with blocks := ceilB len } := hAinode
      have hAfm' : sA.freemap = st.freemap.set aid false := hAfm
      have hAlen' : aid < st.freemap.length := hAlen
      have hAbit' : st.freemap.getD aid false = true := hAbit
      have haid0 : 0 < aid := by
        rcases Nat.eq_zero_or_pos aid with rfl | hp
        · rw [hG.2.2.2.2.2.2.1] at hAbit'
          cases hAbit'
        · exact hp
      have haid32 : aid % 2 ^ 32 = aid :=
        Nat.mod_eq_of_lt (lt_of_lt_of_le hAlen' hG.2.2.2.2.2.2.2)
      have hAmono : ∀ c, st.freemap.getD c false = false →
          sA.freemap.getD c false = false := by
        intro c hc
        rw [hAfm']
        exact set_false_getD _ _ _ hc
      have hAself : sA.freemap.getD aid false = false := by
        rw [hAfm']
        exact set_false_getD_self _ _
      split at hrun
      next hcB =>
        -- double-indirect region reached: allocate db block and pages
        have holdlow : st.inode.blocks < MAX_NBLOCK_INDIRECT := by
          rw [MAX_NBLOCK_INDIRECT_eq]
          rw [NDIRECT_eq] at hcA
          omega
        have hdbz : sA.inode.db_indirect = 0 := by
          rw [hAinode']
          exact hG.2.2.2.1 holdlow
        rw [if_pos hdbz] at hrun
        cases hd : alloc_block_expect { sA with inode :=
            { sA.inode with indirect := aid % 2 ^ 32 } } with
        | error e =>
          rw [hd] at hrun
          simp only [bindE_err] at hrun
          cases hrun
        | ok q =>
          obtain ⟨did, sD⟩ := q
          rw [hd] at hrun
          simp only [bindE_ok] at hrun
          rw [if_pos holdlow] at hrun
          obtain ⟨hDdev, hDinode, hDfm, hDub, hDlen, hDbit⟩ := alloc_expect_char hd
          have hDdev' : sD.dev = st.dev := by
            rw [hDdev]
            exact hAdev'
          have hDinode' : sD.inode =
              { sA.inode with indirect := aid % 2 ^ 32 } := hDinode
          have hDfm' : sD.freemap = sA.freemap.set did false := hDfm
          have hDlen' : did < sA.freemap.length := hDlen
          have hDbit' : sA.freemap.getD did false = true := hDbit
          have hdidne : did ≠ aid := by
            intro h
            rw [h, hAself] at hDbit'
            cases hDbit'
          have hDbitst : st.freemap.getD did false = true := by
            rw [hAfm'] at hDbit'
            exact set_false_true_rev hDbit'
          have hDlenst : did < st.freemap.length := by
            rw [hAfm'] at hDlen'
            simpa using hDlen'
          have hdid0 : 0 < did := by
            rcases Nat.eq_zero_or_pos did with rfl | hp
            · rw [hG.2.2.2.2.2.2.1] at hDbitst
              cases hDbitst
            · exact hp
          have hdid32 : did % 2 ^ 32 = did :=
            Nat.mod_eq_of_lt (lt_of_lt_of_le hDlenst hG.2.2.2.2.2.2.2)
          cases hp : resizeAllocPages { sD with inode :=
              { sD.inode with db_indirect := did % 2 ^ 32 } } 0
              ((ceilB len - MAX_NBLOCK_INDIRECT) / BLK_NENTRY + 1) with
          | error e =>
            rw [hp, bindE_err] at hrun
            cases hrun
          | ok t1 =>
            rw [hp, bindE_ok] at hrun
            obtain ⟨hM1, h1bl, hBnd, h1inode⟩ :=
              leaf_high_package hG hlt (by omega) hcB
                (show ({ sD with inode := { sD.inode with
                    db_indirect := did % 2 ^ 32 } } : SfsState).inode.blocks =
                  ceilB len from by
                  show sD.inode.blocks = ceilB len
                  rw [hDinode']
                  show sA.inode.blocks = ceilB len
                  rw [hAinode'])
                (show _ = st.inode.direct from by
                  show sD.inode.direct = st.inode.direct
                  rw [hDinode']
                  show sA.inode.direct = st.inode.direct
                  rw [hAinode'])
                hDdev'
                (by
                  show sD.freemap.length = st.freemap.length
                  rw [hDfm', hAfm']
                  simp)
                (by
                  intro c hc
                  show sD.freemap.getD c false = false
                  rw [hDfm']
                  exact set_false_getD _ _ _ (hAmono c hc))
                (Or.inr ⟨by rw [NDIRECT_eq]; rw [NDIRECT_eq] at hcA; omega,
                  by
                    show 0 < sD.inode.indirect
                    rw [hDinode']
                    show 0 < aid % 2 ^ 32
                    rw [haid32]
                    exact haid0,
                  by
                    show sD.inode.indirect < st.freemap.length
                    rw [hDinode']
                    show aid % 2 ^ 32 < st.freemap.length
                    rw [haid32]
                    exact hAlen',
                  by
                    show st.freemap.getD sD.inode.indirect false = true
                    rw [hDinode']
                    show st.freemap.getD (aid % 2 ^ 32) false = true
                    rw [haid32]
                    exact hAbit',
                  by
                    show sD.freemap.getD sD.inode.indirect false = false
                    rw [hDinode']
                    show sD.freemap.getD (aid % 2 ^ 32) false = false
                    rw [haid32, hDfm']
                    exact set_false_getD _ _ _ hAself⟩)
                (Or.inr ⟨holdlow, rfl,
                  by
                    show 0 < did % 2 ^ 32
                    rw [hdid32]
                    exact hdid0,
                  by
                    show did % 2 ^ 32 < st.freemap.length
                    rw [hdid32]
                    exact hDlenst,
                  by
                    show st.freemap.getD (did % 2 ^ 32) false = true
                    rw [hdid32]
                    exact hDbitst,
                  by
                    show sD.freemap.getD (did % 2 ^ 32) false = false
                    rw [hdid32, hDfm']
                    exact set_false_getD_self _ _,
                  by
                    show did % 2 ^ 32 ≠ sD.inode.indirect
                    rw [hdid32, hDinode']
                    show did ≠ aid % 2 ^ 32
                    rw [haid32]
                    exact hdidne⟩)
                hp
            obtain ⟨g1, g2, g3, g4, g5⟩ := resize_tail_char hsz hM1 h1bl
              (by
                rw [h1inode]
                show sD.inode.size = st.inode.size
                rw [hDinode']
                show sA.inode.size = st.inode.size
                rw [hAinode'])
              (by
                rw [h1inode]
                show sD.inode.type_ = st.inode.type_
                rw [hDinode']
                show sA.inode.type_ = st.inode.type_
                rw [hAinode'])
              (by
                rw [h1inode]
                show sD.inode.nlinks = st.inode.nlinks
                rw [hDinode']
                show sA.inode.nlinks = st.inode.nlinks
                rw [hAinode'])
              hble hrun
            exact ⟨g1, g2, g3, g4, fun _ => g5⟩
      next hcB =>
        -- no double-indirect region: st3 is the stage-A output
        have hBlt : ceilB len < MAX_NBLOCK_INDIRECT := by omega
        have hM2 : MidGood { sA with inode :=
            { sA.inode with indirect := aid % 2 ^ 32 } } st.inode.blocks := by
          refine leaf_low_package hG hlt hBlt
            (by
              show sA.inode.blocks = ceilB len
              rw [hAinode'])
            (by
              show sA.inode.direct = st.inode.direct
              rw [hAinode'])
            (by
              show sA.inode.db_indirect = st.inode.db_indirect
              rw [hAinode'])
            hAdev'
            (by rw [hAfm']; simp)
            (by
              intro c hc
              show sA.freemap.getD c false = false
              exact hAmono c hc)
            (Or.inr ⟨by rw [NDIRECT_eq]; rw [NDIRECT_eq] at hcA; omega,
              by rw [NDIRECT_eq]; rw [NDIRECT_eq] at hcA; omega,
              by
                show 0 < aid % 2 ^ 32
                rw [haid32]
                exact haid0,
              by
                show aid % 2 ^ 32 < st.freemap.length
                rw [haid32]
                exact hAlen',
              by
                show st.freemap.getD (aid % 2 ^ 32) false = true
                rw [haid32]
                exact hAbit',
              by
                show sA.freemap.getD (aid % 2 ^ 32) false = false
                rw [haid32]
                exact hAself⟩)
        obtain ⟨g1, g2, g3, g4, g5⟩ := resize_tail_char hsz hM2
          (by
            show sA.inode.blocks = ceilB len
            rw [hAinode'])
          (by
            show sA.inode.size = st.inode.size
            rw [hAinode'])
          (by
            show sA.inode.type_ = st.inode.type_
            rw [hAinode'])
          (by
            show sA.inode.nlinks = st.inode.nlinks
            rw [hAinode'])
          hble hrun
        exact ⟨g1, g2, g3, g4, fun _ => g5⟩
  next hcA =>
    -- no new indirect block
    rw [hMDN] at hcA
    rw [bindE_ok] at hrun
    dsimp only at hrun
    split at hrun
    next hcB =>
      by_cases hdbz : st.inode.db_indirect = 0
      · have holdlow : st.inode.blocks < MAX_NBLOCK_INDIRECT := by
          by_contra h
          push_neg at h
          have := (hG.2.2.2.2.2.1 _ (meta_mem_claimed (db_mem_metaIds h))).1
          omega
        rw [if_pos hdbz] at hrun
        cases hd : alloc_block_expect { st with inode :=
            { st.inode with blocks := ceilB len } } with
        | error e =>
          rw [hd] at hrun
          simp only [bindE_err] at hrun
          cases hrun
        | ok q =>
          obtain ⟨did, sD⟩ := q
          rw [hd] at hrun
          simp only [bindE_ok] at hrun
          rw [if_pos holdlow] at hrun
          obtain ⟨hDdev, hDinode, hDfm, hDub, hDlen, hDbit⟩ := alloc_expect_char hd
          have hDdev' : sD.dev = st.dev := hDdev
          have hDinode' : sD.inode =
              { st.inode with blocks := ceilB len } := hDinode
          have hDfm' : sD.freemap = st.freemap.set did false := hDfm
          have hDlenst : did < st.freemap.length := hDlen
          have hDbitst : st.freemap.getD did false = true := hDbit
          have hdid0 : 0 < did := by
            rcases Nat.eq_zero_or_pos did with rfl | hp
            · rw [hG.2.2.2.2.2.2.1] at hDbitst
              cases hDbitst
            · exact hp
          have hdid32 : did % 2 ^ 32 = did :=
            Nat.mod_eq_of_lt (lt_of_lt_of_le hDlenst hG.2.2.2.2.2.2.2)
          have h12old : NDIRECT ≤ st.inode.blocks := by
            rw [NDIRECT_eq]
            rcases Nat.lt_or_ge st.inode.blocks 12 with h | h
            · exfalso
              apply hcA
              refine ⟨by rw [NDIRECT_eq]; omega, ?_⟩
              rw [NDIRECT_eq]
              rw [MAX_NBLOCK_INDIRECT_eq] at hcB
              omega
            · exact h
          cases hp : resizeAllocPages { sD with inode :=
              { sD.inode with db_indirect := did % 2 ^ 32 } } 0
              ((ceilB len - MAX_NBLOCK_INDIRECT) / BLK_NENTRY + 1) with
          | error e =>
            rw [hp] at hrun
            simp only [bindE_err] at hrun
            cases hrun
          | ok t1 =>
            rw [hp] at hrun
            simp only [bindE_ok] at hrun
            obtain ⟨hM1, h1bl, hBnd, h1inode⟩ :=
              @leaf_high_package st hG (ceilB len) hlt (by omega) hcB
                { sD with inode :=
                  { sD.inode with db_indirect := did % 2 ^ 32 } } 0
                (show _ = ceilB len from by
                  show sD.inode.blocks = ceilB len
                  rw [hDinode'])
                (show _ = st.inode.direct from by
                  show sD.inode.direct = st.inode.direct
                  rw [hDinode'])
                hDdev'
                (by
                  show sD.freemap.length = st.freemap.length
                  rw [hDfm']
                  simp)
                (by
                  intro c hc
                  show sD.freemap.getD c false = false
                  rw [hDfm']
                  exact set_false_getD _ _ _ hc)
                (Or.inl ⟨by
                    show sD.inode.indirect = st.inode.indirect
                    rw [hDinode'], h12old⟩)
                (Or.inr ⟨holdlow, rfl,
                  by
                    show 0 < did % 2 ^ 32
                    rw [hdid32]
                    exact hdid0,
                  by
                    show did % 2 ^ 32 < st.freemap.length
                    rw [hdid32]
                    exact hDlenst,
                  by
                    show st.freemap.getD (did % 2 ^ 32) false = true
                    rw [hdid32]
                    exact hDbitst,
                  by
                    show sD.freemap.getD (did % 2 ^ 32) false = false
                    rw [hdid32, hDfm']
                    exact set_false_getD_self _ _,
                  by
                    show did % 2 ^ 32 ≠ sD.inode.indirect
                    rw [hdid32, hDinode']
                    show did ≠ st.inode.indirect
                    intro h
                    have := (hG.2.2.2.2.2.1 _
                      (meta_mem_claimed (indirect_mem_metaIds h12old))).2.2
                    rw [← h] at this
                    rw [this] at hDbitst
                    cases hDbitst⟩)
                t1 hp
            obtain ⟨g1, g2, g3, g4, g5⟩ := resize_tail_char hsz hM1 h1bl
              (by
                rw [h1inode]
                show sD.inode.size = st.inode.size
                rw [hDinode'])
              (by
                rw [h1inode]
                show sD.inode.type_ = st.inode.type_
                rw [hDinode'])
              (by
                rw [h1inode]
                show sD.inode.nlinks = st.inode.nlinks
                rw [hDinode'])
              hble hrun
            exact ⟨g1, g2, g3, g4, fun _ => g5⟩
      · rw [if_neg hdbz, bindE_ok] at hrun
        have holdMNI : MAX_NBLOCK_INDIRECT ≤ st.inode.blocks := by
          by_contra h
          push_neg at h
          exact hdbz (hG.2.2.2.1 h)
        rw [if_neg (by omega)] at hrun
        cases hp : resizeAllocPages { st with inode :=
            { st.inode with blocks := ceilB len } }
            ((st.inode.blocks - MAX_NBLOCK_INDIRECT) / BLK_NENTRY + 1)
            ((ceilB len - MAX_NBLOCK_INDIRECT) / BLK_NENTRY + 1) with
        | error e =>
          rw [hp, bindE_err] at hrun
          cases hrun
        | ok t1 =>
          rw [hp, bindE_ok] at hrun
          have h12old : NDIRECT ≤ st.inode.blocks := by
            rw [NDIRECT_eq]
            rw [MAX_NBLOCK_INDIRECT_eq] at holdMNI
            omega
          obtain ⟨hM1, h1bl, hBnd, h1inode⟩ :=
            @leaf_high_package st hG (ceilB len) hlt (by omega) hcB
              { st with inode := { st.inode with blocks := ceilB len } }
              ((st.inode.blocks - MAX_NBLOCK_INDIRECT) / BLK_NENTRY + 1)
              rfl rfl rfl rfl
              (fun c hc => hc)
              (Or.inl ⟨rfl, h12old⟩)
              (Or.inl ⟨rfl, holdMNI, rfl⟩)
              t1 hp
          obtain ⟨g1, g2, g3, g4, g5⟩ := resize_tail_char hsz hM1 h1bl
            (by rw [h1inode])
            (by rw [h1inode])
            (by rw [h1inode])
            hble hrun
          exact ⟨g1, g2, g3, g4, fun _ => g5⟩
    next hcB =>
      rw [bindE_ok] at hrun
      have hBlt : ceilB len < MAX_NBLOCK_INDIRECT := by omega
      have hM2 : MidGood { st with inode :=
          { st.inode with blocks := ceilB len } } st.inode.blocks := by
        refine leaf_low_package hG hlt hBlt rfl rfl rfl rfl rfl
          (fun c hc => hc) (Or.inl ⟨rfl, ?_⟩)
        intro h12B
        rw [NDIRECT_eq]
        rcases Nat.lt_or_ge st.inode.blocks 12 with h | h
        · exfalso
          apply hcA
          refine ⟨by rw [NDIRECT_eq]; omega, ?_⟩
          exact h12B
        · exact h
      obtain ⟨g1, g2, g3, g4, g5⟩ := resize_tail_char hsz hM2 rfl rfl rfl rfl
        hble hrun
      exact ⟨g1, g2, g3, g4, fun _ => g5⟩

/-! ## INode-level read/write round trip (claims C1, C2) -/

theorem map_getD_range (l : List Nat) :
    (List.range l.length).map (fun j => l.getD j 0) = l := by
  apply List.ext_getElem
  · simp
  · intro i h1 h2
    simp [List.getD_eq_getElem?_getD, List.getElem?_eq_getElem h2]

/-- Reading back `buf.length` bytes stored at file offsets
`[off, off + buf.length)` of a consistent file returns `buf`. -/
theorem read_back_gen {st' : SfsState} (hG' : Good st') (off : Nat)
    (buf : List Nat) (hty' : st'.inode.type_ = FileType.File)
    (hlen : off + buf.length ≤ st'.inode.size)
    (hvals : ∀ j, j < buf.length →
      st'.dev (addrOf st' (off + j)) = buf.getD j 0) :
    vfs_read_at st' off buf.length = .ok buf := by
  have hr : vfs_read_at st' off buf.length = _read_at st' off buf.length := by
    unfold vfs_read_at
    rw [hty']
  rw [hr, _read_at_char hG' off buf.length]
  have h1 : min st'.inode.size (off + buf.length) = off + buf.length := by
    omega
  have h2 : min st'.inode.size off = off := by omega
  rw [h1, h2]
  have h3 : off + buf.length - off = buf.length := by omega
  rw [h3]
  have hcg : (List.range buf.length).map
        (fun j => st'.dev (addrOf st' (off + j))) =
      (List.range buf.length).map (fun j => buf.getD j 0) :=
    List.map_congr_left fun j hj => hvals j (List.mem_range.mp hj)
  rw [hcg, map_getD_range]

/-- `_write_at` at offset 0, entirely within the current size: it consumes
the whole buffer, leaves inode/freemap untouched, keeps the invariant and
stores the buffer bytes at the mapped addresses. -/
theorem write_at_zero_char {st : SfsState} (hG : Good st) {buf : List Nat}
    (hlen : buf.length ≤ st.inode.size) {n : Nat} {st' : SfsState}
    (hrun : _write_at st 0 buf = .ok (n, st')) :
    n = buf.length ∧ Good st' ∧ st'.inode = st.inode ∧
    (∀ j, j < buf.length → st'.dev (addrOf st' j) = buf.getD j 0) := by
  have hbb : buf.length ≤ st.inode.blocks * BLKSIZE := by
    calc buf.length ≤ st.inode.size := hlen
      _ ≤ ceilB st.inode.size * BLKSIZE := ceilB_size_le _
      _ = st.inode.blocks * BLKSIZE := by rw [hG.1]
  unfold _write_at at hrun
  rw [Nat.min_zero] at hrun
  have hminb : min st.inode.size (0 + buf.length) = buf.length := by omega
  rw [hminb] at hrun
  obtain ⟨st2, hw2, hinode, hfm, hub, hvals, hframe⟩ :=
    writeRanges_char buf buf.length st st.inode.blocks 0 buf.length 0 hG.2
      (le_refl _) (by omega) hbb (by omega)
  rw [hw2] at hrun
  have hpair := Except.ok.inj hrun
  have hn : n = buf.length := by
    have h1 := congrArg Prod.fst hpair
    dsimp only at h1
    omega
  have hst : st2 = st' := congrArg Prod.snd hpair
  subst hst
  obtain ⟨hMG2, hdm⟩ := frame_preserves hG.2 (le_refl _) hbb hinode hfm hub
    hframe
  refine ⟨hn, ⟨?_, ?_⟩, hinode, ?_⟩
  · show st2.inode.blocks = ceilB st2.inode.size
    rw [hinode]
    exact hG.1
  · show MidGood st2 st2.inode.blocks
    rw [hinode]
    exact hMG2
  · intro j hj
    have ha : addrOf st2 j = addrOf st j :=
      addrOf_eq_of_dmap hdm (by omega)
    rw [ha]
    have hv := hvals j (by omega) hj
    simpa using hv


/-- C1: on an SFS file inode, `write_at(0, b)` followed by
`read_at(0, len(b))` returns exactly the bytes of `b`; the write consumes
all `len(b)` bytes, and when `len(b)` exceeds the current size the file
has first been grown (via `_resize(0 + len)`) so the final size is
`max(size, len(b))`. -/
theorem C1_write_read_roundtrip {st : SfsState} (hG : Good st)
    (hty : st.inode.type_ = FileType.File) {buf : List Nat} {n : Nat}
    {st' : SfsState} (hrun : vfs_write_at st 0 buf = .ok (n, st')) :
    n = buf.length ∧ st'.inode.size = max st.inode.size buf.length ∧
    vfs_read_at st' 0 buf.length = .ok buf := by
  have hw : vfs_write_at st 0 buf =
      (do
        let st1 ←
          if st.inode.size < 0 + buf.length then _resize st (0 + buf.length)
          else Except.ok st
        _write_at st1 0 buf) := by
    unfold vfs_write_at
    rw [hty]
  rw [hw] at hrun
  by_cases hgrow : st.inode.size < 0 + buf.length
  · rw [if_pos hgrow] at hrun
    cases hre : _resize st (0 + buf.length) with
    | error e =>
      rw [hre, bindE_err] at hrun
      cases hrun
    | ok st1 =>
      rw [hre, bindE_ok] at hrun
      obtain ⟨hG1, hsz1, hty1, hnl1, hzero1⟩ := resize_ok_char hG (by omega) hre
      have hlen1 : buf.length ≤ st1.inode.size := by omega
      obtain ⟨hn, hG2, hinode2, hvals2⟩ := write_at_zero_char hG1 hlen1 hrun
      refine ⟨hn, ?_, ?_⟩
      · rw [hinode2, hsz1]
        omega
      · exact read_back_gen hG2 0 buf
          (by rw [hinode2, hty1, hty])
          (by rw [hinode2]; omega)
          (fun j hj => by rw [Nat.zero_add]; exact hvals2 j hj)
  · rw [if_neg hgrow, bindE_ok] at hrun
    obtain ⟨hn, hG2, hinode2, hvals2⟩ := write_at_zero_char hG (by omega) hrun
    refine ⟨hn, ?_, ?_⟩
    · rw [hinode2]
      omega
    · exact read_back_gen hG2 0 buf
        (by rw [hinode2, hty])
        (by rw [hinode2]; omega)
        (fun j hj => by rw [Nat.zero_add]; exact hvals2 j hj)

/-- A small consistent filesystem state: empty file, 8-block freemap with
block 0 (the inode itself) in use. -/
def demo_st0 : SfsState :=
  { dev := fun _ => 0,
    freemap := [false, true, true, true, true, true, true, true],
    unused_blocks := 7,
    inode := { type_ := .File, size := 0, blocks := 0,
               direct := List.replicate NDIRECT 0, indirect := 0,
               db_indirect := 0, nlinks := 1 } }

def c1_wst : SfsState :=
  match vfs_write_at demo_st0 0 [7, 8, 9] with
  | .ok p => p.2
  | .error _ => demo_st0

theorem C1_write_read_roundtrip_witness :
    vfs_read_at c1_wst 0 3 = .ok [7, 8, 9] :=
  (@C1_write_read_roundtrip demo_st0 (by decide) rfl [7, 8, 9] 3 c1_wst
    rfl).2.2


/-! ## C2: resize zero-fill -/

def c2x_s1 : SfsState :=
  match vfs_write_at demo_st0 0 [1, 1, 1, 1] with
  | .ok p => p.2
  | .error _ => demo_st0

def c2x_s2 : SfsState :=
  match vfs_resize c2x_s1 2 with
  | .ok st => st
  | .error _ => c2x_s1

def c2x_s3 : SfsState :=
  match vfs_resize c2x_s2 4 with
  | .ok st => st
  | .error _ => c2x_s2

/-- C2 counterexample: a file of size M = 2 (after writing four 1-bytes and
shrinking to 2) grown by `resize(4)` to N = 4 does not read zeros in the
grown region `[2, 4)`: the new length needs no additional block, `_resize`
takes its `Ordering::Equal` branch, which only stores the new size and
never zero-fills, so `read_at(2, 2)` returns the stale bytes `[1, 1]`. -/
theorem C2_counterexample :
    c2x_s2.inode.type_ = FileType.File ∧
    c2x_s2.inode.size = 2 ∧ (2 : Nat) < 4 ∧ (4 : Nat) ≤ MAX_FILE_SIZE ∧
    vfs_resize c2x_s2 4 = .ok c2x_s3 ∧
    vfs_read_at c2x_s3 2 2 = .ok [1, 1] ∧
    vfs_read_at c2x_s3 2 2 ≠ .ok (List.replicate 2 0) := by
  refine ⟨rfl, rfl, by decide, by decide, rfl, rfl, ?_⟩
  intro h
  rw [show vfs_read_at c2x_s3 2 2 = .ok [1, 1] from rfl] at h
  exact absurd (Except.ok.inj h) (by decide)

/-- C2 (amended): after a successful `resize(N)` on a file of size `M < N`
that strictly increases the block count, the grown region `[M, N)` reads
back as `N - M` zero bytes. -/
theorem C2_resize_zero_fill {st : SfsState} (hG : Good st)
    (hty : st.inode.type_ = FileType.File) {N : Nat}
    (hMN : st.inode.size < N) (hgrow : st.inode.blocks < ceilB N)
    {st' : SfsState} (hrun : vfs_resize st N = .ok st') :
    vfs_read_at st' st.inode.size (N - st.inode.size) =
      .ok (List.replicate (N - st.inode.size) 0) := by
  unfold vfs_resize at hrun
  rw [if_neg (fun hc => hc.1 hty)] at hrun
  obtain ⟨hG', hsz', hty', hnl', hz⟩ := resize_ok_char hG (by omega) hrun
  have hz' := hz hgrow
  have hre := read_back_gen hG' st.inode.size
    (List.replicate (N - st.inode.size) 0)
    (by rw [hty', hty])
    (by rw [List.length_replicate, hsz']; omega)
    (by
      intro j hj
      rw [List.length_replicate] at hj
      rw [replicate_getD _ _ hj]
      exact hz' _ (by omega) (by omega))
  rwa [List.length_replicate] at hre

def c2_wst : SfsState :=
  match vfs_resize demo_st0 5 with
  | .ok st => st
  | .error _ => demo_st0

theorem C2_resize_zero_fill_witness :
    vfs_read_at c2_wst 0 5 = .ok (List.replicate 5 0) :=
  @C2_resize_zero_fill demo_st0 (by decide) rfl 5 (by decide) (by decide)
    c2_wst rfl


end RcoreFs
